import Mathlib

/-!
Verification of the Feishu block-tree → Markdown conversion engine.

This file gives a shallow embedding, in Lean 4, of the conversion core of
the repository (the browser-side `PAGEMAIN_EXTRACT_JS` script in
`feishu_cdp.py`, plus the Python helpers `cleanup_markdown` in
`core/markdown.py` and `resolve_and_download_images` in `core/extract.py`),
and proves or refutes the specification claims about it.

Modelling conventions:
* JavaScript / Python strings are embedded as `List Char` (`Str` below).
* JavaScript truthiness of string-valued fields is modelled by letting the
  empty list stand for both the absent and the empty (falsy) value, except
  where the source distinguishes the two (e.g. `op.attributes`), in which
  case `Option` is used.
* `decodeURIComponent` is kept abstract: every function that needs it takes
  a parameter `dec : Str → Option Str`, `none` meaning the decoder threw.
* External collaborator state (the spreadsheet handles reachable from a
  sheet block, the block-state registry and the previously materialised DOM
  table used as fallbacks by `sheetToMd`) is a parameter `SheetEnv`; its
  accessors return `Option` values, `none` modelling an absent value or a
  thrown (and caught) access, exactly at the spots where the source wraps
  accesses in `try`/optional chaining.
-/

namespace Feishu

/-- Embedded strings: JS/Python strings as lists of characters. -/
abbrev Str := List Char

/-- Concatenation of a list of strings (JS `parts.join('')`). -/
def joinAll (l : List Str) : Str := l.foldr (· ++ ·) []

/-- JS `Array.prototype.join(sep)`. -/
def joinSep (sep : Str) : List Str → Str
  | [] => []
  | [x] => x
  | x :: y :: xs => x ++ sep ++ joinSep sep (y :: xs)

/-- Removal of a single trailing newline: JS `s.replace(/\n$/, '')`. -/
def stripNL1 (s : Str) : Str :=
  if s.getLast? = some '\n' then s.dropLast else s

/-- HTML escaping, from `esc` in the extraction script.  The source chains
`replace(/&/g,'&amp;').replace(/</g,'&lt;').replace(/>/g,'&gt;')`; since no
replacement string contains a character replaced by a later step that was
not already present, the chain equals this single character-wise pass. -/
def escHtml (s : Str) : Str :=
  s.flatMap fun c =>
    if c = '&' then "&amp;".toList
    else if c = '<' then "&lt;".toList
    else if c = '>' then "&gt;".toList
    else [c]

/-- Parsed payload of a `mention_doc` inline component (`ic.data`). -/
structure MentionData where
  title : Str
  rawUrl : Str
  deriving DecidableEq

/-- Parsed `attr['inline-component']` value.  The source stores a JSON
string and parses it inside a `try`; we embed the parse result, with
`none` (at the use site) standing for both an absent attribute and a parse
failure, which the source treats identically (no substitution). -/
structure InlineComp where
  type : String
  data : Option MentionData
  deriving DecidableEq

/-- Inline-run style attributes (`op.attributes`).  String-valued fields
use `[]` for the absent/falsy value. -/
structure Attrs where
  fixEnter : Bool
  equation : Str
  inlineCode : Bool
  inlineComponent : Option InlineComp
  textHighlight : Str
  textHighlightBackground : Str
  strikethrough : Bool
  bold : Bool
  italic : Bool
  link : Str
  deriving DecidableEq

/-- The all-absent attribute record (JS `{}` after `op.attributes || {}`). -/
def Attrs.empty : Attrs :=
  ⟨false, [], false, none, [], [], false, false, false, []⟩

/-- One inline run (`op`): inserted text plus optional attributes. -/
structure Op where
  insert : Str
  attributes : Option Attrs
  deriving DecidableEq

/-- Colour / background wrapping step of `opsToMd` (`feishu_cdp.py`
lines 117-125): background wins over foreground; a value equal to the
`'inherit'` sentinel is treated as unset. -/
def colorWrap (fgRaw bgRaw text : Str) : Str :=
  let fg := if fgRaw = [] then "inherit".toList else fgRaw
  let bg := if bgRaw = [] then "inherit".toList else bgRaw
  if bg ≠ "inherit".toList then
    "<mark style=\"background:".toList ++ bg ++ "\">".toList
      ++ escHtml text ++ "</mark>".toList
  else if fg ≠ "inherit".toList then
    "<font color=\"".toList ++ fg ++ "\">".toList
      ++ escHtml text ++ "</font>".toList
  else text

/-- Mention substitution step of `opsToMd` (lines 105-113): a parsed
`mention_doc` component appends its title to the run text and overwrites
the link attribute with its raw URL. -/
def mentionAdjust (a : Attrs) (text : Str) : Str × Str :=
  match a.inlineComponent with
  | some ic =>
    if ic.type = "mention_doc" then
      match ic.data with
      | some d => (text ++ d.title, d.rawUrl)
      | none => (text, a.link)
    else (text, a.link)
  | none => (text, a.link)

/-- Rendering of one inline run, from the loop body of `opsToMd`
(`feishu_cdp.py` lines 86-137).  `none` models `continue` (nothing is
pushed); `dec` is `decodeURIComponent`, with the raw link used when the
decoder throws. -/
def opToMd (dec : Str → Option Str) (op : Op) : Option Str :=
  match op.attributes with
  | none => if op.insert = "\n".toList then none else some op.insert
  | some a =>
    if a.fixEnter then none
    else if a.equation ≠ [] then
      some ("$".toList ++ stripNL1 a.equation ++ "$".toList)
    else if a.inlineCode then
      some ("`".toList ++ op.insert ++ "`".toList)
    else
      let td := mentionAdjust a op.insert
      let md0 := if a.textHighlight ≠ [] ∨ a.textHighlightBackground ≠ [] then
          colorWrap a.textHighlight a.textHighlightBackground td.1
        else td.1
      let md1 := if a.strikethrough then "~~".toList ++ md0 ++ "~~".toList else md0
      let md2 := if a.bold then "**".toList ++ md1 ++ "**".toList else md1
      let md3 := if a.italic then "*".toList ++ md2 ++ "*".toList else md2
      let md4 := if td.2 ≠ [] then
          "[".toList ++ md3 ++ "](".toList ++ ((dec td.2).getD td.2) ++ ")".toList
        else md3
      some md4

/-- Inline content of a block: `opsToMd` (lines 83-139). -/
def opsToMd (dec : Str → Option Str) (ops : List Op) : Str :=
  if ops = [] then [] else joinAll (ops.filterMap (opToMd dec))

/-! ## Claim C1: fixed style-nesting order (spec section 4.1) -/

/-- Style attributes as the specification describes them (section 3):
independent fields, optional colour tokens and link target.
Modelled from the spec for the refinement statement of claim C1. -/
structure SpecStyle where
  bold : Bool
  italic : Bool
  strikethrough : Bool
  foregroundColor : Option Str
  highlightBackground : Option Str
  linkTarget : Option Str

/-- Style composition exactly as the words of spec section 4.1 prescribe,
innermost to outermost: (1) background-highlight span over the HTML-escaped
text, else foreground-colour span over the HTML-escaped text; (2) strike
markers; (3) bold markers; (4) italic markers; (5) a Markdown link to the
percent-decoded target, raw on decode failure.
Modelled from the spec for the refinement statement of claim C1. -/
def composeSpec (dec : Str → Option Str) (text : Str) (st : SpecStyle) : Str :=
  let s1 := match st.highlightBackground with
    | some bg =>
      "<mark style=\"background:".toList ++ bg ++ "\">".toList
        ++ escHtml text ++ "</mark>".toList
    | none => match st.foregroundColor with
      | some fg =>
        "<font color=\"".toList ++ fg ++ "\">".toList
          ++ escHtml text ++ "</font>".toList
      | none => text
  let s2 := if st.strikethrough then "~~".toList ++ s1 ++ "~~".toList else s1
  let s3 := if st.bold then "**".toList ++ s2 ++ "**".toList else s2
  let s4 := if st.italic then "*".toList ++ s3 ++ "*".toList else s3
  match st.linkTarget with
  | some l => "[".toList ++ s4 ++ "](".toList ++ ((dec l).getD l) ++ ")".toList
  | none => s4

/-- Claim C1: for every inline run with neither inline-code nor inline-math
set and no structured mention, carrying any combination of bold, italic,
strikethrough, foreground colour, highlight background and link target
(colour values being genuine colour tokens, i.e. not the `'inherit'`
sentinel the source uses for "unset"), the composed markup of `opsToMd`
equals the spec's fixed nesting order, innermost to outermost:
HTML-escaped background span (else foreground span), then strikethrough,
then bold, then italic, then a Markdown link to the percent-decoded target
(raw on decode failure).  The order is the same for every combination and,
the attributes being record fields, cannot depend on any input ordering. -/
theorem style_nesting_order (dec : Str → Option Str) (text fg bg lk : Str)
    (b i st : Bool)
    (hfg : fg ≠ "inherit".toList) (hbg : bg ≠ "inherit".toList) :
    opToMd dec ⟨text, some ⟨false, [], false, none, fg, bg, st, b, i, lk⟩⟩ =
      some (composeSpec dec text
        ⟨b, i, st, if fg = [] then none else some fg,
         if bg = [] then none else some bg,
         if lk = [] then none else some lk⟩) := by
  have hfg' : fg ≠ ['i', 'n', 'h', 'e', 'r', 'i', 't'] := hfg
  have hbg' : bg ≠ ['i', 'n', 'h', 'e', 'r', 'i', 't'] := hbg
  unfold opToMd composeSpec mentionAdjust colorWrap
  by_cases hbg0 : bg = [] <;> by_cases hfg0 : fg = [] <;> by_cases hlk : lk = [] <;>
    simp [hbg0, hfg0, hlk, hfg', hbg']

/-- Witness for claim C1: the theorem applied at a concrete run carrying
all six attributes. -/
theorem style_nesting_order_witness :
    ("red".toList ≠ "inherit".toList) ∧ ("yellow".toList ≠ "inherit".toList) ∧
    opToMd (fun s => some s)
        ⟨"x".toList, some ⟨false, [], false, none, "red".toList, "yellow".toList,
          true, true, true, "u".toList⟩⟩ =
      some (composeSpec (fun s => some s) "x".toList
        ⟨true, true, true,
         if "red".toList = ([] : Str) then none else some "red".toList,
         if "yellow".toList = ([] : Str) then none else some "yellow".toList,
         if "u".toList = ([] : Str) then none else some "u".toList⟩) :=
  ⟨by decide, by decide,
   style_nesting_order (fun s => some s) "x".toList "red".toList "yellow".toList
     "u".toList true true true (by decide) (by decide)⟩

/-! ## Claim C8: structured-mention substitution -/

/-- The identity decoder: `decodeURIComponent` on strings without escape
sequences. Used to instantiate concrete examples. -/
def decId : Str → Option Str := fun s => some s

/-- Claim C8 counterexample: the source *appends* the mention title to the
run's own text (`text = text + ic.data.title`, `feishu_cdp.py` line 109)
rather than substituting it, so for a run whose text is `"X"` carrying a
mention with title `"T"` and URL `"u"`, the composed link label is `"XT"`,
not exactly the mention's display text `"T"` as the claim states. -/
theorem mention_label_counterexample :
    opToMd decId
        ⟨"X".toList, some ⟨false, [], false,
          some ⟨"mention_doc", some ⟨"T".toList, "u".toList⟩⟩,
          [], [], false, false, false, []⟩⟩ = some "[XT](u)".toList ∧
    ("[XT](u)".toList : Str) ≠ "[T](u)".toList := by
  constructor
  · decide
  · decide

/-- Claim C8 as amended: for every inline run carrying a resolvable
structured mention (and neither inline-code nor inline-math), the composer
appends the mention's display text to the run's text and sets the link
target to the resolved URI before the standard wrapping pipeline of
section 4.1 runs; the composed output is a Markdown link whose label is
the run text followed by the display text (exactly the display text when
the run text is empty), styled per the run's other attributes, and whose
target is the resolved URI. -/
theorem mention_substitution (dec : Str → Option Str)
    (text title url fg bg lk : Str) (b i st : Bool)
    (hurl : url ≠ []) (hfg : fg ≠ "inherit".toList) (hbg : bg ≠ "inherit".toList) :
    opToMd dec ⟨text, some ⟨false, [], false,
        some ⟨"mention_doc", some ⟨title, url⟩⟩, fg, bg, st, b, i, lk⟩⟩ =
      some (composeSpec dec (text ++ title)
        ⟨b, i, st, if fg = [] then none else some fg,
         if bg = [] then none else some bg, some url⟩) := by
  have hfg' : fg ≠ ['i', 'n', 'h', 'e', 'r', 'i', 't'] := hfg
  have hbg' : bg ≠ ['i', 'n', 'h', 'e', 'r', 'i', 't'] := hbg
  unfold opToMd composeSpec mentionAdjust colorWrap
  by_cases hbg0 : bg = [] <;> by_cases hfg0 : fg = [] <;>
    simp [hbg0, hfg0, hurl, hfg', hbg']

/-- Witness for the amended claim C8, at a concrete mention-carrying run. -/
theorem mention_substitution_witness :
    ("u".toList ≠ ([] : Str)) ∧ ("".toList ≠ "inherit".toList ∨ True) ∧
    opToMd decId ⟨"".toList, some ⟨false, [], false,
        some ⟨"mention_doc", some ⟨"T".toList, "u".toList⟩⟩,
        [], [], false, true, false, []⟩⟩ =
      some (composeSpec decId ("".toList ++ "T".toList)
        ⟨true, false, false,
         if ("".toList : Str) = [] then none else some "".toList,
         if ("".toList : Str) = [] then none else some "".toList,
         some "u".toList⟩) :=
  ⟨by decide, Or.inr trivial,
   mention_substitution decId "".toList "T".toList "u".toList "".toList "".toList
     [] true false false (by decide) (by decide) (by decide)⟩

/-! ## Block data model -/

/-- Zone content carrying the inline runs (`zoneState.content`). -/
structure ContentZ where
  ops : Option (List Op)
  deriving DecidableEq

/-- Editor zone state of a block (`block.zoneState`). -/
structure ZoneState where
  content : Option ContentZ
  allText : Option Str
  deriving DecidableEq

/-- Image payload of an image block (`block.snapshot.image`). -/
structure ImageSnap where
  token : Str
  name : Str
  deriving DecidableEq

/-- Kind-dependent snapshot record of a block (`block.snapshot`), with the
fields the extraction script reads.  Absent fields are `none`/`[]`. -/
structure Snapshot where
  seq : Option Str
  columnsId : Option (List String)
  token : Str
  image : Option ImageSnap
  done : Bool
  language : Option Str
  iframeUrl : Option Str
  isvData : Option Str
  deriving DecidableEq

/-- The all-absent snapshot. -/
def Snapshot.empty : Snapshot := ⟨none, none, [], none, false, none, none, none⟩

/-- Record reference of a block (`block.record`). -/
structure RecordId where
  id : String
  deriving DecidableEq

/-- One node of the document block tree.  `hasImageManager` embeds the
truthiness of `block.imageManager && block.imageManager.fetch`; `language`
is the top-level `block.language` fallback read by the code-block case. -/
inductive Block where
  | mk (id : String) (type : String) (snapshot : Option Snapshot)
      (zoneState : Option ZoneState) (record : Option RecordId)
      (hasImageManager : Bool) (language : Option Str)
      (children : List Block)

def Block.id : Block → String
  | .mk i _ _ _ _ _ _ _ => i

def Block.type : Block → String
  | .mk _ t _ _ _ _ _ _ => t

def Block.snapshot : Block → Option Snapshot
  | .mk _ _ sn _ _ _ _ _ => sn

def Block.zoneState : Block → Option ZoneState
  | .mk _ _ _ zs _ _ _ _ => zs

def Block.record : Block → Option RecordId
  | .mk _ _ _ _ rc _ _ _ => rc

def Block.hasImageManager : Block → Bool
  | .mk _ _ _ _ _ im _ _ => im

def Block.language : Block → Option Str
  | .mk _ _ _ _ _ _ lg _ => lg

def Block.children : Block → List Block
  | .mk _ _ _ _ _ _ _ cs => cs

/-- Plain content block with only id, type and children populated. -/
def blk (i t : String) (cs : List Block) : Block :=
  .mk i t none none none false none cs

/-- Text content of a block, from `blockText` (`feishu_cdp.py` lines
142-150): inline ops if reachable, else the zone's `allText` with a single
trailing newline removed, else the empty string. -/
def blockText (dec : Str → Option Str) (b : Block) : Str :=
  match b.zoneState with
  | none => []
  | some zs =>
    match zs.content with
    | some c =>
      match c.ops with
      | some ops => opsToMd dec ops
      | none => stripNL1 (zs.allText.getD [])
    | none => stripNL1 (zs.allText.getD [])

/-! ## Claim C4: the flattening pass (`flatChildren`, lines 154-176) -/

/-- The `/^heading\d$/` test of the source. -/
def isHeadingDigit (t : String) : Bool :=
  ["heading0", "heading1", "heading2", "heading3", "heading4", "heading5",
   "heading6", "heading7", "heading8", "heading9"].contains t

/-- The flattening pass, from `flatChildren` (`feishu_cdp.py` lines
154-176), as a pure list transformation: `synced_source` nodes are replaced
in place by their flattened children; heading and `text` nodes (and
`toggle_heading` nodes) are emitted and additionally have their flattened
children appended; everything else passes through.  The `_parent` pointer
injection performed by the source while flattening is tracked separately by
`flatChildrenP` below. -/
def flatChildren : List Block → List Block
  | [] => []
  | .mk i ty sn zs rc im lg cs :: rest =>
    if ty = "synced_source" then
      flatChildren cs ++ flatChildren rest
    else if isHeadingDigit ty ∨ ty = "text" then
      .mk i ty sn zs rc im lg cs ::
        ((if cs.length ≠ 0 then flatChildren cs else []) ++ flatChildren rest)
    else
      .mk i ty sn zs rc im lg cs ::
        ((if ty = "toggle_heading" ∧ cs.length ≠ 0 then flatChildren cs else [])
          ++ flatChildren rest)

/-- Kinds whose children are expanded (emitted-and-appended) by the
flattening pass. -/
def expandKind (t : String) : Bool :=
  isHeadingDigit t || t = "text" || t = "toggle_heading"

/-- No synced-reference node survives one flattening pass. -/
theorem no_synced_in_flatChildren :
    ∀ l : List Block, ∀ b ∈ flatChildren l, b.type ≠ "synced_source" := by
  intro l
  induction l using flatChildren.induct with
  | case1 => simp [flatChildren]
  | case2 i sn zs rc im lg cs rest ih1 ih2 =>
    intro b hb
    simp only [flatChildren, reduceIte] at hb
    rcases List.mem_append.mp hb with hb | hb
    · exact ih1 b hb
    · exact ih2 b hb
  | case3 i ty sn zs rc im lg cs rest hty hhd ih1 ih2 =>
    intro b hb
    simp only [flatChildren, if_neg hty, if_pos hhd] at hb
    rcases List.mem_cons.mp hb with rfl | hb
    · simpa [Block.type] using hty
    · rcases List.mem_append.mp hb with hb | hb
      · split at hb
        · exact ih1 b hb
        · simp at hb
      · exact ih2 b hb
  | case4 i ty sn zs rc im lg cs rest hty hhd ih1 ih2 =>
    intro b hb
    simp only [flatChildren, if_neg hty, if_neg hhd] at hb
    rcases List.mem_cons.mp hb with rfl | hb
    · simpa [Block.type] using hty
    · rcases List.mem_append.mp hb with hb | hb
      · split at hb
        · exact ih1 b hb
        · simp at hb
      · exact ih2 b hb

/-- Flattening is the identity on lists with no synced-reference node and
no expandable node carrying children. -/
theorem flatChildren_fixed :
    ∀ l : List Block,
      (∀ b ∈ l, b.type ≠ "synced_source" ∧ (expandKind b.type → b.children = [])) →
      flatChildren l = l := by
  intro l
  induction l with
  | nil => simp [flatChildren]
  | cons c rest ih =>
    rintro h
    obtain ⟨i, ty, sn, zs, rc, im, lg, cs⟩ := c
    have hc := h _ (List.mem_cons_self _ _)
    have hrest := fun b hb => h b (List.mem_cons_of_mem _ hb)
    simp only [Block.type, Block.children] at hc
    simp only [flatChildren, if_neg hc.1]
    by_cases hhd : isHeadingDigit ty = true ∨ ty = "text"
    · have hcs : cs = [] := hc.2 (by simp [expandKind]; tauto)
      simp [hhd, hcs, ih hrest]
    · simp only [if_neg hhd]
      by_cases htg : ty = "toggle_heading"
      · have hcs : cs = [] := hc.2 (by simp [expandKind, htg])
        simp [htg, hcs, ih hrest]
      · simp [htg, ih hrest]

/-- Claim C4 counterexample input: a heading node carrying one text child. -/
def c4List : List Block := [blk "h" "heading1" [blk "t" "text" []]]

/-- Claim C4 counterexample: flattening is not idempotent.  A heading node
is emitted with its children intact, and its children are appended after
it, so a second pass expands the surviving heading again and duplicates the
child: one pass of `flatChildren` over a heading-with-one-text-child yields
the node list `[h, t]`, a second pass yields `[h, t, t]`. -/
theorem flatten_idempotent_counterexample :
    flatChildren (flatChildren c4List) ≠ flatChildren c4List := by
  have e1 : flatChildren c4List =
      [blk "h" "heading1" [blk "t" "text" []], blk "t" "text" []] := by
    simp [c4List, flatChildren, blk, isHeadingDigit]
  have e2 : flatChildren [blk "h" "heading1" [blk "t" "text" []], blk "t" "text" []] =
      [blk "h" "heading1" [blk "t" "text" []], blk "t" "text" [], blk "t" "text" []] := by
    simp [flatChildren, blk, isHeadingDigit]
  rw [e1, e2]
  intro h
  have h2 := congrArg (fun l => l.map Block.id) h
  simp [blk, Block.id] at h2

/-- Claim C4 as amended: no synced-reference node survives the first
flattening pass, and re-flattening an already-flattened child list yields
the same list *provided* no heading, plain-text or expandable-heading node
of the flattened list still carries children — the pass emits such nodes
with their children intact (while also appending the flattened children),
so when one of them keeps a non-empty child list a second pass duplicates
its children rather than being the identity. -/
theorem flatten_idempotent_amended (l : List Block) :
    (∀ b ∈ flatChildren l, b.type ≠ "synced_source") ∧
    ((∀ b ∈ flatChildren l, expandKind b.type → b.children = []) →
      flatChildren (flatChildren l) = flatChildren l) := by
  refine ⟨no_synced_in_flatChildren l, fun h => ?_⟩
  exact flatChildren_fixed (flatChildren l)
    (fun b hb => ⟨no_synced_in_flatChildren l b hb, h b hb⟩)

/-- Input for the claim C4 witness: a childless heading and a bullet whose
children are not expanded. -/
def c4WitnessList : List Block :=
  [blk "h" "heading1" [], blk "u" "bullet" [blk "x" "text" []]]

/-- Witness for the amended claim C4: on a flattened list containing a
childless heading and a bullet (whose children the pass does not expand),
re-flattening is the identity. -/
theorem flatten_idempotent_amended_witness :
    flatChildren (flatChildren c4WitnessList) = flatChildren c4WitnessList := by
  have hflat : flatChildren c4WitnessList = c4WitnessList := by
    simp [c4WitnessList, flatChildren, blk, isHeadingDigit]
  refine (flatten_idempotent_amended c4WitnessList).2 ?_
  rw [hflat]
  intro b hb
  simp only [c4WitnessList, List.mem_cons, List.mem_singleton] at hb
  rcases hb with rfl | rfl | h
  · simp [expandKind, blk, Block.type, Block.children, isHeadingDigit]
  · simp [expandKind, blk, Block.type, Block.children, isHeadingDigit]
  · simp at h

/-! ## Claim C2: sibling numbering for ordered items -/

/-- Decimal digit rendering helper (most significant digit first). -/
def natCharsAux : Nat → Nat → Str
  | 0, _ => []
  | fuel + 1, n =>
    if n < 10 then [Nat.digitChar n]
    else natCharsAux fuel (n / 10) ++ [Nat.digitChar (n % 10)]

/-- Decimal rendering of a natural number, embedding the JS
number-to-string coercion in `seq + '. '`. -/
def natChars (n : Nat) : Str := natCharsAux (n + 1) n

/-- The scanning loop of the `'ordered'` case (`feishu_cdp.py` lines
456-466): walk the parent's children, incrementing the counter at each
`'ordered'` sibling and resetting it to zero at anything else, and stop at
the first sibling whose id matches the target (`sib === block || sib.id ===
block.id`; reference identity implies id identity, so the pure model
compares ids).  `none` means the target was never found. -/
def orderedScanGo (targetId : String) : List Block → Nat → Option Nat
  | [], _ => none
  | sib :: rest, count =>
    let count' := if sib.type = "ordered" then count + 1 else 0
    if sib.id = targetId then some count' else orderedScanGo targetId rest count'

/-- Automatic sequence number of an ordered item (`feishu_cdp.py` lines
452-467): 1 without a parent reference, otherwise the scan result (staying
at the initial 1 when the target is not among the children), clamped to a
minimum of 1. -/
def orderedSeqAuto (parent : Option Block) (b : Block) : Nat :=
  let seq := match parent with
    | some p => (orderedScanGo b.id p.children 0).getD 1
    | none => 1
  if seq < 1 then 1 else seq

/-- Validity test on the stored sequence (`!seq || seq === 'auto' || seq
=== 'undefined'`). -/
def seqInvalid : Option Str → Bool
  | none => true
  | some s => s = [] ∨ s = "auto".toList ∨ s = "undefined".toList

/-- Displayed sequence string of an ordered item: the stored snapshot value
verbatim when valid, else the computed sibling number. -/
def orderedSeqStr (sv : Option Str) (parent : Option Block) (b : Block) : Str :=
  if seqInvalid sv then natChars (orderedSeqAuto parent b) else sv.getD []

/-- The parent's children up to and including the first one whose id is the
target's, `none` when the target is absent.
Modelled from the spec for the refinement statement of claim C2. -/
def uptoTarget (targetId : String) : List Block → Option (List Block)
  | [] => none
  | b :: rest =>
    if b.id = targetId then some [b] else (uptoTarget targetId rest).map (b :: ·)

/-- Sibling numbering as the words of spec section 4.2 prescribe: scan the
parent's children in order until reaching the target, incrementing a
counter for each ordered item and resetting it to zero at every
non-ordered sibling, and take the count so far with a minimum of 1
(defaulting to 1 when the target is absent).
Modelled from the spec for the refinement statement of claim C2. -/
def specSiblingNumber (siblings : List Block) (targetId : String) : Nat :=
  match uptoTarget targetId siblings with
  | none => 1
  | some pre =>
    max 1 (pre.foldl (fun acc b => if b.type = "ordered" then acc + 1 else 0) 0)

theorem orderedScanGo_eq (targetId : String) :
    ∀ (l : List Block) (c : Nat),
      orderedScanGo targetId l c =
        (uptoTarget targetId l).map
          (fun pre => pre.foldl
            (fun acc b => if b.type = "ordered" then acc + 1 else 0) c) := by
  intro l
  induction l with
  | nil => intro c; simp [orderedScanGo, uptoTarget]
  | cons b rest ih =>
    intro c
    by_cases h : b.id = targetId
    · simp [orderedScanGo, uptoTarget, h]
    · simp only [orderedScanGo, uptoTarget, if_neg h, ih, Option.map_map]
      rfl

/-- The three-sibling scenario of claim C2: ordered, bulleted, ordered. -/
def c2Parent : Block :=
  blk "p" "page" [blk "o1" "ordered" [], blk "b2" "bullet" [], blk "o3" "ordered" []]

/-- Claim C2: an ordered item with no explicit valid sequence number is
numbered 1 when no parent reference is available; with a parent, its number
is the increment-per-ordered, reset-at-non-ordered counter over the
parent's children up to the item, with a minimum of 1; and in a sibling
sequence ordered-bulleted-ordered both ordered items are numbered 1.  The
displayed string uses this computed number exactly when the stored sequence
is absent or invalid. -/
theorem ordered_sibling_numbering (b : Block) :
    orderedSeqAuto none b = 1 ∧
    (∀ p : Block, orderedSeqAuto (some p) b = specSiblingNumber p.children b.id) ∧
    (∀ sv parent, seqInvalid sv = true →
      orderedSeqStr sv parent b = natChars (orderedSeqAuto parent b)) ∧
    (orderedSeqAuto (some c2Parent) (blk "o1" "ordered" []) = 1 ∧
     orderedSeqAuto (some c2Parent) (blk "o3" "ordered" []) = 1) := by
  refine ⟨rfl, fun p => ?_, fun sv parent h => by simp [orderedSeqStr, h], by decide⟩
  simp only [orderedSeqAuto, specSiblingNumber, orderedScanGo_eq]
  cases hfd : uptoTarget b.id p.children with
  | none => simp
  | some pre =>
    simp only [Option.map_some', Option.getD_some]
    split <;> omega

/-- Witness for claim C2 at a concrete ordered item and parent, with an
invalid stored sequence. -/
theorem ordered_sibling_numbering_witness :
    seqInvalid (some "auto".toList) = true ∧
    orderedSeqStr (some "auto".toList) (some c2Parent) (blk "o3" "ordered" []) =
      natChars (orderedSeqAuto (some c2Parent) (blk "o3" "ordered" [])) :=
  ⟨by decide,
   (ordered_sibling_numbering (blk "o3" "ordered" [])).2.2.1
     (some "auto".toList) (some c2Parent) (by decide)⟩

/-! ## Claim C3: fixed-grid table rendering (`tableToMd`, lines 179-201) -/

/-- Escape of literal pipes in a cell (`replace(/\|/g, '\\|')`). -/
def escPipes (s : Str) : Str :=
  s.flatMap fun c => if c = '|' then ['\\', '|'] else [c]

/-- Replacement of newlines by spaces in a cell (`replace(/\n/g, ' ')`). -/
def nlToSpace (s : Str) : Str :=
  s.map fun c => if c = '\n' then ' ' else c

/-- The row-splitting loop of `tableToMd`: slice the flattened cell list
into rows of `colCount` cells (`cells.slice(i, i + colCount)`). -/
def chunkRows (n : Nat) : List Block → List (List Block)
  | [] => []
  | c :: rest => (c :: rest).take n :: chunkRows n (rest.drop (n - 1))
  termination_by l => l.length
  decreasing_by
    simp only [List.length_cons, List.length_drop]
    omega

/-- Rendered text of one table cell: the cell's child subtrees' texts
joined by single spaces, with pipes escaped and newlines flattened. -/
def cellText (dec : Str → Option Str) (cell : Block) : Str :=
  nlToSpace (escPipes (joinSep " ".toList (cell.children.map (blockText dec))))

/-- One Markdown table row. -/
def tableRowLine (cells : List Str) : Str :=
  "| ".toList ++ joinSep " | ".toList cells ++ " |".toList

/-- The dash separator row emitted after row 0. -/
def tableSepLine (cells : List Str) : Str :=
  "| ".toList ++ joinSep " | ".toList (cells.map fun _ => "---".toList) ++ " |".toList

/-- The lines built by `tableToMd` (`feishu_cdp.py` lines 179-201): empty
when the declared column count is zero or there are no cells; otherwise one
line per row plus the separator after row 0. -/
def tableLines (dec : Str → Option Str) (b : Block) : List Str :=
  let colCount := ((b.snapshot.bind Snapshot.columnsId).getD []).length
  if colCount = 0 ∨ b.children.length = 0 then []
  else
    match chunkRows colCount b.children with
    | [] => []
    | r0 :: rest =>
      let t0 := r0.map (cellText dec)
      tableRowLine t0 :: tableSepLine t0 ::
        rest.map (fun r => tableRowLine (r.map (cellText dec)))

/-- Fixed-grid table rendering: the lines joined by newlines. -/
def tableToMd (dec : Str → Option Str) (b : Block) : Str :=
  joinSep "\n".toList (tableLines dec b)

theorem chunkRows_length :
    ∀ (M : Nat) {N : Nat} (l : List Block), 1 ≤ N → l.length = M * N →
      (chunkRows N l).length = M := by
  intro M
  induction M with
  | zero =>
    intro N l _ hl
    simp only [Nat.zero_mul, List.length_eq_zero] at hl
    subst hl
    simp [chunkRows]
  | succ M ih =>
    intro N l hN hl
    match l with
    | [] => simp [Nat.succ_mul] at hl; omega
    | c :: rest =>
      rw [chunkRows]
      simp only [List.length_cons, Nat.succ_mul] at hl
      have hdrop : (rest.drop (N - 1)).length = M * N := by
        simp only [List.length_drop]
        omega
      simp [ih (rest.drop (N - 1)) hN hdrop]

/-- A table snapshot with the given column ids. -/
def tableSnap (cols : List String) : Snapshot :=
  { Snapshot.empty with columnsId := some cols }

/-- A table cell block wrapping one plain text run. -/
def cellBlk (i : String) (s : Str) : Block :=
  .mk i "table_cell" none none none false none
    [.mk (i ++ "t") "text" none (some ⟨some ⟨some [⟨s, none⟩]⟩, none⟩) none false none []]

/-- The empty table of the C3 counterexample: one declared column, zero
cells. -/
def c3EmptyTable : Block :=
  .mk "tbl0" "table" (some (tableSnap ["c1"])) none none false none []

/-- Claim C3 counterexample: for M = 0 the claim demands M + 1 = 1 output
row (a lone separator), but the source returns the empty string as soon as
the cell list is empty (`!block.children.length`), i.e. zero output rows. -/
theorem table_rows_counterexample :
    tableLines decId c3EmptyTable = [] ∧ tableToMd decId c3EmptyTable = [] ∧
    (tableLines decId c3EmptyTable).length ≠ 0 + 1 := by
  refine ⟨?_, ?_, ?_⟩ <;> simp [tableLines, tableToMd, c3EmptyTable, tableSnap,
    Snapshot.empty, Block.children, Block.snapshot, Snapshot.columnsId, joinSep]

/-- The table scenario of claim C3: columns = 2, cells A B C D. -/
def c3Table : Block :=
  .mk "tbl" "table" (some (tableSnap ["c1", "c2"])) none none false none
    [cellBlk "a" "A".toList, cellBlk "b" "B".toList,
     cellBlk "c" "C".toList, cellBlk "d" "D".toList]

/-- Claim C3 as amended: for every fixed-grid table block with declared
column count N ≥ 1 and M * N cells, the rendered Markdown has exactly
M + 1 output rows (M data rows plus the separator emitted after row 0)
for every M ≥ 1; for M = 0 the source renders the empty string (zero
rows) rather than the claimed single separator row.  In the concrete
instance columns = 2 with cells A, B, C, D the output is
`| A | B |\n| --- | --- |\n| C | D |`. -/
theorem table_rows_amended :
    (∀ (dec : Str → Option Str) (b : Block) (N M : Nat),
      ((b.snapshot.bind Snapshot.columnsId).getD []).length = N → 1 ≤ N →
      b.children.length = M * N → 1 ≤ M →
      (tableLines dec b).length = M + 1) ∧
    tableToMd decId c3Table =
      "| A | B |\n| --- | --- |\n| C | D |".toList := by
  constructor
  · intro dec b N M hN hN1 hM hM1
    have hcells : b.children.length ≠ 0 := by
      rw [hM]; positivity
    simp only [tableLines, hN, if_neg (by omega : ¬(N = 0 ∨ b.children.length = 0))]
    have hlen := chunkRows_length M b.children hN1 hM
    cases hchunk : chunkRows N b.children with
    | nil => rw [hchunk] at hlen; simp at hlen; omega
    | cons r0 rest =>
      rw [hchunk] at hlen
      simp only [List.length_cons] at hlen ⊢
      simp only [List.length_map]
      omega
  · simp [tableToMd, tableLines, c3Table, tableSnap, Snapshot.empty, cellBlk,
      Block.children, Block.snapshot, Snapshot.columnsId, chunkRows,
      cellText, blockText, Block.zoneState, opsToMd, opToMd, joinAll, joinSep,
      escPipes, nlToSpace, tableRowLine, tableSepLine, decId]

/-- Witness for the amended claim C3 at the concrete 2x2 scenario table. -/
theorem table_rows_amended_witness :
    (((c3Table.snapshot.bind Snapshot.columnsId).getD []).length = 2) ∧
    (c3Table.children.length = 2 * 2) ∧
    (tableLines decId c3Table).length = 2 + 1 := by
  refine ⟨?_, ?_, table_rows_amended.1 decId c3Table 2 2 ?_ (by omega) ?_ (by omega)⟩ <;>
    simp [c3Table, tableSnap, Snapshot.empty, Block.snapshot, Block.children,
      Snapshot.columnsId, cellBlk]

/-! ## Sheet and DOM-fallback rendering (`sheetToMd`, `domTableToMd`) -/

/-- Substring test (JS `String.prototype.includes`). -/
def strContains : Str → Str → Bool
  | [], pat => pat.isEmpty
  | c :: t, pat => pat.isPrefixOf (c :: t) || strContains t pat

/-- ASCII whitespace set shared by JS `trim()` and Python `strip()` (the
characters the source can actually encounter). -/
def pyWs (c : Char) : Bool :=
  c = ' ' || c = '\t' || c = '\n' || c = '\r' || c = Char.ofNat 11 || c = Char.ofNat 12

/-- Whitespace trimming at both ends. -/
def trimWs (s : Str) : Str :=
  ((s.dropWhile pyWs).reverse.dropWhile pyWs).reverse

/-- JS `String.prototype.split(sep)` for a one-character separator. -/
def splitOnCharGo (ch : Char) : Str → Str → List Str
  | [], acc => [acc.reverse]
  | c :: rest, acc =>
    if c = ch then acc.reverse :: splitOnCharGo ch rest []
    else splitOnCharGo ch rest (c :: acc)

def splitOnChar (ch : Char) (s : Str) : List Str := splitOnCharGo ch s []

/-- The `_font` object of a cell style, when it is an object. -/
structure FontObj where
  fontWeight : Option Nat
  fontStyle : Option Str
  textDecoration : Option Str

/-- A cell style's font: either an object or a CSS font string
(`typeof font === 'object'` vs string in the source). -/
inductive FontVal where
  | obj (o : FontObj)
  | str (s : Str)

/-- Cell style as read by `sheetToMd` (lines 256-276).  The colour fields
embed the source's truthiness-coalescing reads (`style._foreColor ||
style.foreColor || ''` and `style._backColor || style._backgroundColor ||
style.backColor || ''`); `font` embeds `style._font || style.font || {}`
with `none` for the final `{}` default. -/
structure CellStyle where
  foreColor : Str
  backColor : Str
  font : Option FontVal

def fontIsBold : Option FontVal → Bool
  | some (.obj o) => 700 ≤ o.fontWeight.getD 0
  | some (.str s) => strContains s "bold".toList
  | none => false

def fontIsItalic : Option FontVal → Bool
  | some (.obj o) => o.fontStyle = some "italic".toList
  | some (.str s) => strContains s "italic".toList
  | none => false

def fontIsStrike : Option FontVal → Bool
  | some (.obj o) => o.textDecoration = some "line-through".toList
  | some (.str s) => strContains s "line-through".toList
  | none => false

/-- The `DEFAULT_COLORS` alias list of the source (line 255). -/
def defaultColors : List Str :=
  ["#1f2329".toList, "rgb(31, 35, 41)".toList, "rgb(31,35,41)".toList,
   "#000000".toList, "rgb(0, 0, 0)".toList, "rgb(0,0,0)".toList,
   "inherit".toList, []]

/-- One rich-text segment of the `_segmentArray` fallback (lines 282-301),
with the source's truthiness-coalescing alias reads (`seg.text ||
seg.value`, `s.strikethrough || s.st`, etc.) embedded as single fields. -/
structure Seg where
  text : Str
  strikethrough : Bool
  bold : Bool
  italic : Bool
  fontColor : Str
  backgroundColor : Str

/-- A foreground-colour span. -/
def fontSpan (fc inner : Str) : Str :=
  "<font color=\"".toList ++ fc ++ "\">".toList ++ inner ++ "</font>".toList

/-- A background-highlight span. -/
def markSpan (bg inner : Str) : Str :=
  "<mark style=\"background:".toList ++ bg ++ "\">".toList ++ inner ++ "</mark>".toList

/-- Rendering of one rich-text segment (the loop at lines 285-299). -/
def segToMd (seg : Seg) : Str :=
  let t := seg.text
  let t := if seg.strikethrough then "~~".toList ++ t ++ "~~".toList else t
  let t := if seg.bold then "**".toList ++ t ++ "**".toList else t
  let t := if seg.italic then "*".toList ++ t ++ "*".toList else t
  let t := if seg.fontColor ≠ [] ∧ ¬ defaultColors.contains seg.fontColor then
      fontSpan seg.fontColor (escHtml t)
    else t
  if seg.backgroundColor ≠ [] ∧ seg.backgroundColor ≠ "inherit".toList ∧
      seg.backgroundColor ≠ "transparent".toList then
    markSpan seg.backgroundColor (escHtml t)
  else t

/-- A resolved spreadsheet handle: the queryable surface the source reaches
through `collaSpread._spread.sheets[idx]` and its `_dataModel`.  Accessors
return `none` where the source's `try`/null checks would skip
(`getValue`/`getText` throwing, `getStyle` throwing or falsy,
`contentModel.get` missing or without segments). -/
structure SheetHandle where
  rowCount : Nat
  colCount : Nat
  getValue : Nat → Nat → Option Str
  getText : Nat → Nat → Option Str
  getStyle : Nat → Nat → Option CellStyle
  segments : Nat → Nat → Option (List Seg)

/-- A previously materialised DOM table cell (`domTableToMd`, lines
324-363).  `text` is the cell's `innerText`; `hasLineThrough`, `color` and
`background` embed the source's regex extraction from the cell's `style`
attribute (an external DOM surface), already matched and trimmed. -/
structure DomCell where
  text : Str
  hasLineThrough : Bool
  color : Option Str
  background : Option Str

/-- External collaborator state reachable from sheet blocks: the
sheetId-to-handle map built at lines 54-77, the `sheetBlocksState` registry
(lines 212-219) and the DOM fallback (lines 224-228). -/
structure SheetEnv where
  sheetMap : Str → Option SheetHandle
  sheetBlocksState : String → Option Str
  dom : String → Option (List (List DomCell))

/-- The environment with nothing resolvable. -/
def emptyEnv : SheetEnv := ⟨fun _ => none, fun _ => none, fun _ => none⟩

/-- Value of one spreadsheet cell (the body of the double loop at lines
240-307): primary value accessor with text fallback, style decoration,
rich-text-segment override, then pipe/newline escaping. -/
def sheetCellVal (sh : SheetHandle) (r c : Nat) : Str :=
  let val := match sh.getValue r c with
    | some v => v
    | none => (sh.getText r c).getD []
  let val := match sh.getStyle r c with
    | none => val
    | some st =>
      let val := if fontIsStrike st.font ∧ ¬ strContains val "~~".toList then
          "~~".toList ++ val ++ "~~".toList else val
      let val := if fontIsBold st.font ∧ ¬ strContains val "**".toList then
          "**".toList ++ val ++ "**".toList else val
      let val := if fontIsItalic st.font ∧ ¬ strContains val "*".toList then
          "*".toList ++ val ++ "*".toList else val
      let val := if st.backColor ≠ [] ∧ st.backColor ≠ "inherit".toList ∧
          st.backColor ≠ "transparent".toList ∧ ¬ strContains val "<mark".toList then
          markSpan st.backColor (escHtml val) else val
      let val := if st.foreColor ≠ [] ∧ ¬ defaultColors.contains st.foreColor ∧
          ¬ strContains val "<font".toList then
          fontSpan st.foreColor (escHtml val) else val
      val
  let val := match sh.segments r c with
    | some segs =>
      if segs.length > 0 then
        let parts := segs.map segToMd
        if parts.length > 0 then joinAll parts else val
      else val
    | none => val
  nlToSpace (escPipes val)

/-- Markdown grid lines: one line per row, dash separator after row 0
(shared shape of the loops at lines 313-319 and 357-362). -/
def sheetGridLines : List (List Str) → List Str
  | [] => []
  | r0 :: rest => tableRowLine r0 :: tableSepLine r0 :: rest.map tableRowLine

/-- Rendered text of one DOM table cell (lines 330-350). -/
def domCellText (cell : DomCell) : Str :=
  let t := nlToSpace (escPipes (trimWs cell.text))
  let t := if cell.hasLineThrough then "~~".toList ++ t ++ "~~".toList else t
  let t := match cell.color with
    | some cv =>
      if cv ≠ "inherit".toList ∧ cv ≠ "rgb(0, 0, 0)".toList then
        "<font color=\"".toList ++ cv ++ "\">".toList ++ t ++ "</font>".toList
      else t
    | none => t
  match cell.background with
  | some bgv =>
    "<mark style=\"background:".toList ++ bgv ++ "\">".toList ++ t ++ "</mark>".toList
  | none => t

/-- DOM-table fallback rendering (`domTableToMd`, lines 324-363): render
each cell, pad all rows to the maximal column count with empty cells, emit
grid lines. -/
def domTableToMd (tbl : List (List DomCell)) : Str :=
  if tbl.length = 0 then []
  else
    let allRows := tbl.map fun row => row.map domCellText
    let maxCols := allRows.foldl (fun m r => max m r.length) 0
    let padded := allRows.map fun r => r ++ List.replicate (maxCols - r.length) []
    joinSep "\n".toList (sheetGridLines padded)

/-- Sheet-block rendering (`sheetToMd`, lines 204-321): extract the sheet
id from the block token (suffix after the last underscore) or the
block-state registry; fall back to the DOM table or an explicit
"data not loaded" placeholder when no handle resolves; otherwise render
the full value grid. -/
def sheetToMd (env : SheetEnv) (b : Block) : Str :=
  let token := (b.snapshot.map Snapshot.token).getD []
  let sheetId : Str := if token.contains '_' then
      ((splitOnChar '_' token).getLast?).getD []
    else []
  let sheetId := if sheetId = [] then
      match b.record with
      | some rc => if rc.id ≠ "" then (env.sheetBlocksState rc.id).getD [] else []
      | none => []
    else sheetId
  match env.sheetMap sheetId with
  | none =>
    match env.dom b.id with
    | some tbl => domTableToMd tbl
    | none =>
      "> ⚠️ Sheet block (数据未加载, sheetId=".toList ++ sheetId ++ ")\n".toList
  | some sh =>
    if sh.rowCount = 0 ∨ sh.colCount = 0 then []
    else
      let rows := (List.range sh.rowCount).map fun r =>
        (List.range sh.colCount).map fun c => sheetCellVal sh r c
      if rows.length = 0 then []
      else joinSep "\n".toList (sheetGridLines rows)

/-! ## Image rendering (`imageToMd`, lines 367-381) -/

/-- One entry of the `images` side list. -/
structure ImgRec where
  token : Str
  name : Str
  blockId : String
  deriving DecidableEq

/-- The image placeholder marker. -/
def markerStr : Str := "__IMAGE_TOKEN__".toList

/-- Image-block rendering: empty without an image snapshot; with one, an
image reference whose target is the token placeholder when a fetch-capable
image manager is present (in which case the token is also pushed on the
side list), and empty otherwise. -/
def imageToMd (b : Block) : Str × List ImgRec :=
  match b.snapshot.bind Snapshot.image with
  | none => ([], [])
  | some img =>
    let name := if img.name = [] then "image".toList else img.name
    if b.hasImageManager then
      ("![".toList ++ name ++ "](".toList ++ markerStr ++ img.token ++ ")".toList,
       [⟨img.token, name, b.id⟩])
    else
      ("![".toList ++ name ++ "]()".toList, [])

/-! ## The recursive block renderer (`blockToMd`, lines 384-521) -/

/-- The flattening pass together with the `_parent` injection the source
performs while flattening (`if (parent) child._parent = parent`): each
emitted node is paired with the parent assigned to it.  All call sites pass
a (truthy) parent block. -/
def flatChildrenP : List Block → Block → List (Block × Block)
  | [], _ => []
  | .mk i ty sn zs rc im lg cs :: rest, p =>
    if ty = "synced_source" then
      flatChildrenP cs (.mk i ty sn zs rc im lg cs) ++ flatChildrenP rest p
    else if isHeadingDigit ty ∨ ty = "text" then
      (.mk i ty sn zs rc im lg cs, p) ::
        ((if cs.length ≠ 0 then flatChildrenP cs (.mk i ty sn zs rc im lg cs) else [])
          ++ flatChildrenP rest p)
    else
      (.mk i ty sn zs rc im lg cs, p) ::
        ((if ty = "toggle_heading" ∧ cs.length ≠ 0 then
            flatChildrenP cs (.mk i ty sn zs rc im lg cs) else [])
          ++ flatChildrenP rest p)

/-- The parent-tracking pass emits the same node list as `flatChildren`. -/
theorem flatChildrenP_fst :
    ∀ (l : List Block) (p : Block), (flatChildrenP l p).map Prod.fst = flatChildren l := by
  intro l
  induction l using flatChildren.induct with
  | case1 => intro p; simp [flatChildren, flatChildrenP]
  | case2 i sn zs rc im lg cs rest ih1 ih2 =>
    intro p
    simp only [flatChildren, flatChildrenP, reduceIte, List.map_append, ih1, ih2]
  | case3 i ty sn zs rc im lg cs rest hty hhd ih1 ih2 =>
    intro p
    simp only [flatChildren, flatChildrenP, if_neg hty, if_pos hhd, List.map_cons,
      List.map_append]
    split <;> simp [ih1, ih2]
  | case4 i ty sn zs rc im lg cs rest hty hhd ih1 ih2 =>
    intro p
    simp only [flatChildren, flatChildrenP, if_neg hty, if_neg hhd, List.map_cons,
      List.map_append]
    split <;> simp [ih1, ih2]

theorem sizeOf_children_lt (b : Block) : sizeOf b.children < sizeOf b := by
  obtain ⟨i, ty, sn, zs, rc, im, lg, cs⟩ := b
  simp only [Block.children, Block.mk.sizeOf_spec]
  omega

theorem sizeOf_fst_of_mem_flatChildrenP :
    ∀ (l : List Block) (p : Block) (cq : Block × Block),
      cq ∈ flatChildrenP l p → sizeOf cq.1 < sizeOf l := by
  intro l p
  induction l, p using flatChildrenP.induct with
  | case1 p => intro cq h; simp [flatChildrenP] at h
  | case2 i sn zs rc im lg cs rest p ih1 ih2 =>
    intro cq h
    rw [flatChildrenP] at h
    rw [if_pos rfl] at h
    rcases List.mem_append.mp h with h | h
    · have := ih1 cq h
      simp only [List.cons.sizeOf_spec, Block.mk.sizeOf_spec]
      omega
    · have := ih2 cq h
      simp only [List.cons.sizeOf_spec]
      omega
  | case3 i ty sn zs rc im lg cs rest p hty hhd ih1 ih2 =>
    intro cq h
    rw [flatChildrenP, if_neg hty, if_pos hhd] at h
    rcases List.mem_cons.mp h with rfl | h
    · simp only [List.cons.sizeOf_spec]
      omega
    · rcases List.mem_append.mp h with h | h
      · split at h
        · have := ih1 cq h
          simp only [List.cons.sizeOf_spec, Block.mk.sizeOf_spec]
          omega
        · simp at h
      · have := ih2 cq h
        simp only [List.cons.sizeOf_spec]
        omega
  | case4 i ty sn zs rc im lg cs rest p hty hhd ih1 ih2 =>
    intro cq h
    rw [flatChildrenP, if_neg hty, if_neg hhd] at h
    rcases List.mem_cons.mp h with rfl | h
    · simp only [List.cons.sizeOf_spec]
      omega
    · rcases List.mem_append.mp h with h | h
      · split at h
        · have := ih1 cq h
          simp only [List.cons.sizeOf_spec, Block.mk.sizeOf_spec]
          omega
        · simp at h
      · have := ih2 cq h
        simp only [List.cons.sizeOf_spec]
        omega

/-- Indentation prefix `'  '.repeat(depth)`. -/
def indentSp (depth : Nat) : Str := joinAll (List.replicate depth "  ".toList)

/-- Raw code text of a code block with its three-stage fallback chain
(lines 409-424): zone full text, else concatenated op inserts, else the
children's texts joined by newlines. -/
def codeRaw (b : Block) : Str :=
  let code := match b.zoneState.bind ZoneState.allText with
    | some t => stripNL1 t
    | none => []
  let code := if code = [] then
      match (b.zoneState.bind ZoneState.content).bind ContentZ.ops with
      | some ops => stripNL1 (joinAll (ops.map Op.insert))
      | none => []
    else code
  if code = [] ∧ b.children.length ≠ 0 then
    stripNL1 (joinSep "\n".toList (b.children.map fun child =>
      let a := match child.zoneState.bind ZoneState.allText with
        | some t => stripNL1 t
        | none => []
      if a ≠ [] then a
      else joinAll (((((child.zoneState.bind ZoneState.content).bind ContentZ.ops)).getD []).map Op.insert)))
  else code

/-- Language tag of a code block: `(block.snapshot?.language ||
block.language || '').toLowerCase()`. -/
def codeLang (b : Block) : Str :=
  let l1 := (b.snapshot.bind Snapshot.language).getD []
  let l2 := if l1 = [] then b.language.getD [] else l1
  l2.map Char.toLower

/-- The recursive block dispatcher (`blockToMd`, `feishu_cdp.py` lines
384-521), returning the rendered Markdown together with the `images` side
list entries pushed during rendering (in push order).  `parent` is the
`block._parent` reference injected by `flatChildrenP` (grid columns render
their children without flattening, hence without a parent reference). -/
def blockToMd (dec : Str → Option Str) (env : SheetEnv) (b : Block)
    (parent : Option Block) (depth : Nat) : Str × List ImgRec :=
  let text := blockText dec b
  if b.type = "page" then
    let parts := (flatChildrenP b.children b).attach.map
      (fun ⟨cq, hcq⟩ => blockToMd dec env cq.1 (some cq.2) 0)
    (joinSep "\n\n".toList (parts.map Prod.fst), parts.flatMap Prod.snd)
  else if b.type = "heading1" then ("# ".toList ++ text, [])
  else if b.type = "heading2" then ("## ".toList ++ text, [])
  else if b.type = "heading3" then ("### ".toList ++ text, [])
  else if b.type = "heading4" then ("#### ".toList ++ text, [])
  else if b.type = "heading5" then ("##### ".toList ++ text, [])
  else if b.type = "heading6" then ("###### ".toList ++ text, [])
  else if b.type = "heading7" ∨ b.type = "heading8" ∨ b.type = "heading9" then (text, [])
  else if b.type = "text" then (text, [])
  else if b.type = "divider" then ("---".toList, [])
  else if b.type = "code" then
    ("```".toList ++ codeLang b ++ "\n".toList ++ codeRaw b ++ "\n```".toList, [])
  else if b.type = "quote_container" ∨ b.type = "callout" then
    let parts := (flatChildrenP b.children b).attach.map
      (fun ⟨cq, hcq⟩ => blockToMd dec env cq.1 (some cq.2) depth)
    let inner := joinSep "\n".toList (parts.map Prod.fst)
    (joinSep "\n".toList ((splitOnChar '\n' inner).map (fun l => "> ".toList ++ l)),
     parts.flatMap Prod.snd)
  else if b.type = "bullet" then
    let base := indentSp depth ++ "- ".toList ++ text
    if b.children.length ≠ 0 then
      let parts := (flatChildrenP b.children b).attach.map
        (fun ⟨cq, hcq⟩ => blockToMd dec env cq.1 (some cq.2) (depth + 1))
      let sub := (parts.map Prod.fst).filter (· ≠ [])
      (if sub.length ≠ 0 then base ++ "\n".toList ++ joinSep "\n".toList sub else base,
       parts.flatMap Prod.snd)
    else (base, [])
  else if b.type = "ordered" then
    let seqs := orderedSeqStr (b.snapshot.bind Snapshot.seq) parent b
    let base := indentSp depth ++ seqs ++ ". ".toList ++ text
    if b.children.length ≠ 0 then
      let parts := (flatChildrenP b.children b).attach.map
        (fun ⟨cq, hcq⟩ => blockToMd dec env cq.1 (some cq.2) (depth + 1))
      let sub := (parts.map Prod.fst).filter (· ≠ [])
      (if sub.length ≠ 0 then base ++ "\n".toList ++ joinSep "\n".toList sub else base,
       parts.flatMap Prod.snd)
    else (base, [])
  else if b.type = "todo" then
    let done := if (b.snapshot.map Snapshot.done).getD false then "x".toList else " ".toList
    ("- [".toList ++ done ++ "] ".toList ++ text, [])
  else if b.type = "table" then (tableToMd dec b, [])
  else if b.type = "sheet" then (sheetToMd env b, [])
  else if b.type = "image" then imageToMd b
  else if b.type = "grid" then
    let colParts := b.children.attach.map
      (fun ⟨col, hcol⟩ =>
        let inner := col.children.attach.map
          (fun ⟨ch, hch⟩ => blockToMd dec env ch none depth)
        (joinSep "\n\n".toList (inner.map Prod.fst), inner.flatMap Prod.snd))
    (joinSep "\n\n".toList (colParts.map Prod.fst), colParts.flatMap Prod.snd)
  else if b.type = "iframe" then
    match b.snapshot.bind Snapshot.iframeUrl with
    | some u => if u ≠ [] then ("[iframe](".toList ++ u ++ ")".toList, []) else ([], [])
    | none => ([], [])
  else if b.type = "isv" then
    match b.snapshot.bind Snapshot.isvData with
    | some d =>
      if d ≠ [] then ("```mermaid\n".toList ++ d ++ "\n```".toList, []) else ([], [])
    | none => ([], [])
  else (text, [])
  termination_by sizeOf b
  decreasing_by
    all_goals simp_wf
    all_goals first
      | (have h1 := sizeOf_fst_of_mem_flatChildrenP b.children b cq hcq
         have h2 := sizeOf_children_lt b
         omega)
      | (have h1 := List.sizeOf_lt_of_mem hcol
         have h2 := List.sizeOf_lt_of_mem hch
         have h3 := sizeOf_children_lt col
         have h4 := sizeOf_children_lt b
         omega)

/-! ## Claim C5: the conversion entry point -/

/-- Result record of the extraction script (`feishu_cdp.py` lines
523-531). -/
structure ExtractResult where
  markdown : Str
  images : List ImgRec
  title : Str
  blockCount : Nat

/-- The conversion entry point: the script returns `{error: 'PageMain not
found'}` when the root block model is unreachable (lines 46-49) — which the
Python caller turns into a failed call with no output text — and otherwise
renders the root and returns the markdown, image list, title and block
count. -/
def extract (dec : Str → Option Str) (env : SheetEnv) (tree : Option Block) :
    Except Str ExtractResult :=
  match tree with
  | none => .error "PageMain not found".toList
  | some root =>
    let r := blockToMd dec env root none 0
    .ok { markdown := r.1, images := r.2,
          title := match root.zoneState.bind ZoneState.allText with
            | some t => stripNL1 t
            | none => [],
          blockCount := root.children.length }

/-- The block kinds with a dedicated case in `blockToMd`'s dispatch. -/
def knownTypes : List String :=
  ["page", "heading1", "heading2", "heading3", "heading4", "heading5",
   "heading6", "heading7", "heading8", "heading9", "text", "divider", "code",
   "quote_container", "callout", "bullet", "ordered", "todo", "table",
   "sheet", "image", "grid", "iframe", "isv"]

/-- Claim C5: the conversion call fails exactly when the root tree is
absent — with the explicit `'PageMain not found'` error and no partial
output — and for every present tree it returns a result (the embedding of
the renderer is a total function, so rendering never raises); a block of
unknown kind degrades to its extractable text (which is the empty string
when there is none). -/
theorem conversion_fails_iff_no_tree (dec : Str → Option Str) (env : SheetEnv) :
    extract dec env none = .error "PageMain not found".toList ∧
    (∀ tree : Option Block, (extract dec env tree).isOk = true ↔ tree ≠ none) ∧
    (∀ (b : Block) (parent : Option Block) (depth : Nat), b.type ∉ knownTypes →
      blockToMd dec env b parent depth = (blockText dec b, [])) := by
  refine ⟨rfl, fun tree => ?_, fun b parent depth h => ?_⟩
  · cases tree <;> simp [extract, Except.isOk, Except.toBool]
  · simp only [knownTypes, List.mem_cons, List.mem_singleton, not_or] at h
    obtain ⟨hpage, h1, h2, h3, h4, h5, h6, h7, h8, h9, htext, hdiv, hcode,
      hquote, hcallout, hbullet, hordered, htodo, htable, hsheet, himage,
      hgrid, hiframe, hisv⟩ := h
    rw [blockToMd]
    simp [hpage, h1, h2, h3, h4, h5, h6, h7, h8, h9, htext, hdiv, hcode,
      hquote, hcallout, hbullet, hordered, htodo, htable, hsheet, himage,
      hgrid, hiframe, hisv]

/-- Witness for claim C5: the unknown-kind degradation at a concrete
unknown block. -/
theorem conversion_fails_iff_no_tree_witness :
    ((blk "x" "mystery" []).type ∉ knownTypes) ∧
    blockToMd decId emptyEnv (blk "x" "mystery" []) none 0 =
      (blockText decId (blk "x" "mystery" []), []) :=
  ⟨by decide,
   (conversion_fails_iff_no_tree decId emptyEnv).2.2 (blk "x" "mystery" []) none 0
     (by decide)⟩

/-! ## Claims C9/C10: `cleanup_markdown` (`core/markdown.py`) -/

/-- Left-to-right scan of `re.sub(r'\n{4,}', '\n\n\n', md)`: at each
position, a run of four or more newlines is consumed greedily and replaced
by exactly three, scanning resuming after the run; other characters are
copied. -/
def collapseNewlines : Str → Str
  | [] => []
  | c :: rest =>
    if h : ("\n\n\n\n".toList).isPrefixOf (c :: rest) then
      '\n' :: '\n' :: '\n' :: collapseNewlines ((c :: rest).dropWhile (· = '\n'))
    else c :: collapseNewlines rest
  termination_by s => s.length
  decreasing_by
    · have hc : c = '\n' := by
        simp only [String.toList, List.isPrefixOf, Bool.and_eq_true, beq_iff_eq] at h
        exact h.1.symm
      have h1 := (List.dropWhile_sublist (l := rest) (fun x => x = '\n')).length_le
      rw [List.dropWhile_cons_of_pos (by simp [hc])]
      simp only [List.length_cons]
      omega
    · simp

/-- Left-to-right scan of `re.sub(r' +\n', '\n', md)`: a maximal run of
spaces immediately followed by a newline is replaced (with the newline) by
a single newline, scanning resuming after it; other characters are
copied. -/
def stripSpacesNL : Str → Str
  | [] => []
  | c :: rest =>
    if c = ' ' ∧ (rest.dropWhile (· = ' ')).head? = some '\n' then
      '\n' :: stripSpacesNL ((rest.dropWhile (· = ' ')).tail)
    else c :: stripSpacesNL rest
  termination_by s => s.length
  decreasing_by
    · have h1 := (List.dropWhile_sublist (l := rest) (fun x => x = ' ')).length_le
      have h2 := (List.tail_sublist (rest.dropWhile (· = ' '))).length_le
      simp only [List.length_cons]
      omega
    · simp

/-- The title-prepend test of `cleanup_markdown`: a (truthy) title and a
normalized text that does not already start with a heading marker
(`title and not md_text.strip().startswith('#')`). -/
def titlePrependNeeded (title md2 : Str) : Bool :=
  title ≠ [] ∧ ¬ (trimWs md2).head? = some '#'

/-- `cleanup_markdown` (`core/markdown.py` lines 8-14): collapse newline
runs, strip spaces before newlines, prepend `"# " + title` and a blank line
when needed, strip the whole text and terminate it with one newline. -/
def cleanup_markdown (md title : Str) : Str :=
  let md1 := collapseNewlines md
  let md2 := stripSpacesNL md1
  let md3 := if titlePrependNeeded title md2 then
      "# ".toList ++ title ++ "\n\n".toList ++ md2
    else md2
  trimWs md3 ++ "\n".toList

/-- A list whose head survived `dropWhile p` fails `p`. -/
theorem head_dropWhile_ne (p : Char → Bool) :
    ∀ (l : Str) (a : Char), (l.dropWhile p).head? = some a → p a = false := by
  intro l
  induction l with
  | nil => intro a h; simp at h
  | cons c t ih =>
    intro a h
    by_cases hc : p c
    · rw [List.dropWhile_cons_of_pos hc] at h
      exact ih a h
    · rw [List.dropWhile_cons_of_neg hc] at h
      simp only [List.head?_cons, Option.some_inj] at h
      subst h
      simpa using hc

/-- Removing a trailing segment: `trimWs` output decomposition. -/
theorem trimWs_eq_append (s : Str) :
    ∃ w, s.dropWhile pyWs = trimWs s ++ w ∧ ∀ c ∈ w, pyWs c = true := by
  refine ⟨((s.dropWhile pyWs).reverse.takeWhile pyWs).reverse, ?_, ?_⟩
  · rw [trimWs]
    conv_lhs => rw [← List.reverse_reverse (s.dropWhile pyWs),
      ← List.takeWhile_append_dropWhile (p := pyWs) (s.dropWhile pyWs).reverse]
    rw [List.reverse_append]
  · intro c hc
    rw [List.mem_reverse] at hc
    exact List.mem_takeWhile_imp hc

/-- The head of the trimmed string is the head of the leading-stripped
string. -/
theorem trimWs_head (s : Str) (h : trimWs s ≠ []) :
    (trimWs s).head? = (s.dropWhile pyWs).head? := by
  obtain ⟨w, hw, -⟩ := trimWs_eq_append s
  rw [hw, List.head?_append_of_ne_nil _ h]

/-- The head of the trimmed string is not whitespace. -/
theorem trimWs_head_not_ws (s : Str) (a : Char) (h : (trimWs s).head? = some a) :
    pyWs a = false := by
  have hne : trimWs s ≠ [] := by intro he; rw [he] at h; simp at h
  rw [trimWs_head s hne] at h
  exact head_dropWhile_ne pyWs _ a h

/-- The last character of the trimmed string is not whitespace. -/
theorem trimWs_getLast_not_ws (s : Str) (a : Char)
    (h : (trimWs s).getLast? = some a) : pyWs a = false := by
  rw [trimWs, List.getLast?_reverse] at h
  exact head_dropWhile_ne pyWs _ a h

theorem strContains_cons (c : Char) (t pat : Str) :
    strContains (c :: t) pat = (pat.isPrefixOf (c :: t) || strContains t pat) := rfl

/-- A pattern starting with a newline is no prefix of a string that does
not start with one. -/
theorem nl_pat_not_prefix {u : Str} (hu : ∀ a, u.head? = some a → a ≠ '\n')
    (p : Str) : ('\n' :: p).isPrefixOf u = false := by
  cases u with
  | nil => rfl
  | cons d t =>
    have hd : d ≠ '\n' := hu d rfl
    show (('\n' : Char) == d && p.isPrefixOf t) = false
    simp [Ne.symm hd]

/-- The four-newline pattern as an explicit list. -/
theorem nl4_eq : "\n\n\n\n".toList = ['\n', '\n', '\n', '\n'] := rfl

/-- One unfolding step of `collapseNewlines` when no newline run starts. -/
theorem collapseNewlines_cons_of_neg {c : Char} {rest : Str}
    (h : ¬ ("\n\n\n\n".toList).isPrefixOf (c :: rest)) :
    collapseNewlines (c :: rest) = c :: collapseNewlines rest := by
  rw [collapseNewlines]
  rw [dif_neg h]

/-- `collapseNewlines` preserves the first character. -/
theorem collapseNewlines_head : ∀ s : Str, (collapseNewlines s).head? = s.head? := by
  intro s
  match s with
  | [] => simp [collapseNewlines]
  | c :: rest =>
    rw [collapseNewlines]
    by_cases h : ("\n\n\n\n".toList).isPrefixOf (c :: rest)
    · have h' := h
      simp only [nl4_eq, List.isPrefixOf, Bool.and_eq_true, beq_iff_eq] at h'
      rw [dif_pos h]
      simp only [List.head?_cons]
      exact congrArg some h'.1
    · rw [dif_neg h]
      rfl

/-- A run of at most three newlines is a prefix of `collapseNewlines s`
only if it is a prefix of `s`. -/
theorem collapse_nlRep_prefix :
    ∀ (s : Str) (k : Nat), k ≤ 3 →
      (List.replicate k '\n').isPrefixOf (collapseNewlines s) = true →
      (List.replicate k '\n').isPrefixOf s = true := by
  intro s
  induction s using collapseNewlines.induct with
  | case1 =>
    intro k _ h
    simp only [collapseNewlines] at h
    cases k with
    | zero => rfl
    | succ k => simp [List.replicate, List.isPrefixOf] at h
  | case2 c rest h ih =>
    intro k hk _
    have h' := h
    simp only [nl4_eq, List.isPrefixOf, Bool.and_eq_true, beq_iff_eq] at h'
    obtain ⟨hc, h2⟩ := h'
    cases rest with
    | nil => simp [List.isPrefixOf] at h2
    | cons d t =>
      simp only [List.isPrefixOf, Bool.and_eq_true, beq_iff_eq] at h2
      obtain ⟨hd, h3⟩ := h2
      cases t with
      | nil => simp [List.isPrefixOf] at h3
      | cons e u =>
        simp only [List.isPrefixOf, Bool.and_eq_true, beq_iff_eq] at h3
        obtain ⟨he, -⟩ := h3
        interval_cases k <;>
          simp [List.replicate, List.isPrefixOf, ← hc, ← hd, ← he]
  | case3 c rest h ih =>
    intro k hk hp
    rw [collapseNewlines_cons_of_neg h] at hp
    cases k with
    | zero => rfl
    | succ k =>
      simp only [List.replicate, List.isPrefixOf, Bool.and_eq_true, beq_iff_eq] at hp ⊢
      exact ⟨hp.1, ih k (by omega) hp.2⟩

/-- The first collapse pass leaves no run of four consecutive newlines. -/
theorem collapse_no_run4 :
    ∀ s : Str, strContains (collapseNewlines s) "\n\n\n\n".toList = false := by
  intro s
  induction s using collapseNewlines.induct with
  | case1 => simp [collapseNewlines, strContains]
  | case2 c rest h ih =>
    rw [collapseNewlines, dif_pos h]
    have hu : ∀ a, (collapseNewlines ((c :: rest).dropWhile (· = '\n'))).head? = some a →
        a ≠ '\n' := by
      intro a ha
      rw [collapseNewlines_head] at ha
      have := head_dropWhile_ne (fun x => x = '\n') (c :: rest) a ha
      simpa using this
    have e1 : ("\n\n\n\n".toList).isPrefixOf
        ('\n' :: '\n' :: '\n' :: collapseNewlines ((c :: rest).dropWhile (· = '\n')))
        = false := by
      simp only [nl4_eq, List.isPrefixOf, beq_self_eq_true, Bool.true_and]
      exact nl_pat_not_prefix hu []
    have e2 : ("\n\n\n\n".toList).isPrefixOf
        ('\n' :: '\n' :: collapseNewlines ((c :: rest).dropWhile (· = '\n'))) = false := by
      simp only [nl4_eq, List.isPrefixOf, beq_self_eq_true, Bool.true_and]
      exact nl_pat_not_prefix hu ['\n']
    have e3 : ("\n\n\n\n".toList).isPrefixOf
        ('\n' :: collapseNewlines ((c :: rest).dropWhile (· = '\n'))) = false := by
      simp only [nl4_eq, List.isPrefixOf, beq_self_eq_true, Bool.true_and]
      exact nl_pat_not_prefix hu ['\n', '\n']
    simp only [strContains_cons, e1, e2, e3, ih, Bool.or_false, Bool.false_or]
  | case3 c rest h ih =>
    rw [collapseNewlines_cons_of_neg h]
    simp only [strContains_cons, ih, Bool.or_false]
    by_cases hc : c = '\n'
    · subst hc
      by_cases h3 : (List.replicate 3 '\n').isPrefixOf (collapseNewlines rest) = true
      · exfalso
        have hr := collapse_nlRep_prefix rest 3 (by omega) h3
        apply h
        simp only [nl4_eq, List.isPrefixOf, beq_self_eq_true, Bool.true_and]
        simpa [List.replicate] using hr
      · rw [Bool.not_eq_true] at h3
        have hr : (['\n', '\n', '\n'] : Str).isPrefixOf (collapseNewlines rest) = false := by
          have e : List.replicate 3 '\n' = ['\n', '\n', '\n'] := rfl
          rw [e] at h3
          exact h3
        simp only [nl4_eq, List.isPrefixOf, beq_self_eq_true, Bool.true_and]
        exact hr
    · simp only [nl4_eq, List.isPrefixOf]
      simp [Ne.symm hc]

/-- The space-newline pattern as an explicit list. -/
theorem spnl_eq : " \n".toList = [' ', '\n'] := rfl

/-- If the space-stripped text begins with a newline, so does the original
text once its leading spaces are dropped. -/
theorem stripSpacesNL_head_nl :
    ∀ s : Str, (stripSpacesNL s).head? = some '\n' →
      (s.dropWhile (· = ' ')).head? = some '\n' := by
  intro s
  match s with
  | [] => simp [stripSpacesNL]
  | c :: rest =>
    rw [stripSpacesNL]
    by_cases h : c = ' ' ∧ (rest.dropWhile (· = ' ')).head? = some '\n'
    · rw [if_pos h]
      intro _
      rw [List.dropWhile_cons_of_pos (by simp [h.1])]
      exact h.2
    · rw [if_neg h]
      intro hx
      simp only [List.head?_cons, Option.some_inj] at hx
      rw [List.dropWhile_cons_of_neg (by simp [hx])]
      simp [hx]

/-- The space-stripping pass leaves no space immediately before a
newline. -/
theorem strip_no_space_nl :
    ∀ s : Str, strContains (stripSpacesNL s) " \n".toList = false := by
  intro s
  induction s using stripSpacesNL.induct with
  | case1 => simp [stripSpacesNL, strContains]
  | case2 c rest h ih =>
    rw [stripSpacesNL, if_pos h]
    simp only [strContains_cons, ih, Bool.or_false]
    simp [spnl_eq, List.isPrefixOf]
  | case3 c rest h ih =>
    rw [stripSpacesNL, if_neg h]
    simp only [strContains_cons, ih, Bool.or_false]
    by_cases hc : c = ' '
    · subst hc
      by_cases hh : (stripSpacesNL rest).head? = some '\n'
      · exact absurd ⟨rfl, stripSpacesNL_head_nl rest hh⟩ h
      · have hne : ∀ a, (stripSpacesNL rest).head? = some a → a ≠ '\n' := by
          intro a ha he
          exact hh (he ▸ ha)
        simp only [spnl_eq, List.isPrefixOf, beq_self_eq_true, Bool.true_and]
        exact nl_pat_not_prefix hne []
    · simp only [spnl_eq, List.isPrefixOf]
      simp [Ne.symm hc]

/-- A string whose head is not whitespace keeps it under `trimWs`. -/
theorem trimWs_head_of_not_ws (s : Str) (c : Char) (h : s.head? = some c)
    (hw : pyWs c = false) : (trimWs s).head? = some c := by
  match s with
  | [] => simp at h
  | a :: t =>
    simp only [List.head?_cons, Option.some_inj] at h
    subst h
    have hdw : (a :: t).dropWhile pyWs = a :: t :=
      List.dropWhile_cons_of_neg (by simp [hw])
    obtain ⟨w, hw2, hall⟩ := trimWs_eq_append (a :: t)
    rw [hdw] at hw2
    cases htr : trimWs (a :: t) with
    | nil =>
      rw [htr] at hw2
      simp only [List.nil_append] at hw2
      have : a ∈ w := by rw [← hw2]; exact List.mem_cons_self _ _
      rw [hall a this] at hw
      simp at hw
    | cons b u =>
      rw [htr] at hw2
      simp only [List.cons_append, List.cons.injEq] at hw2
      simp [hw2.1]

/-- An all-whitespace prefix is invisible to `dropWhile pyWs`. -/
theorem dropWhile_ws_append (ws l : Str) (h : ∀ c ∈ ws, pyWs c = true) :
    (ws ++ l).dropWhile pyWs = l.dropWhile pyWs := by
  induction ws with
  | nil => rfl
  | cons c t ih =>
    simp only [List.cons_append]
    rw [List.dropWhile_cons_of_pos (h c (List.mem_cons_self _ _))]
    exact ih fun d hd => h d (List.mem_cons_of_mem _ hd)

/-- An all-whitespace prefix is removed whole by `trimWs`. -/
theorem trimWs_ws_append (ws l : Str) (h : ∀ c ∈ ws, pyWs c = true) :
    trimWs (ws ++ l) = trimWs l := by
  rw [trimWs, trimWs, dropWhile_ws_append ws l h]

/-- Claim C9 counterexample: `re.sub(r' +\n', '\n', ...)` strips only
*space* characters before newlines, so a line ending in a tab keeps its
trailing whitespace through the whole cleanup. -/
theorem cleanup_tab_counterexample :
    cleanup_markdown "a\t\nb".toList [] = "a\t\nb\n".toList ∧
    strContains (cleanup_markdown "a\t\nb".toList []) "\t\n".toList = true := by
  constructor
  · simp [cleanup_markdown, collapseNewlines, stripSpacesNL, titlePrependNeeded,
      trimWs, pyWs, List.isPrefixOf, List.dropWhile]
  · simp [cleanup_markdown, collapseNewlines, stripSpacesNL, titlePrependNeeded,
      trimWs, pyWs, strContains, List.isPrefixOf, List.dropWhile]

/-- Claim C9 as amended: the normalization of `cleanup_markdown` collapses
every run of four or more newlines (in particular every run of four or
more blank lines) to at most two blank lines, strips trailing *space*
characters — not all whitespace: a trailing tab survives — from every
line, ends the result with exactly one trailing newline, and prepends
`"# " + title` plus a blank line exactly when a title was supplied and the
normalized text does not already begin with a heading marker. -/
theorem cleanup_normalization (md title : Str) :
    strContains (collapseNewlines md) "\n\n\n\n".toList = false ∧
    strContains (stripSpacesNL (collapseNewlines md)) " \n".toList = false ∧
    (∃ body, cleanup_markdown md title = body ++ "\n".toList ∧
      body.getLast? ≠ some '\n') ∧
    (titlePrependNeeded title (stripSpacesNL (collapseNewlines md)) = true →
      cleanup_markdown md title =
        trimWs ("# ".toList ++ title ++ "\n\n".toList
          ++ stripSpacesNL (collapseNewlines md)) ++ "\n".toList ∧
      (cleanup_markdown md title).head? = some '#') ∧
    (titlePrependNeeded title (stripSpacesNL (collapseNewlines md)) = false →
      cleanup_markdown md title =
        trimWs (stripSpacesNL (collapseNewlines md)) ++ "\n".toList) := by
  refine ⟨collapse_no_run4 md, strip_no_space_nl (collapseNewlines md), ?_, ?_, ?_⟩
  · refine ⟨trimWs (if titlePrependNeeded title (stripSpacesNL (collapseNewlines md)) then
      "# ".toList ++ title ++ "\n\n".toList ++ stripSpacesNL (collapseNewlines md)
      else stripSpacesNL (collapseNewlines md)), rfl, ?_⟩
    intro hlast
    have := trimWs_getLast_not_ws _ _ hlast
    simp [pyWs] at this
  · intro h
    constructor
    · simp [cleanup_markdown, h]
    · have ht := trimWs_head_of_not_ws ("# ".toList ++ title ++ "\n\n".toList
        ++ stripSpacesNL (collapseNewlines md)) '#' rfl (by simp [pyWs])
      simp only [cleanup_markdown, h, if_true]
      cases htr : trimWs ("# ".toList ++ title ++ "\n\n".toList
          ++ stripSpacesNL (collapseNewlines md)) with
      | nil =>
        rw [htr] at ht
        simp at ht
      | cons x xs =>
        rw [htr] at ht
        simp only [List.head?_cons, Option.some_inj] at ht
        simp [ht]
  · intro h
    simp [cleanup_markdown, h]

/-- Witness for the amended claim C9 at a concrete text and title. -/
theorem cleanup_normalization_witness :
    titlePrependNeeded "T".toList (stripSpacesNL (collapseNewlines "x".toList)) = true ∧
    (cleanup_markdown "x".toList "T".toList =
      trimWs ("# ".toList ++ "T".toList ++ "\n\n".toList
        ++ stripSpacesNL (collapseNewlines "x".toList)) ++ "\n".toList ∧
     (cleanup_markdown "x".toList "T".toList).head? = some '#') := by
  have h : titlePrependNeeded "T".toList
      (stripSpacesNL (collapseNewlines "x".toList)) = true := by
    simp [titlePrependNeeded, collapseNewlines, stripSpacesNL, trimWs, pyWs,
      List.isPrefixOf, List.dropWhile]
  exact ⟨h, (cleanup_normalization "x".toList "T".toList).2.2.2.1 h⟩

/-- Claim C10: `cleanup_markdown` strips all leading (and trailing)
whitespace of the whole text — not just trailing-line whitespace — before
appending the single terminating newline, and the title-prepend test
(`md_text.strip().startswith('#')`) ignores any leading whitespace of the
tested text. -/
theorem cleanup_leading_strip (md title : Str) :
    (∃ body, cleanup_markdown md title = body ++ "\n".toList ∧
      (∀ c, body.head? = some c → pyWs c = false) ∧
      (∀ c, body.getLast? = some c → pyWs c = false)) ∧
    (∀ ws md2 : Str, (∀ c ∈ ws, pyWs c = true) →
      titlePrependNeeded title (ws ++ md2) = titlePrependNeeded title md2) := by
  constructor
  · refine ⟨trimWs (if titlePrependNeeded title (stripSpacesNL (collapseNewlines md)) then
      "# ".toList ++ title ++ "\n\n".toList ++ stripSpacesNL (collapseNewlines md)
      else stripSpacesNL (collapseNewlines md)), rfl, ?_, ?_⟩
    · intro c hc
      exact trimWs_head_not_ws _ c hc
    · intro c hc
      exact trimWs_getLast_not_ws _ c hc
  · intro ws md2 h
    simp only [titlePrependNeeded, trimWs_ws_append ws md2 h]

/-- Witness for claim C10: the prepend decision at a concrete text with and
without leading whitespace. -/
theorem cleanup_leading_strip_witness :
    (∀ c ∈ ("  \n".toList : Str), pyWs c = true) ∧
    titlePrependNeeded "T".toList ("  \n".toList ++ "# x".toList) =
      titlePrependNeeded "T".toList "# x".toList :=
  ⟨by decide, (cleanup_leading_strip [] "T".toList).2 "  \n".toList "# x".toList (by decide)⟩

/-! ## Claim C6: the image placeholder resolver
(`resolve_and_download_images`, `core/extract.py` lines 247-319) -/

/-- Word characters of the `\w` class. -/
def isWordChar (c : Char) : Bool := c.isAlpha || c.isDigit || c = '_'

/-- `re.findall(r'__IMAGE_TOKEN__(\w+)', md_text)`: left-to-right,
non-overlapping scan; at each position where the marker matches and at
least one word character follows, the maximal word-character run is
captured and scanning resumes after it. -/
def findTokens : Str → List Str
  | [] => []
  | c :: rest =>
    if markerStr.isPrefixOf (c :: rest) then
      let tail := (c :: rest).drop markerStr.length
      let tok := tail.takeWhile isWordChar
      if tok.length ≠ 0 then tok :: findTokens (tail.dropWhile isWordChar)
      else findTokens rest
    else findTokens rest
  termination_by s => s.length
  decreasing_by
    · have h1 := (List.dropWhile_sublist (l := (c :: rest).drop markerStr.length)
        isWordChar).length_le
      have hm : markerStr.length = 15 := rfl
      simp only [List.length_drop, List.length_cons, hm] at h1 ⊢
      omega
    · simp
    · simp

/-- Extension choice from the URL suffix table (`core/extract.py` lines
302-306): first match wins, `.png` as the default. -/
def chooseExt (url : Str) : Str :=
  if strContains url ".jpg".toList || strContains url ".jpeg".toList then ".jpg".toList
  else if strContains url ".gif".toList then ".gif".toList
  else if strContains url ".webp".toList then ".webp".toList
  else ".png".toList

/-- Python `str.replace`: left-to-right, non-overlapping replacement of
every occurrence of `pat` by `r` (the replacement is not rescanned). -/
def replGo (pat r : Str) : Str → Str
  | [] => []
  | c :: rest =>
    if pat.isPrefixOf (c :: rest) then r ++ replGo pat r (rest.drop (pat.length - 1))
    else c :: replGo pat r rest
  termination_by s => s.length
  decreasing_by
    · have := (List.drop_sublist (pat.length - 1) rest).length_le
      simp only [List.length_cons]
      omega
    · simp

def replaceAll (s pat r : Str) : Str := replGo pat r s

/-- State threaded through the token loop: current text, count of
successfully resolved images, and the files written so far (name and
payload). -/
structure ImgState where
  text : Str
  count : Nat
  files : List (Str × Str)
  deriving DecidableEq

/-- One iteration of the token loop (`core/extract.py` lines 257-315): a
failed resolve, a failed fetch or an empty payload leaves the state
untouched (the caught exception / falsy check skips the token); on success
the placeholder is replaced by `folder/img_<count><ext>`, the counter is
bumped and the file is recorded. -/
def imgStep (resolve fetch : Str → Option Str) (imgsFolder : Str)
    (st : ImgState) (token : Str) : ImgState :=
  match resolve token with
  | none => st
  | some url =>
    match fetch url with
    | none => st
    | some b64 =>
      if b64 = [] then st
      else
        let fname := "img_".toList ++ natChars st.count ++ chooseExt url
        { text := replaceAll st.text (markerStr ++ token)
            (imgsFolder ++ "/".toList ++ fname),
          count := st.count + 1,
          files := st.files ++ [(fname, b64)] }

/-- The resolver pass: find all placeholder tokens in the text, then
process them sequentially, returning the final text, the resolved-image
count and the written files. -/
def resolve_and_download_images (resolve fetch : Str → Option Str)
    (imgsFolder : Str) (mdText : Str) : ImgState :=
  let tokens := findTokens mdText
  if tokens = [] then ⟨mdText, 0, []⟩
  else tokens.foldl (imgStep resolve fetch imgsFolder) ⟨mdText, 0, []⟩

theorem foldl_id_of_step_id {α β : Type} (f : α → β → α)
    (l : List β) (st : α) (h : ∀ (a : α) (b : β), b ∈ l → f a b = a) :
    l.foldl f st = st := by
  induction l generalizing st with
  | nil => rfl
  | cons b t ih =>
    rw [List.foldl_cons, h st b (List.mem_cons_self _ _)]
    exact ih st fun a b hb => h a b (List.mem_cons_of_mem _ hb)

/-- Claim C6: a token whose resolve returns not-found, or whose fetch
fails or yields an empty payload, is skipped — text, count and files are
left untouched — and processing continues with the remaining tokens (the
pass is a sequential fold that always returns the final text and the count
of successfully resolved images).  In particular, with a resolver that
always returns not-found the text is returned unchanged with count 0. -/
theorem image_failure_skipped (resolve fetch : Str → Option Str) (folder : Str) :
    (∀ (st : ImgState) (tok : Str),
      (resolve tok = none ∨
        ∀ u, resolve tok = some u → (fetch u = none ∨ fetch u = some [])) →
      imgStep resolve fetch folder st tok = st) ∧
    (∀ md : Str, (∀ t, resolve t = none) →
      resolve_and_download_images resolve fetch folder md = ⟨md, 0, []⟩) ∧
    (∀ md : Str, resolve_and_download_images resolve fetch folder md =
      (findTokens md).foldl (imgStep resolve fetch folder) ⟨md, 0, []⟩) := by
  have hstep : ∀ (st : ImgState) (tok : Str),
      (resolve tok = none ∨
        ∀ u, resolve tok = some u → (fetch u = none ∨ fetch u = some [])) →
      imgStep resolve fetch folder st tok = st := by
    intro st tok h
    cases hr : resolve tok with
    | none => simp [imgStep, hr]
    | some url =>
      rcases h with h | h
      · rw [hr] at h; cases h
      · rcases h url hr with hf | hf <;> simp [imgStep, hr, hf]
  refine ⟨hstep, fun md hall => ?_, fun md => ?_⟩
  · rw [resolve_and_download_images]
    split
    · rfl
    · exact foldl_id_of_step_id _ _ _ fun st tok _ => hstep st tok (Or.inl (hall tok))
  · rw [resolve_and_download_images]
    split
    · rename_i h
      rw [h]
      rfl
    · rfl

/-- Witness for claim C6: one placeholder, an always-not-found resolver,
count 0 and the text unchanged. -/
theorem image_failure_skipped_witness :
    resolve_and_download_images (fun _ => none) (fun _ => none) "imgs".toList
        "![x](__IMAGE_TOKEN__t1)".toList =
      ⟨"![x](__IMAGE_TOKEN__t1)".toList, 0, []⟩ :=
  (image_failure_skipped (fun _ => none) (fun _ => none) "imgs".toList).2.1
    "![x](__IMAGE_TOKEN__t1)".toList (fun _ => rfl)

/-! ## Claim C7: round-trip placeholder substitution

The statements below analyse occurrences of the placeholder substring
`__IMAGE_TOKEN__<token>` in rendered and resolved text.  The rendered
string is decomposed into *plain* pieces (free of underscores) and
*placeholder* pieces `__IMAGE_TOKEN__<token>)`; the weaker well-formedness
`plainOk` (no two adjacent underscores, no trailing underscore) survives
the path replacements performed by the resolver. -/

/-- Underscore-freeness of a string. -/
def noUnd (s : Str) : Bool := s.all (fun c => c != '_')

/-- Alphanumeric characters (the image tokens the claims quantify over). -/
def isAlnum (c : Char) : Bool := c.isAlpha || c.isDigit

/-- A well-formed image token: non-empty and alphanumeric. -/
def tokOkB : Str → Bool
  | [] => false
  | t => t.all isAlnum

/-- No two adjacent underscores and no trailing underscore. -/
def plainOk : Str → Bool
  | [] => true
  | [c] => c != '_'
  | c :: d :: rest => !(c == '_' && d == '_') && plainOk (d :: rest)

/-- Number of (possibly overlapping) occurrences of `pat` in a string. -/
def countOcc (pat : Str) : Str → Nat
  | [] => 0
  | c :: t => (if pat.isPrefixOf (c :: t) then 1 else 0) + countOcc pat t

/-- Decomposition of a string into underscore-free plain pieces and
placeholder pieces `__IMAGE_TOKEN__<token>)`, together with the tokens in
string order.  This is the shape of every string produced by the
renderer. -/
inductive PiecesOkU : Str → List Str → Prop where
  | nil : PiecesOkU [] []
  | plain (cs : Str) {s : Str} {toks : List Str} :
      noUnd cs = true → PiecesOkU s toks → PiecesOkU (cs ++ s) toks
  | ph (tok : Str) {s : Str} {toks : List Str} :
      tokOkB tok = true → PiecesOkU (')' :: s) toks →
      PiecesOkU (markerStr ++ (tok ++ ')' :: s)) (tok :: toks)

/-- The weaker decomposition tolerated after path substitution: plain
pieces merely satisfy `plainOk` (the substituted relative path contains an
isolated underscore in `img_<n>`). -/
inductive PiecesOkW : Str → List Str → Prop where
  | nil : PiecesOkW [] []
  | plain (cs : Str) {s : Str} {toks : List Str} :
      plainOk cs = true → PiecesOkW s toks → PiecesOkW (cs ++ s) toks
  | ph (tok : Str) {s : Str} {toks : List Str} :
      tokOkB tok = true → PiecesOkW (')' :: s) toks →
      PiecesOkW (markerStr ++ (tok ++ ')' :: s)) (tok :: toks)

theorem noUnd_cons {c : Char} {t : Str} :
    noUnd (c :: t) = true ↔ (c ≠ '_' ∧ noUnd t = true) := by
  simp [noUnd, List.all_cons]

theorem plainOk_of_noUnd : ∀ {cs : Str}, noUnd cs = true → plainOk cs = true := by
  intro cs
  induction cs with
  | nil => intro _; rfl
  | cons c t ih =>
    intro h
    rw [noUnd_cons] at h
    cases t with
    | nil => simpa [plainOk] using h.1
    | cons d u =>
      have hd : d ≠ '_' := ((noUnd_cons).mp h.2).1
      simp only [plainOk, Bool.and_eq_true, Bool.not_eq_true']
      exact ⟨by simp [hd], ih h.2⟩

theorem piecesOkW_of_piecesOkU :
    ∀ {s toks}, PiecesOkU s toks → PiecesOkW s toks := by
  intro s toks h
  induction h with
  | nil => exact .nil
  | plain cs hcs _ ih => exact .plain cs (plainOk_of_noUnd hcs) ih
  | ph tok htok _ ih => exact .ph tok htok ih

/-- An empty string decomposes only with an empty token list. -/
theorem piecesOkW_nil_toks :
    ∀ {s toks}, PiecesOkW s toks → s = [] → toks = [] := by
  intro s toks h
  induction h with
  | nil => intro _; rfl
  | plain cs hcs _ ih =>
    intro he
    rcases List.append_eq_nil.mp he with ⟨-, h2⟩
    exact ih h2
  | ph tok htok _ ih =>
    intro he
    simp [markerStr] at he

theorem piecesOkU_nil_toks :
    ∀ {s toks}, PiecesOkU s toks → s = [] → toks = [] :=
  fun h he => piecesOkW_nil_toks (piecesOkW_of_piecesOkU h) he

/-- Concatenation of decompositions. -/
theorem PiecesOkU.append :
    ∀ {s1 t1 s2 t2}, PiecesOkU s1 t1 → PiecesOkU s2 t2 →
      PiecesOkU (s1 ++ s2) (t1 ++ t2) := by
  intro s1 t1 s2 t2 h1 h2
  induction h1 with
  | nil => simpa using h2
  | plain cs hcs _ ih =>
    rw [List.append_assoc]
    exact .plain cs hcs ih
  | ph tok htok _ ih =>
    rw [List.append_assoc, List.append_assoc, List.cons_append]
    exact .ph tok htok ih

/-- A plain string alone. -/
theorem PiecesOkU.plainOnly {cs : Str} (h : noUnd cs = true) : PiecesOkU cs [] := by
  have := PiecesOkU.plain cs h PiecesOkU.nil
  simpa using this

theorem marker_eq :
    markerStr = ['_', '_', 'I', 'M', 'A', 'G', 'E', '_', 'T', 'O', 'K', 'E', 'N', '_', '_'] := rfl

theorem tokOkB_ne_nil {t : Str} (h : tokOkB t = true) : t ≠ [] := by
  intro he
  subst he
  simp [tokOkB] at h

theorem tokOkB_mem_alnum {t : Str} (h : tokOkB t = true) :
    ∀ c ∈ t, isAlnum c = true := by
  cases t with
  | nil => simp
  | cons a t' =>
    intro c hc
    have : (a :: t').all isAlnum = true := h
    exact List.all_eq_true.mp this c hc

theorem alnum_ne_underscore {c : Char} (h : isAlnum c = true) : c ≠ '_' := by
  intro he
  subst he
  simp [isAlnum, Char.isAlpha, Char.isDigit, Char.isUpper, Char.isLower] at h

theorem alnum_ne_nl {c : Char} (h : isAlnum c = true) : c ≠ '\n' := by
  intro he
  subst he
  simp [isAlnum, Char.isAlpha, Char.isDigit, Char.isUpper, Char.isLower] at h

theorem countOcc_cons (pat : Str) (c : Char) (t : Str) :
    countOcc pat (c :: t) = (if pat.isPrefixOf (c :: t) then 1 else 0) + countOcc pat t := rfl

/-- No occurrence of a double-underscore-headed pattern starts inside a
`plainOk` piece. -/
theorem countOcc_append_plainOk (tail : Str) :
    ∀ (cs rest : Str), plainOk cs = true →
      countOcc ('_' :: '_' :: tail) (cs ++ rest) = countOcc ('_' :: '_' :: tail) rest := by
  intro cs
  induction cs using plainOk.induct with
  | case1 => intro rest _; rfl
  | case2 c =>
    intro rest h
    have hc : c ≠ '_' := by simpa [plainOk, bne_iff_ne] using h
    have hind : (('_' :: '_' :: tail : Str).isPrefixOf (c :: rest)) = false := by
      have hne : (('_' : Char) == c) = false := by
        simp only [beq_eq_false_iff_ne, ne_eq]
        exact fun he => hc he.symm
      simp [List.isPrefixOf, hne]
    simp only [List.cons_append, List.nil_append]
    rw [countOcc_cons, hind]
    simp
  | case3 c d u ih =>
    intro rest h
    simp only [plainOk, Bool.and_eq_true, Bool.not_eq_true'] at h
    obtain ⟨h1, h2⟩ := h
    have hih : countOcc ('_' :: '_' :: tail) (d :: (u ++ rest)) =
        countOcc ('_' :: '_' :: tail) rest := by
      simpa only [List.cons_append] using ih rest h2
    have hind : (('_' :: '_' :: tail : Str).isPrefixOf (c :: d :: (u ++ rest))) = false := by
      rcases Bool.and_eq_false_iff.mp h1 with hx | hx
      · have hne : (('_' : Char) == c) = false := by
          simp only [beq_eq_false_iff_ne, ne_eq] at hx ⊢
          exact fun he => hx he.symm
        simp [List.isPrefixOf, hne]
      · have hne : (('_' : Char) == d) = false := by
          simp only [beq_eq_false_iff_ne, ne_eq] at hx ⊢
          exact fun he => hx he.symm
        simp [List.isPrefixOf, hne]
    simp only [List.cons_append]
    rw [countOcc_cons, hind, hih]
    simp

/-- Prepending text never removes occurrences. -/
theorem countOcc_le_append (pat : Str) :
    ∀ (cs rest : Str), countOcc pat rest ≤ countOcc pat (cs ++ rest) := by
  intro cs
  induction cs with
  | nil => intro rest; simp
  | cons c t ih =>
    intro rest
    have h := ih rest
    simp only [List.cons_append]
    rw [countOcc_cons]
    omega

theorem isPrefixOf_append_same : ∀ (p x : Str), p.isPrefixOf (p ++ x) = true := by
  intro p
  induction p with
  | nil => intro x; simp [List.isPrefixOf_nil_left]
  | cons a t ih =>
    intro x
    have hstep : ((a :: t : Str).isPrefixOf (a :: (t ++ x))) =
        (a == a && t.isPrefixOf (t ++ x)) := rfl
    rw [List.cons_append, hstep, ih x]
    simp

/-- Matching an alphanumeric string against a token region stops at the
closing parenthesis. -/
theorem isPrefixOf_alnum_closing :
    ∀ (t t0 rest : Str), (∀ c ∈ t, isAlnum c = true) →
      (t.isPrefixOf (t0 ++ ')' :: rest)) = t.isPrefixOf t0 := by
  intro t
  induction t with
  | nil => intro t0 rest _; simp [List.isPrefixOf_nil_left]
  | cons a t' ih =>
    intro t0 rest h
    cases t0 with
    | nil =>
      have ha : a ≠ ')' := by
        have hal := h a (by simp)
        intro he
        subst he
        simp [isAlnum, Char.isAlpha, Char.isDigit, Char.isUpper, Char.isLower] at hal
      have hb : (a == ')') = false := by
        simpa [beq_eq_false_iff_ne] using ha
      simp [List.isPrefixOf, hb, List.isPrefixOf_cons_nil]
    | cons b t0' =>
      have hstep : ((a :: t' : Str).isPrefixOf (b :: (t0' ++ ')' :: rest))) =
          (a == b && t'.isPrefixOf (t0' ++ ')' :: rest)) := rfl
      have hstep2 : ((a :: t' : Str).isPrefixOf (b :: t0')) =
          (a == b && t'.isPrefixOf t0') := rfl
      rw [List.cons_append, hstep, hstep2, ih t0' rest (fun c hc => h c (by simp [hc]))]

/-- The tail of the marker (after its leading double underscore) is no
prefix of an alphanumeric token followed by the closing parenthesis. -/
theorem image_pat_not_prefix (tail : Str) :
    ∀ (t0 rest : Str), (∀ c ∈ t0, isAlnum c = true) →
      (('I' :: 'M' :: 'A' :: 'G' :: 'E' :: '_' :: tail : Str).isPrefixOf
        (t0 ++ ')' :: rest)) = false := by
  intro t0 rest h
  rcases t0 with _ | ⟨a, _ | ⟨b, _ | ⟨c, _ | ⟨d, _ | ⟨e, _ | ⟨f, t6⟩⟩⟩⟩⟩⟩
  · simp [List.isPrefixOf]
  · simp only [List.cons_append, List.nil_append, List.isPrefixOf]
    simp
  · simp only [List.cons_append, List.nil_append, List.isPrefixOf]
    simp
  · simp only [List.cons_append, List.nil_append, List.isPrefixOf]
    simp
  · simp only [List.cons_append, List.nil_append, List.isPrefixOf]
    simp
  · simp only [List.cons_append, List.nil_append, List.isPrefixOf]
    simp
  · have hf : f ≠ '_' := alnum_ne_underscore (h f (by simp))
    simp only [List.cons_append, List.isPrefixOf]
    have : (('_' : Char) == f) = false := by simp [beq_eq_false_iff_ne]; exact fun he => hf he.symm
    simp [this]

/-- A pattern starting with an underscore is no prefix of an alphanumeric
token followed by anything. -/
theorem underscore_pat_not_prefix {t0 : Str} (h : tokOkB t0 = true) (p x : Str) :
    (('_' :: p : Str).isPrefixOf (t0 ++ x)) = false := by
  cases t0 with
  | nil => simp [tokOkB] at h
  | cons a t0' =>
    have ha : a ≠ '_' := alnum_ne_underscore (tokOkB_mem_alnum h a (List.mem_cons_self _ _))
    simp only [List.cons_append, List.isPrefixOf]
    have : (('_' : Char) == a) = false := by
      simp [beq_eq_false_iff_ne]
      exact fun he => ha he.symm
    simp [this]

/-! ### Occurrence analysis: scan-start exclusion -/

/-- No occurrence of `pat` starts at any position of the region `A`, also
when the text continues with `B`. -/
def NoStart (pat : Str) : Str → Str → Prop
  | [], _ => True
  | c :: A, B => pat.isPrefixOf (c :: (A ++ B)) = false ∧ NoStart pat A B

theorem countOcc_append_noStart {pat : Str} :
    ∀ {A : Str} (B : Str), NoStart pat A B →
      countOcc pat (A ++ B) = countOcc pat B := by
  intro A
  induction A with
  | nil => intro B _; rfl
  | cons c A ih =>
    intro B h
    rw [List.cons_append, countOcc_cons, h.1]
    simp [ih B h.2]

theorem replGo_cons (pat r : Str) (c : Char) (t : Str) :
    replGo pat r (c :: t) =
      if pat.isPrefixOf (c :: t) then r ++ replGo pat r (t.drop (pat.length - 1))
      else c :: replGo pat r t := by
  simp only [replGo]

theorem replGo_append_noStart {pat : Str} (r : Str) :
    ∀ {A : Str} (B : Str), NoStart pat A B →
      replGo pat r (A ++ B) = A ++ replGo pat r B := by
  intro A
  induction A with
  | nil => intro B _; simp
  | cons c A ih =>
    intro B h
    rw [List.cons_append, replGo_cons, h.1]
    simp [ih B h.2]

theorem findTokens_cons (c : Char) (rest : Str) :
    findTokens (c :: rest) =
      if markerStr.isPrefixOf (c :: rest) then
        let tail := (c :: rest).drop markerStr.length
        let tok := tail.takeWhile isWordChar
        if tok.length ≠ 0 then tok :: findTokens (tail.dropWhile isWordChar)
        else findTokens rest
      else findTokens rest := by
  simp only [findTokens]

theorem findTokens_append_noStart :
    ∀ {A : Str} (B : Str), NoStart markerStr A B →
      findTokens (A ++ B) = findTokens B := by
  intro A
  induction A with
  | nil => intro B _; rfl
  | cons c A ih =>
    intro B h
    rw [List.cons_append, findTokens_cons, h.1]
    simp [ih B h.2]

/-- A `plainOk` region admits no start of a double-underscore-headed
pattern, whatever follows it. -/
theorem noStart_plainOk (q : Str) :
    ∀ {A : Str} (B : Str), plainOk A = true → NoStart ('_' :: '_' :: q) A B := by
  intro A
  induction A using plainOk.induct with
  | case1 => intro B _; trivial
  | case2 c =>
    intro B h
    have hc : c ≠ '_' := by simpa [plainOk, bne_iff_ne] using h
    have hne : (('_' : Char) == c) = false := by
      simp only [beq_eq_false_iff_ne, ne_eq]
      exact fun he => hc he.symm
    exact ⟨by simp [List.isPrefixOf, hne], trivial⟩
  | case3 c d u ih =>
    intro B h
    simp only [plainOk, Bool.and_eq_true, Bool.not_eq_true'] at h
    have hind : (('_' :: '_' :: q : Str).isPrefixOf (c :: ((d :: u) ++ B))) = false := by
      rcases Bool.and_eq_false_iff.mp h.1 with hx | hx
      · have hne : (('_' : Char) == c) = false := by
          simp only [beq_eq_false_iff_ne, ne_eq] at hx ⊢
          exact fun he => hx he.symm
        simp [List.isPrefixOf, hne]
      · have hne : (('_' : Char) == d) = false := by
          simp only [beq_eq_false_iff_ne, ne_eq] at hx ⊢
          exact fun he => hx he.symm
        simp [List.isPrefixOf, hne]
    exact ⟨hind, ih B h.2⟩

theorem isPrefixOf_append_both :
    ∀ (p a b : Str), ((p ++ a).isPrefixOf (p ++ b)) = a.isPrefixOf b := by
  intro p
  induction p with
  | nil => intro a b; rfl
  | cons c p ih =>
    intro a b
    have hstep : (((c :: p) ++ a : Str).isPrefixOf ((c :: p) ++ b)) =
        (c == c && (p ++ a).isPrefixOf (p ++ b)) := rfl
    rw [hstep, ih a b]
    simp

theorem isPrefixOf_refl (l : Str) : l.isPrefixOf l = true := by
  have := isPrefixOf_append_same l []
  simpa using this

theorem noUnd_of_alnum {l : Str} (h : ∀ c ∈ l, isAlnum c = true) : noUnd l = true := by
  simp only [noUnd, List.all_eq_true]
  intro c hc
  simpa [bne_iff_ne] using alnum_ne_underscore (h c hc)

/-- Splitting the marker off the front of an appended string. -/
theorem marker_split (X : Str) :
    markerStr ++ X = '_' :: ("_IMAGE_TOKEN__".toList ++ X) := rfl

theorem marker_split2 (X : Str) :
    markerStr ++ X = '_' :: '_' :: ("IMAGE_TOKEN__".toList ++ X) := rfl

/-- No placeholder pattern starts inside the marker's tail. -/
theorem noStart_marker14 {t tok : Str} (ht : tokOkB t = true) (htok : tokOkB tok = true)
    (s : Str) :
    NoStart (markerStr ++ t) ("_IMAGE_TOKEN__".toList) (tok ++ ')' :: s) := by
  have hB := image_pat_not_prefix ('T' :: 'O' :: 'K' :: 'E' :: 'N' :: '_' :: '_' :: t)
    tok s (tokOkB_mem_alnum htok)
  have hC := underscore_pat_not_prefix htok
    ('I' :: 'M' :: 'A' :: 'G' :: 'E' :: '_' :: 'T' :: 'O' :: 'K' :: 'E' :: 'N' :: '_' :: '_' :: t)
    (')' :: s)
  rw [show markerStr ++ t =
    '_' :: '_' :: 'I' :: 'M' :: 'A' :: 'G' :: 'E' :: '_' :: 'T' :: 'O' :: 'K' :: 'E' :: 'N' :: '_' :: '_' :: t from rfl]
  rw [show ("_IMAGE_TOKEN__".toList : Str) =
    '_' :: 'I' :: 'M' :: 'A' :: 'G' :: 'E' :: '_' :: 'T' :: 'O' :: 'K' :: 'E' :: 'N' :: '_' :: '_' :: [] from rfl]
  simp only [NoStart, List.cons_append, List.nil_append]
  refine ⟨?_, ?_, ?_, ?_, ?_, ?_, ?_, ?_, ?_, ?_, ?_, ?_, ?_, ?_, trivial⟩
  all_goals simp [List.isPrefixOf, hB, hC]

/-- Occurrences of a placeholder pattern in a placeholder piece: only the
offset-0 match survives, decided by token-prefix comparison. -/
theorem countOcc_ph {t tok : Str} (ht : tokOkB t = true) (htok : tokOkB tok = true)
    (s : Str) :
    countOcc (markerStr ++ t) (markerStr ++ (tok ++ ')' :: s)) =
      (if t.isPrefixOf tok then 1 else 0) + countOcc (markerStr ++ t) (')' :: s) := by
  have halnum := tokOkB_mem_alnum htok
  have hplain : plainOk tok = true := plainOk_of_noUnd (noUnd_of_alnum halnum)
  have h0 : ((markerStr ++ t).isPrefixOf (markerStr ++ (tok ++ ')' :: s))) =
      t.isPrefixOf tok := by
    rw [isPrefixOf_append_both]
    exact isPrefixOf_alnum_closing t tok s (tokOkB_mem_alnum ht)
  have h0' : ((markerStr ++ t).isPrefixOf
      ('_' :: ("_IMAGE_TOKEN__".toList ++ (tok ++ ')' :: s)))) = t.isPrefixOf tok := by
    rw [← marker_split]
    exact h0
  have htokregion : countOcc (markerStr ++ t) (tok ++ ')' :: s) =
      countOcc (markerStr ++ t) (')' :: s) := by
    rw [marker_split2]
    exact countOcc_append_noStart _ (noStart_plainOk _ _ hplain)
  conv_lhs => rw [marker_split (tok ++ ')' :: s), countOcc_cons]
  rw [countOcc_append_noStart _ (noStart_marker14 ht htok s), htokregion, h0']

theorem piecesOkW_toks_ok :
    ∀ {s : Str} {toks : List Str}, PiecesOkW s toks → ∀ t ∈ toks, tokOkB t = true := by
  intro s toks h
  induction h with
  | nil => simp
  | plain cs hcs _ ih => exact ih
  | ph tok htok _ ih =>
    intro t htmem
    rcases List.mem_cons.mp htmem with rfl | hmem
    · exact htok
    · exact ih t hmem

/-- Occurrence count of a placeholder pattern over a decomposed string:
one per token of which the pattern's token is a prefix. -/
theorem countOcc_piecesOkW {t : Str} (ht : tokOkB t = true) :
    ∀ {s : Str} {toks : List Str}, PiecesOkW s toks →
      countOcc (markerStr ++ t) s = toks.countP (fun tk => t.isPrefixOf tk) := by
  intro s toks h
  induction h with
  | nil => rfl
  | plain cs hcs _ ih =>
    rw [marker_split2] at ih ⊢
    rw [countOcc_append_noStart _ (noStart_plainOk _ _ hcs), ih]
  | ph tok htok _ ih =>
    rw [countOcc_ph ht htok, ih]
    simp only [List.countP_cons]
    by_cases hp : t.isPrefixOf tok <;> simp [hp] <;> omega

theorem countP_eq_one_of {p : Str → Bool} :
    ∀ {toks : List Str}, toks.Nodup → ∀ t, t ∈ toks →
      (∀ tk ∈ toks, p tk = true ↔ tk = t) → toks.countP p = 1 := by
  intro toks
  induction toks with
  | nil => intro _ t ht _; simp at ht
  | cons a l ih =>
    intro hnd t ht hp
    by_cases hat : a = t
    · have hpa : p a = true := (hp a (List.mem_cons_self _ _)).mpr hat
      have hz : l.countP p = 0 := List.countP_eq_zero.mpr (fun x hx hpx => by
        have hxt := (hp x (List.mem_cons_of_mem _ hx)).mp hpx
        rw [hxt, ← hat] at hx
        exact (List.nodup_cons.mp hnd).1 hx)
      simp [List.countP_cons, hpa, hz]
    · have htl : t ∈ l := by
        rcases List.mem_cons.mp ht with h | h
        · exact absurd h.symm hat
        · exact h
      have hpa : p a = false := by
        rw [Bool.eq_false_iff]
        intro hpx
        exact hat ((hp a (List.mem_cons_self _ _)).mp hpx)
      have hrec := ih (List.nodup_cons.mp hnd).2 t htl
        (fun tk htk => hp tk (List.mem_cons_of_mem _ htk))
      simp [List.countP_cons, hpa, hrec]

/-! ### The token scan over a decomposed string -/

theorem isWordChar_of_alnum {c : Char} (h : isAlnum c = true) : isWordChar c = true := by
  simp only [isAlnum, Bool.or_eq_true] at h
  simp only [isWordChar, Bool.or_eq_true, decide_eq_true_eq]
  tauto

theorem takeWhile_append_all {p : Char → Bool} :
    ∀ {a : Str} {d : Char} (b : Str), (∀ c ∈ a, p c = true) → p d = false →
      ((a ++ d :: b).takeWhile p = a ∧ (a ++ d :: b).dropWhile p = d :: b) := by
  intro a
  induction a with
  | nil =>
    intro d b _ hd
    simp [List.takeWhile_cons, List.dropWhile_cons, hd]
  | cons x a ih =>
    intro d b h hd
    have hx : p x = true := h x (List.mem_cons_self _ _)
    have hr := ih b (fun c hc => h c (List.mem_cons_of_mem _ hc)) hd
    simp [List.takeWhile_cons, List.dropWhile_cons, hx, hr.1, hr.2]

/-- The scan finds the token of a placeholder piece and resumes at the
closing parenthesis. -/
theorem findTokens_ph {tok : Str} (htok : tokOkB tok = true) (s : Str) :
    findTokens (markerStr ++ (tok ++ ')' :: s)) = tok :: findTokens (')' :: s) := by
  have halnum := tokOkB_mem_alnum htok
  have hw : ∀ c ∈ tok, isWordChar c = true := fun c hc => isWordChar_of_alnum (halnum c hc)
  have hpw : isWordChar ')' = false := by decide
  have htw := takeWhile_append_all (p := isWordChar) s hw hpw
  have h1 : markerStr.isPrefixOf (markerStr ++ (tok ++ ')' :: s)) = true :=
    isPrefixOf_append_same _ _
  have h2 : ((markerStr ++ (tok ++ ')' :: s)).drop markerStr.length) = tok ++ ')' :: s :=
    List.drop_left _ _
  have hne : tok ≠ [] := tokOkB_ne_nil htok
  rw [marker_split (tok ++ ')' :: s), findTokens_cons, ← marker_split (tok ++ ')' :: s), h1]
  simp [h2, htw.1, htw.2, hne]

/-- The scan over a decomposed string returns exactly its token list. -/
theorem findTokens_piecesOkW :
    ∀ {s : Str} {toks : List Str}, PiecesOkW s toks → findTokens s = toks := by
  intro s toks h
  induction h with
  | nil => simp only [findTokens]
  | plain cs hcs _ ih =>
    rw [findTokens_append_noStart _ (by
      rw [show markerStr = '_' :: '_' :: "IMAGE_TOKEN__".toList from rfl]
      exact noStart_plainOk _ _ hcs), ih]
  | ph tok htok _ ih =>
    rw [findTokens_ph htok, ih]

/-! ### Replacement over a decomposed string -/

theorem replGo_pat_prefix {pat : Str} (hne : pat ≠ []) (r : Str) (X : Str) :
    replGo pat r (pat ++ X) = r ++ replGo pat r X := by
  cases pat with
  | nil => exact absurd rfl hne
  | cons c p =>
    rw [List.cons_append, replGo_cons]
    have hpre : ((c :: p : Str).isPrefixOf (c :: (p ++ X))) = true := by
      rw [← List.cons_append]
      exact isPrefixOf_append_same _ _
    rw [hpre]
    have hd : ((p ++ X).drop ((c :: p : Str).length - 1)) = X := by
      simp only [List.length_cons, Nat.add_sub_cancel]
      exact List.drop_left _ _
    simp [hd]

theorem replGo_paren {t : Str} (r s : Str) :
    replGo (markerStr ++ t) r (')' :: s) = ')' :: replGo (markerStr ++ t) r s := by
  rw [replGo_cons]
  have hcond : ((markerStr ++ t).isPrefixOf (')' :: s)) = false := by
    rw [marker_split2]
    simp [List.isPrefixOf]
  rw [hcond]
  simp

/-- Replacement inside a placeholder piece whose token the pattern's token
does not prefix: the piece is copied unchanged. -/
theorem replGo_ph_ne {t tok : Str} (ht : tokOkB t = true) (htok : tokOkB tok = true)
    (r : Str) (s : Str) (hne : t.isPrefixOf tok = false) :
    replGo (markerStr ++ t) r (markerStr ++ (tok ++ ')' :: s)) =
      markerStr ++ (tok ++ ')' :: replGo (markerStr ++ t) r s) := by
  have halnum := tokOkB_mem_alnum htok
  have hplain : plainOk tok = true := plainOk_of_noUnd (noUnd_of_alnum halnum)
  have h0' : ((markerStr ++ t).isPrefixOf
      ('_' :: ("_IMAGE_TOKEN__".toList ++ (tok ++ ')' :: s)))) = false := by
    rw [← marker_split, isPrefixOf_append_both,
      isPrefixOf_alnum_closing t tok s (tokOkB_mem_alnum ht)]
    exact hne
  have htokregion : replGo (markerStr ++ t) r (tok ++ ')' :: s) =
      tok ++ replGo (markerStr ++ t) r (')' :: s) := by
    rw [marker_split2]
    exact replGo_append_noStart _ _ (noStart_plainOk _ _ hplain)
  conv_lhs => rw [marker_split (tok ++ ')' :: s), replGo_cons]
  rw [h0']
  simp only [Bool.false_eq_true, if_false]
  rw [replGo_append_noStart _ _ (noStart_marker14 ht htok s), htokregion, replGo_paren,
    marker_split (tok ++ ')' :: replGo (markerStr ++ t) r s)]

/-- Replacement at the matching placeholder piece: the whole placeholder is
replaced and scanning resumes at the closing parenthesis. -/
theorem replGo_ph_eq {t : Str} (r : Str) (s : Str) :
    replGo (markerStr ++ t) r (markerStr ++ (t ++ ')' :: s)) =
      r ++ replGo (markerStr ++ t) r (')' :: s) := by
  have hne : (markerStr ++ t : Str) ≠ [] := by
    intro h
    have h1 := (List.append_eq_nil.mp h).1
    rw [marker_eq] at h1
    simp at h1
  have hassoc : markerStr ++ (t ++ ')' :: s) = (markerStr ++ t) ++ ')' :: s := by
    rw [List.append_assoc]
  rw [hassoc, replGo_pat_prefix hne]

/-- Replacement of one token's placeholder across a decomposed string:
plain pieces and foreign placeholder pieces are copied, the matching
placeholder pieces become the plain replacement. -/
theorem replaceAll_piecesOkW {tk : Str} (htk : tokOkB tk = true) {r : Str}
    (hr : plainOk r = true) :
    ∀ {s : Str} {toks : List Str}, PiecesOkW s toks →
      (∀ tok ∈ toks, tok ≠ tk → tk.isPrefixOf tok = false) →
      PiecesOkW (replaceAll s (markerStr ++ tk) r) (toks.filter (fun x => x ≠ tk)) := by
  intro s toks h
  induction h with
  | nil =>
    intro _
    have hz : replaceAll ([] : Str) (markerStr ++ tk) r = [] := by
      simp only [replaceAll, replGo]
    rw [hz]
    exact .nil
  | @plain cs s' toks' hcs hsub ih =>
    intro hpf
    have hns : NoStart (markerStr ++ tk) cs s' := by
      rw [marker_split2]
      exact noStart_plainOk _ _ hcs
    show PiecesOkW (replGo (markerStr ++ tk) r (cs ++ s')) _
    rw [replGo_append_noStart _ _ hns]
    exact .plain cs hcs (ih hpf)
  | @ph tok s' toks' htok hsub ih =>
    intro hpf
    have hpf' : ∀ x ∈ toks', x ≠ tk → tk.isPrefixOf x = false :=
      fun x hx => hpf x (List.mem_cons_of_mem _ hx)
    show PiecesOkW (replGo (markerStr ++ tk) r (markerStr ++ (tok ++ ')' :: s'))) _
    by_cases heq : tok = tk
    · subst heq
      rw [replGo_ph_eq]
      have hfil : (tok :: toks').filter (fun x => x ≠ tok) = toks'.filter (fun x => x ≠ tok) := by
        simp [List.filter_cons]
      rw [hfil]
      exact .plain r hr (ih hpf')
    · have hnpf : tk.isPrefixOf tok = false := hpf tok (List.mem_cons_self _ _) heq
      rw [replGo_ph_ne htk htok r s' hnpf]
      have hfil : (tok :: toks').filter (fun x => x ≠ tk) =
          tok :: toks'.filter (fun x => x ≠ tk) := by
        simp [List.filter_cons, heq]
      rw [hfil]
      have hsubst : PiecesOkW (')' :: replGo (markerStr ++ tk) r s')
          (toks'.filter (fun x => x ≠ tk)) := by
        have hh := ih hpf'
        rwa [show replaceAll (')' :: s') (markerStr ++ tk) r =
          ')' :: replGo (markerStr ++ tk) r s' from replGo_paren r s'] at hh
      exact .ph tok htok hsubst

/-! ### Well-formedness of the substituted relative path -/

theorem noUnd_append (a b : Str) : noUnd (a ++ b) = (noUnd a && noUnd b) := by
  simp [noUnd, List.all_append]

theorem digitChar_lt10_ne {k : Nat} (h : k < 10) : Nat.digitChar k ≠ '_' := by
  interval_cases k <;> decide

theorem natCharsAux_noUnd : ∀ (fuel n : Nat), noUnd (natCharsAux fuel n) = true := by
  intro fuel
  induction fuel with
  | zero => intro n; rfl
  | succ fuel ih =>
    intro n
    simp only [natCharsAux]
    split
    · rename_i h
      simp only [noUnd, List.all_cons, List.all_nil, Bool.and_true, bne_iff_ne, ne_eq,
        decide_eq_true_eq]
      exact digitChar_lt10_ne h
    · have h1 := ih (n / 10)
      have h2 : Nat.digitChar (n % 10) ≠ '_' :=
        digitChar_lt10_ne (Nat.mod_lt _ (by norm_num))
      rw [noUnd_append, h1]
      simp only [noUnd, List.all_cons, List.all_nil, Bool.and_true, bne_iff_ne, ne_eq,
        decide_eq_true_eq, Bool.true_and]
      exact h2

theorem natChars_noUnd (n : Nat) : noUnd (natChars n) = true := natCharsAux_noUnd _ _

theorem natChars_ne_nil (n : Nat) : natChars n ≠ [] := by
  show natCharsAux (n + 1) n ≠ []
  simp only [natCharsAux]
  split <;> simp

theorem chooseExt_noUnd (url : Str) : noUnd (chooseExt url) = true := by
  unfold chooseExt
  split
  · decide
  · split
    · decide
    · split
      · decide
      · decide

theorem plainOk_append_noUnd :
    ∀ {a b : Str}, noUnd a = true → plainOk b = true → plainOk (a ++ b) = true := by
  intro a
  induction a with
  | nil => intro b _ hb; simpa using hb
  | cons c a ih =>
    intro b ha hb
    have hc : c ≠ '_' := ((noUnd_cons).mp ha).1
    have hrest := ih ((noUnd_cons).mp ha).2 hb
    rw [List.cons_append]
    cases hx : a ++ b with
    | nil => simp [plainOk, hc]
    | cons d u =>
      rw [hx] at hrest
      simp only [plainOk, Bool.and_eq_true, Bool.not_eq_true']
      refine ⟨?_, hrest⟩
      have hcf : (c == '_') = false := by
        simp only [beq_eq_false_iff_ne, ne_eq]
        exact hc
      simp [hcf]

/-- The replacement path `folder/img_<n><ext>` is `plainOk` for an
underscore-free folder. -/
theorem plainOk_repl (folder : Str) (hf : noUnd folder = true) (count : Nat) (url : Str) :
    plainOk (folder ++ "/".toList ++
      ("img_".toList ++ natChars count ++ chooseExt url)) = true := by
  have hd : noUnd (natChars count) = true := natChars_noUnd count
  have hne := natChars_ne_nil count
  have hext := chooseExt_noUnd url
  have h1 : plainOk (natChars count ++ chooseExt url) = true := by
    apply plainOk_of_noUnd
    rw [noUnd_append, hd, hext]
    rfl
  have h2 : plainOk ('_' :: (natChars count ++ chooseExt url)) = true := by
    cases hx : natChars count with
    | nil => exact absurd hx hne
    | cons d u =>
      have hdu : d ≠ '_' := by
        have hd' := hd
        rw [hx, noUnd_cons] at hd'
        exact hd'.1
      rw [hx] at h1
      rw [List.cons_append] at h1 ⊢
      simp only [plainOk, Bool.and_eq_true, Bool.not_eq_true']
      refine ⟨?_, h1⟩
      have hdf : (d == '_') = false := by
        simp only [beq_eq_false_iff_ne, ne_eq]
        exact hdu
      simp [hdf]
  have h3 : plainOk ("img".toList ++ ('_' :: (natChars count ++ chooseExt url))) = true :=
    plainOk_append_noUnd (by decide) h2
  have h4 : plainOk ("/".toList ++
      ("img".toList ++ ('_' :: (natChars count ++ chooseExt url)))) = true :=
    plainOk_append_noUnd (by decide) h3
  rw [List.append_assoc]
  exact plainOk_append_noUnd hf h4

/-! ### The resolver fold removes successfully resolved placeholders -/

theorem fold_removes_token
    (resolve fetch : Str → Option Str) (folder : Str) (hf : noUnd folder = true)
    (toksAll : List Str) (hall : ∀ x ∈ toksAll, tokOkB x = true)
    (hpf : ∀ t1 ∈ toksAll, ∀ t2 ∈ toksAll, t1.isPrefixOf t2 = true → t1 = t2)
    (t : Str) (htmem : t ∈ toksAll)
    (url b64 : Str) (hres : resolve t = some url) (hfet : fetch url = some b64)
    (hb : b64 ≠ []) :
    ∀ (tl : List Str), (∀ x ∈ tl, x ∈ toksAll) →
      ∀ (st : ImgState) (cur : List Str),
      PiecesOkW st.text cur → (∀ x ∈ cur, x ∈ toksAll) →
      (t ∈ tl ∨ t ∉ cur) →
      ∃ cur2, PiecesOkW (tl.foldl (imgStep resolve fetch folder) st).text cur2 ∧
        (∀ x ∈ cur2, x ∈ toksAll) ∧ t ∉ cur2 := by
  intro tl
  induction tl with
  | nil =>
    intro _ st cur hpw hcs hiii
    refine ⟨cur, hpw, hcs, ?_⟩
    rcases hiii with h | h
    · simp at h
    · exact h
  | cons tk tl ih =>
    intro htl st cur hpw hcs hiii
    rw [List.foldl_cons]
    have htk : tk ∈ toksAll := htl tk (List.mem_cons_self _ _)
    have htl' : ∀ x ∈ tl, x ∈ toksAll := fun x hx => htl x (List.mem_cons_of_mem _ hx)
    have hskip : ∀ (hid : imgStep resolve fetch folder st tk = st), tk ≠ t →
        ∃ cur2, PiecesOkW ((tl.foldl (imgStep resolve fetch folder)
            (imgStep resolve fetch folder st tk)).text) cur2 ∧
          (∀ x ∈ cur2, x ∈ toksAll) ∧ t ∉ cur2 := by
      intro hid hnet
      rw [hid]
      apply ih htl' st cur hpw hcs
      rcases hiii with h | h
      · rcases List.mem_cons.mp h with h' | h'
        · exact absurd h'.symm hnet
        · exact Or.inl h'
      · exact Or.inr h
    cases hr : resolve tk with
    | none =>
      have hnet : tk ≠ t := by
        rintro rfl
        rw [hres] at hr
        cases hr
      exact hskip (by simp [imgStep, hr]) hnet
    | some u =>
      cases hfch : fetch u with
      | none =>
        have hnet : tk ≠ t := by
          rintro rfl
          rw [hres] at hr
          injection hr with hr'
          rw [← hr'] at hfch
          rw [hfet] at hfch
          cases hfch
        exact hskip (by simp [imgStep, hr, hfch]) hnet
      | some b =>
        by_cases hbe : b = []
        · have hnet : tk ≠ t := by
            rintro rfl
            rw [hres] at hr
            injection hr with hr'
            rw [← hr'] at hfch
            rw [hfet] at hfch
            injection hfch with hfch'
            exact hb (hfch'.trans hbe)
          exact hskip (by simp [imgStep, hr, hfch, hbe]) hnet
        · have hstep : imgStep resolve fetch folder st tk =
              { text := replaceAll st.text (markerStr ++ tk)
                  (folder ++ "/".toList ++
                    ("img_".toList ++ natChars st.count ++ chooseExt u)),
                count := st.count + 1,
                files := st.files ++
                  [("img_".toList ++ natChars st.count ++ chooseExt u, b)] } := by
            simp [imgStep, hr, hfch, hbe]
          have htkOk : tokOkB tk = true := hall tk htk
          have hrp : plainOk (folder ++ "/".toList ++
              ("img_".toList ++ natChars st.count ++ chooseExt u)) = true :=
            plainOk_repl folder hf st.count u
          have hpfcur : ∀ tok ∈ cur, tok ≠ tk → tk.isPrefixOf tok = false := by
            intro tok htokm hnetk
            cases hpt : tk.isPrefixOf tok with
            | false => rfl
            | true => exact absurd (hpf tk htk tok (hcs tok htokm) hpt).symm hnetk
          have hpw' := replaceAll_piecesOkW htkOk hrp hpw hpfcur
          rw [hstep]
          apply ih htl' _ (cur.filter (fun x => x ≠ tk)) hpw'
          · intro x hx
            exact hcs x (List.mem_of_mem_filter hx)
          · by_cases htkt : tk = t
            · subst htkt
              right
              intro hmem
              have := List.of_mem_filter hmem
              simp at this
            · rcases hiii with h | h
              · rcases List.mem_cons.mp h with h' | h'
                · exact absurd h'.symm htkt
                · exact Or.inl h'
              · right
                intro hmem
                exact h (List.mem_of_mem_filter hmem)

/-- After the resolver pass, a token whose resolve and fetch both succeed
has no remaining placeholder occurrence in the final text. -/
theorem resolution_removes (resolve fetch : Str → Option Str) (folder : Str)
    (hf : noUnd folder = true) {md : Str} {toks : List Str}
    (hW : PiecesOkW md toks)
    (hpf : ∀ t1 ∈ toks, ∀ t2 ∈ toks, t1.isPrefixOf t2 = true → t1 = t2)
    (t : Str) (htmem : t ∈ toks) (url b64 : Str)
    (hres : resolve t = some url) (hfet : fetch url = some b64) (hb : b64 ≠ []) :
    countOcc (markerStr ++ t)
      ((resolve_and_download_images resolve fetch folder md).text) = 0 := by
  have hfind : findTokens md = toks := findTokens_piecesOkW hW
  have hall := piecesOkW_toks_ok hW
  rw [resolve_and_download_images]
  split
  · rename_i h0
    rw [hfind] at h0
    rw [h0] at htmem
    simp at htmem
  · rw [hfind]
    obtain ⟨cur2, hp2, hsub2, hnt2⟩ :=
      fold_removes_token resolve fetch folder hf toks hall hpf t htmem url b64
        hres hfet hb toks (fun x hx => hx) ⟨md, 0, []⟩ toks hW (fun x hx => hx)
        (Or.inl htmem)
    rw [countOcc_piecesOkW (hall t htmem) hp2]
    apply List.countP_eq_zero.mpr
    intro x hx hpx
    have hteq := hpf t htmem x (hsub2 x hx) (by exact hpx)
    rw [hteq] at hnt2
    exact hnt2 hx

/-! ### Underscore-freeness toolkit -/

theorem noUnd_iff {l : Str} : noUnd l = true ↔ ∀ c ∈ l, c ≠ '_' := by
  simp [noUnd, List.all_eq_true, bne_iff_ne]

theorem noUnd_subset {l l' : Str} (hsub : ∀ c ∈ l', c ∈ l) (h : noUnd l = true) :
    noUnd l' = true := by
  rw [noUnd_iff] at h ⊢
  exact fun c hc => h c (hsub c hc)

theorem noUnd_stripNL1 {s : Str} (h : noUnd s = true) : noUnd (stripNL1 s) = true := by
  simp only [stripNL1]
  split
  · exact noUnd_subset (fun c hc => (List.dropLast_sublist s).subset hc) h
  · exact h

theorem noUnd_trimWs {s : Str} (h : noUnd s = true) : noUnd (trimWs s) = true := by
  apply noUnd_subset _ h
  intro c hc
  simp only [trimWs] at hc
  have h1 := List.mem_reverse.mp hc
  have h2 := (List.dropWhile_sublist _).subset h1
  have h3 := List.mem_reverse.mp h2
  exact (List.dropWhile_sublist _).subset h3

theorem noUnd_joinAll {l : List Str} (h : ∀ x ∈ l, noUnd x = true) :
    noUnd (joinAll l) = true := by
  induction l with
  | nil => rfl
  | cons x xs ih =>
    have hx : joinAll (x :: xs) = x ++ joinAll xs := rfl
    rw [hx, noUnd_append, h x (List.mem_cons_self _ _),
      ih (fun y hy => h y (List.mem_cons_of_mem _ hy))]
    rfl

theorem noUnd_joinSep {sep : Str} (hsep : noUnd sep = true) :
    ∀ {l : List Str}, (∀ x ∈ l, noUnd x = true) → noUnd (joinSep sep l) = true := by
  intro l
  induction l with
  | nil => intro _; rfl
  | cons x xs ih =>
    intro h
    cases xs with
    | nil => exact h x (List.mem_cons_self _ _)
    | cons y ys =>
      simp only [joinSep]
      rw [noUnd_append, noUnd_append]
      simp [h x (List.mem_cons_self _ _), hsep,
        ih (fun z hz => h z (List.mem_cons_of_mem _ hz))]

theorem toLower_ne_underscore {c : Char} (h : c ≠ '_') : c.toLower ≠ '_' := by
  show (if c.toNat ≥ 65 ∧ c.toNat ≤ 90 then Char.ofNat (c.toNat + 32) else c) ≠ '_'
  split
  · rename_i hr
    intro he
    have hv : (c.toNat + 32).isValidChar := by
      left
      omega
    have hofn : (Char.ofNat (c.toNat + 32)).toNat = c.toNat + 32 := by
      unfold Char.ofNat
      rw [dif_pos hv]
      rfl
    have h2 := congrArg Char.toNat he
    rw [hofn] at h2
    have h95 : ('_' : Char).toNat = 95 := rfl
    omega
  · exact h

theorem noUnd_map_toLower {l : Str} (h : noUnd l = true) :
    noUnd (l.map Char.toLower) = true := by
  rw [noUnd_iff] at h ⊢
  intro c hc
  rw [List.mem_map] at hc
  obtain ⟨a, ha, rfl⟩ := hc
  exact toLower_ne_underscore (h a ha)

theorem noUnd_escHtml {s : Str} (h : noUnd s = true) : noUnd (escHtml s) = true := by
  rw [noUnd_iff] at h ⊢
  intro c hc
  simp only [escHtml, List.mem_flatMap] at hc
  obtain ⟨a, ha, hc2⟩ := hc
  split_ifs at hc2
  · rw [show "&amp;".toList = ['&', 'a', 'm', 'p', ';'] from rfl] at hc2
    simp only [List.mem_cons, List.not_mem_nil, or_false] at hc2
    rcases hc2 with rfl | rfl | rfl | rfl | rfl <;> decide
  · rw [show "&lt;".toList = ['&', 'l', 't', ';'] from rfl] at hc2
    simp only [List.mem_cons, List.not_mem_nil, or_false] at hc2
    rcases hc2 with rfl | rfl | rfl | rfl <;> decide
  · rw [show "&gt;".toList = ['&', 'g', 't', ';'] from rfl] at hc2
    simp only [List.mem_cons, List.not_mem_nil, or_false] at hc2
    rcases hc2 with rfl | rfl | rfl | rfl <;> decide
  · simp only [List.mem_singleton] at hc2
    rw [hc2]
    exact h a ha

theorem noUnd_escPipes {s : Str} (h : noUnd s = true) : noUnd (escPipes s) = true := by
  rw [noUnd_iff] at h ⊢
  intro c hc
  simp only [escPipes, List.mem_flatMap] at hc
  obtain ⟨a, ha, hc2⟩ := hc
  split_ifs at hc2
  · simp only [List.mem_cons, List.not_mem_nil, or_false] at hc2
    rcases hc2 with rfl | rfl <;> decide
  · simp only [List.mem_singleton] at hc2
    rw [hc2]
    exact h a ha

theorem noUnd_nlToSpace {s : Str} (h : noUnd s = true) : noUnd (nlToSpace s) = true := by
  rw [noUnd_iff] at h ⊢
  intro c hc
  simp only [nlToSpace, List.mem_map] at hc
  obtain ⟨a, ha, rfl⟩ := hc
  split
  · decide
  · exact h a ha

theorem noUnd_indentSp (d : Nat) : noUnd (indentSp d) = true := by
  apply noUnd_joinAll
  intro x hx
  have hxe := List.eq_of_mem_replicate hx
  subst hxe
  decide

theorem splitOnCharGo_mem_ne (ch : Char) :
    ∀ (s acc : Str), (∀ a ∈ acc, a ≠ ch) → ∀ x ∈ splitOnCharGo ch s acc, ∀ c ∈ x, c ≠ ch := by
  intro s
  induction s with
  | nil =>
    intro acc hacc x hx c hc
    simp only [splitOnCharGo, List.mem_singleton] at hx
    subst hx
    exact hacc c (List.mem_reverse.mp hc)
  | cons b t ih =>
    intro acc hacc x hx c hc
    simp only [splitOnCharGo] at hx
    by_cases hbch : b = ch
    · rw [if_pos hbch] at hx
      rcases List.mem_cons.mp hx with rfl | hx2
      · exact hacc c (List.mem_reverse.mp hc)
      · exact ih [] (by simp) x hx2 c hc
    · rw [if_neg hbch] at hx
      refine ih (b :: acc) ?_ x hx c hc
      intro a ha
      rcases List.mem_cons.mp ha with rfl | ha2
      · exact hbch
      · exact hacc a ha2

theorem noUnd_splitOnChar_mem {s x : Str} (hx : x ∈ splitOnChar '_' s) : noUnd x = true := by
  rw [noUnd_iff]
  exact fun c hc => splitOnCharGo_mem_ne '_' s [] (by simp) x hx c hc

/-! ### Cleanliness of the input tree: no underscore in any emitted text
field, well-formed image tokens -/

def cleanAttrsB (a : Attrs) : Bool :=
  noUnd a.equation && noUnd a.textHighlight && noUnd a.textHighlightBackground &&
  noUnd a.link &&
  (match a.inlineComponent with
   | some ic =>
     match ic.data with
     | some d => noUnd d.title && noUnd d.rawUrl
     | none => true
   | none => true)

def cleanOpB (op : Op) : Bool :=
  noUnd op.insert &&
  (match op.attributes with
   | some a => cleanAttrsB a
   | none => true)

def cleanZoneB (zs : ZoneState) : Bool :=
  (match zs.allText with
   | some t => noUnd t
   | none => true) &&
  (match zs.content with
   | some c =>
     match c.ops with
     | some ops => ops.all cleanOpB
     | none => true
   | none => true)

def cleanSnapB (sn : Snapshot) : Bool :=
  (match sn.image with
   | some img => noUnd img.name && tokOkB img.token
   | none => true) &&
  (match sn.seq with
   | some sq => noUnd sq
   | none => true) &&
  (match sn.language with
   | some l => noUnd l
   | none => true) &&
  (match sn.iframeUrl with
   | some u => noUnd u
   | none => true) &&
  (match sn.isvData with
   | some d2 => noUnd d2
   | none => true)

def cleanBlockB : Block → Bool
  | .mk _ _ sn zs _ _ lg cs =>
    (match zs with
     | some z => cleanZoneB z
     | none => true) &&
    (match sn with
     | some snap => cleanSnapB snap
     | none => true) &&
    (match lg with
     | some l => noUnd l
     | none => true) &&
    cs.attach.all (fun ⟨c, _⟩ => cleanBlockB c)
  termination_by b => sizeOf b
  decreasing_by
    rename_i hc
    simp_wf
    have h1 := List.sizeOf_lt_of_mem hc
    omega

theorem cleanBlockB_children {b : Block} (h : cleanBlockB b = true) :
    ∀ c ∈ b.children, cleanBlockB c = true := by
  obtain ⟨i, ty, sn, zs, rc, im, lg, cs⟩ := b
  intro c hc
  rw [cleanBlockB.eq_def] at h
  simp only [Bool.and_eq_true, List.all_eq_true] at h
  have := h.2 ⟨c, hc⟩ (List.mem_attach _ _)
  simpa using this

theorem cleanBlockB_zone {b : Block} (h : cleanBlockB b = true) :
    ∀ z, b.zoneState = some z → cleanZoneB z = true := by
  obtain ⟨i, ty, sn, zs, rc, im, lg, cs⟩ := b
  intro z hz
  rw [cleanBlockB.eq_def] at h
  simp only [Bool.and_eq_true] at h
  have h1 := h.1.1.1
  simp only [Block.zoneState] at hz
  rw [hz] at h1
  exact h1

theorem cleanBlockB_snap {b : Block} (h : cleanBlockB b = true) :
    ∀ sn, b.snapshot = some sn → cleanSnapB sn = true := by
  obtain ⟨i, ty, sn0, zs, rc, im, lg, cs⟩ := b
  intro sn hsn
  rw [cleanBlockB.eq_def] at h
  simp only [Bool.and_eq_true] at h
  have h1 := h.1.1.2
  simp only [Block.snapshot] at hsn
  rw [hsn] at h1
  exact h1

theorem cleanBlockB_lang {b : Block} (h : cleanBlockB b = true) :
    ∀ l, b.language = some l → noUnd l = true := by
  obtain ⟨i, ty, sn0, zs, rc, im, lg, cs⟩ := b
  intro l hl
  rw [cleanBlockB.eq_def] at h
  simp only [Bool.and_eq_true] at h
  have h1 := h.1.2
  simp only [Block.language] at hl
  rw [hl] at h1
  exact h1

theorem clean_flatChildrenP :
    ∀ (l : List Block) (p : Block), (∀ c ∈ l, cleanBlockB c = true) →
      ∀ cq ∈ flatChildrenP l p, cleanBlockB cq.1 = true := by
  intro l p
  induction l, p using flatChildrenP.induct with
  | case1 p => intro _ cq h; simp [flatChildrenP] at h
  | case2 i sn zs rc im lg cs rest p ih1 ih2 =>
    intro hcl cq hmem
    rw [flatChildrenP, if_pos rfl] at hmem
    have hhead := hcl _ (List.mem_cons_self _ _)
    rcases List.mem_append.mp hmem with h | h
    · exact ih1 (cleanBlockB_children hhead) cq h
    · exact ih2 (fun c hc => hcl c (List.mem_cons_of_mem _ hc)) cq h
  | case3 i ty sn zs rc im lg cs rest p hty hhd ih1 ih2 =>
    intro hcl cq hmem
    rw [flatChildrenP, if_neg hty, if_pos hhd] at hmem
    have hhead := hcl _ (List.mem_cons_self _ _)
    rcases List.mem_cons.mp hmem with rfl | h
    · exact hhead
    · rcases List.mem_append.mp h with h | h
      · split at h
        · exact ih1 (cleanBlockB_children hhead) cq h
        · simp at h
      · exact ih2 (fun c hc => hcl c (List.mem_cons_of_mem _ hc)) cq h
  | case4 i ty sn zs rc im lg cs rest p hty hhd ih1 ih2 =>
    intro hcl cq hmem
    rw [flatChildrenP, if_neg hty, if_neg hhd] at hmem
    have hhead := hcl _ (List.mem_cons_self _ _)
    rcases List.mem_cons.mp hmem with rfl | h
    · exact hhead
    · rcases List.mem_append.mp h with h | h
      · split at h
        · exact ih1 (cleanBlockB_children hhead) cq h
        · simp at h
      · exact ih2 (fun c hc => hcl c (List.mem_cons_of_mem _ hc)) cq h

/-! ### Underscore-freeness of the inline renderer -/

theorem cleanAttrsB_parts {a : Attrs} (h : cleanAttrsB a = true) :
    noUnd a.equation = true ∧ noUnd a.textHighlight = true ∧
    noUnd a.textHighlightBackground = true ∧ noUnd a.link = true := by
  simp only [cleanAttrsB, Bool.and_eq_true] at h
  exact ⟨h.1.1.1.1, h.1.1.1.2, h.1.1.2, h.1.2⟩

theorem cleanAttrsB_mention {a : Attrs} (h : cleanAttrsB a = true) :
    ∀ ic d, a.inlineComponent = some ic → ic.data = some d →
      noUnd d.title = true ∧ noUnd d.rawUrl = true := by
  simp only [cleanAttrsB, Bool.and_eq_true] at h
  intro ic d hic hd
  have h2 := h.2
  rw [hic] at h2
  simp only [hd, Bool.and_eq_true] at h2
  exact h2

theorem noUnd_cons_eq (c : Char) (t : Str) : noUnd (c :: t) = ((c != '_') && noUnd t) := by
  simp [noUnd]

theorem noUnd_colorWrap {fg bg text : Str} (hfg : noUnd fg = true) (hbg : noUnd bg = true)
    (ht : noUnd text = true) : noUnd (colorWrap fg bg text) = true := by
  simp only [colorWrap]
  split_ifs <;>
    simp +decide [noUnd_append, noUnd_cons_eq, noUnd_escHtml ht, hfg, hbg, ht]

theorem noUnd_mentionAdjust {a : Attrs} {text : Str} (hca : cleanAttrsB a = true)
    (ht : noUnd text = true) :
    noUnd (mentionAdjust a text).1 = true ∧ noUnd (mentionAdjust a text).2 = true := by
  have hl := (cleanAttrsB_parts hca).2.2.2
  simp only [mentionAdjust]
  cases hic : a.inlineComponent with
  | none => exact ⟨ht, hl⟩
  | some ic =>
    by_cases hty : ic.type = "mention_doc"
    · simp only [hty, reduceIte]
      cases hd : ic.data with
      | none => exact ⟨ht, hl⟩
      | some d =>
        have hm := cleanAttrsB_mention hca ic d hic hd
        refine ⟨?_, hm.2⟩
        show noUnd (text ++ d.title) = true
        rw [noUnd_append, ht, hm.1]
        rfl
    · simp only [if_neg hty]
      exact ⟨ht, hl⟩

theorem noUnd_opToMd {dec : Str → Option Str}
    (hdec : ∀ s r, dec s = some r → noUnd s = true → noUnd r = true)
    {op : Op} (hop : cleanOpB op = true) :
    ∀ res, opToMd dec op = some res → noUnd res = true := by
  intro res hres
  have hins : noUnd op.insert = true := by
    simp only [cleanOpB, Bool.and_eq_true] at hop
    exact hop.1
  cases hat : op.attributes with
  | none =>
    simp only [opToMd, hat] at hres
    split_ifs at hres <;> cases hres <;> exact hins
  | some a =>
    simp only [opToMd, hat] at hres
    have hca : cleanAttrsB a = true := by
      simp only [cleanOpB, Bool.and_eq_true, hat] at hop
      exact hop.2
    have hparts := cleanAttrsB_parts hca
    by_cases h1 : a.fixEnter
    · rw [if_pos h1] at hres; cases hres
    · rw [if_neg h1] at hres
      by_cases h2 : a.equation ≠ []
      · rw [if_pos h2] at hres
        injection hres with hr
        rw [← hr]
        simp +decide [noUnd_append, noUnd_cons_eq, noUnd_stripNL1 hparts.1]
      · rw [if_neg h2] at hres
        by_cases h3 : a.inlineCode
        · rw [if_pos h3] at hres
          injection hres with hr
          rw [← hr]
          simp +decide [noUnd_append, noUnd_cons_eq, hins]
        · rw [if_neg h3] at hres
          injection hres with hr
          rw [← hr]
          obtain ⟨hm1, hm2⟩ := noUnd_mentionAdjust hca hins
          have hcw : noUnd (colorWrap a.textHighlight a.textHighlightBackground
              (mentionAdjust a op.insert).1) = true :=
            noUnd_colorWrap hparts.2.1 hparts.2.2.1 hm1
          have hlink : noUnd ((dec (mentionAdjust a op.insert).2).getD
              (mentionAdjust a op.insert).2) = true := by
            cases hdc : dec (mentionAdjust a op.insert).2 with
            | none => simpa using hm2
            | some r => simpa using hdec _ r hdc hm2
          split_ifs <;>
            simp +decide [noUnd_append, noUnd_cons_eq, hm1, hcw, hlink, Bool.and_eq_true]

theorem noUnd_opsToMd {dec : Str → Option Str}
    (hdec : ∀ s r, dec s = some r → noUnd s = true → noUnd r = true)
    {ops : List Op} (h : ops.all cleanOpB = true) :
    noUnd (opsToMd dec ops) = true := by
  simp only [opsToMd]
  split
  · rfl
  · apply noUnd_joinAll
    intro x hx
    rw [List.mem_filterMap] at hx
    obtain ⟨op, hop, hsome⟩ := hx
    exact noUnd_opToMd hdec (List.all_eq_true.mp h op hop) x hsome

theorem cleanZoneB_allText {z : ZoneState} (h : cleanZoneB z = true) :
    ∀ t, z.allText = some t → noUnd t = true := by
  simp only [cleanZoneB, Bool.and_eq_true] at h
  intro t ht
  have h1 := h.1
  rw [ht] at h1
  exact h1

theorem cleanZoneB_ops {z : ZoneState} (h : cleanZoneB z = true) :
    ∀ c ops, z.content = some c → c.ops = some ops → ops.all cleanOpB = true := by
  simp only [cleanZoneB, Bool.and_eq_true] at h
  intro c ops hc hops
  have h2 := h.2
  rw [hc] at h2
  simp only [hops] at h2
  exact h2

theorem noUnd_blockText {dec : Str → Option Str}
    (hdec : ∀ s r, dec s = some r → noUnd s = true → noUnd r = true)
    {b : Block} (h : cleanBlockB b = true) :
    noUnd (blockText dec b) = true := by
  cases hz : b.zoneState with
  | none => simp [blockText, hz, noUnd]
  | some zs =>
    have hzz := cleanBlockB_zone h zs hz
    cases hc : zs.content with
    | none =>
      cases hat : zs.allText with
      | none => simp +decide [blockText, hz, hc, hat, stripNL1, noUnd]
      | some t =>
        have hst := noUnd_stripNL1 (cleanZoneB_allText hzz t hat)
        simp only [blockText, hz, hc, hat, Option.getD_some]
        exact hst
    | some cz =>
      cases ho : cz.ops with
      | none =>
        cases hat : zs.allText with
        | none => simp +decide [blockText, hz, hc, ho, hat, stripNL1, noUnd]
        | some t =>
          have hst := noUnd_stripNL1 (cleanZoneB_allText hzz t hat)
          simp only [blockText, hz, hc, ho, hat, Option.getD_some]
          exact hst
      | some ops =>
        have hop := noUnd_opsToMd hdec (cleanZoneB_ops hzz cz ops hc ho)
        simp only [blockText, hz, hc, ho]
        exact hop

/-! ### Underscore-freeness of the block-level renderers -/

theorem noUnd_zone_allText_bind {b : Block} (h : cleanBlockB b = true) :
    ∀ t, b.zoneState.bind ZoneState.allText = some t → noUnd t = true := by
  intro t ht
  cases hz : b.zoneState with
  | none => rw [hz] at ht; cases ht
  | some zs =>
    rw [hz] at ht
    exact cleanZoneB_allText (cleanBlockB_zone h zs hz) t ht

theorem noUnd_zone_ops_bind {b : Block} (h : cleanBlockB b = true) :
    ∀ ops, ((b.zoneState.bind ZoneState.content).bind ContentZ.ops) = some ops →
      ops.all cleanOpB = true := by
  intro ops hops
  cases hz : b.zoneState with
  | none => rw [hz] at hops; cases hops
  | some zs =>
    rw [hz] at hops
    cases hc : zs.content with
    | none =>
      rw [show ((some zs : Option ZoneState).bind ZoneState.content) = zs.content from rfl,
        hc] at hops
      cases hops
    | some cz =>
      rw [show ((some zs : Option ZoneState).bind ZoneState.content) = zs.content from rfl,
        hc] at hops
      exact cleanZoneB_ops (cleanBlockB_zone h zs hz) cz ops hc hops

theorem noUnd_codeRaw {b : Block} (h : cleanBlockB b = true) : noUnd (codeRaw b) = true := by
  simp only [codeRaw]
  have h0 : noUnd (match b.zoneState.bind ZoneState.allText with
      | some t => stripNL1 t
      | none => []) = true := by
    cases hat : b.zoneState.bind ZoneState.allText with
    | none => rfl
    | some t => exact noUnd_stripNL1 (noUnd_zone_allText_bind h t hat)
  have h1 : noUnd (match (b.zoneState.bind ZoneState.content).bind ContentZ.ops with
      | some ops => stripNL1 (joinAll (ops.map Op.insert))
      | none => []) = true := by
    cases hops : (b.zoneState.bind ZoneState.content).bind ContentZ.ops with
    | none => rfl
    | some ops =>
      apply noUnd_stripNL1
      apply noUnd_joinAll
      intro x hx
      rw [List.mem_map] at hx
      obtain ⟨op, hopm, rfl⟩ := hx
      have hcl := List.all_eq_true.mp (noUnd_zone_ops_bind h ops hops) op hopm
      simp only [cleanOpB, Bool.and_eq_true] at hcl
      exact hcl.1
  have h2 : noUnd (stripNL1 (joinSep "\n".toList (b.children.map fun child =>
      let a := match child.zoneState.bind ZoneState.allText with
        | some t => stripNL1 t
        | none => []
      if a ≠ [] then a
      else joinAll (((((child.zoneState.bind ZoneState.content).bind
        ContentZ.ops)).getD []).map Op.insert)))) = true := by
    apply noUnd_stripNL1
    apply noUnd_joinSep (by decide)
    intro x hx
    rw [List.mem_map] at hx
    obtain ⟨child, hchild, rfl⟩ := hx
    have hcc := cleanBlockB_children h child hchild
    have hjops : ∀ ops, ((child.zoneState.bind ZoneState.content).bind ContentZ.ops) =
        some ops → noUnd (joinAll (ops.map Op.insert)) = true := by
      intro ops hops
      apply noUnd_joinAll
      intro y hy
      rw [List.mem_map] at hy
      obtain ⟨op, hopm, rfl⟩ := hy
      have hcl := List.all_eq_true.mp (noUnd_zone_ops_bind hcc ops hops) op hopm
      simp only [cleanOpB, Bool.and_eq_true] at hcl
      exact hcl.1
    cases hat : child.zoneState.bind ZoneState.allText with
    | none =>
      cases hops : (child.zoneState.bind ZoneState.content).bind ContentZ.ops with
      | none => simp +decide [joinAll, noUnd]
      | some ops => simpa using hjops ops hops
    | some t =>
      have ht := noUnd_stripNL1 (noUnd_zone_allText_bind hcc t hat)
      by_cases hne : stripNL1 t ≠ []
      · simpa [hne] using ht
      · cases hops : (child.zoneState.bind ZoneState.content).bind ContentZ.ops with
        | none => simp +decide [hne, joinAll, noUnd]
        | some ops => simpa [hne] using hjops ops hops
  split_ifs <;> first | exact h0 | exact h1 | exact h2

theorem noUnd_codeLang {b : Block} (h : cleanBlockB b = true) : noUnd (codeLang b) = true := by
  simp only [codeLang]
  apply noUnd_map_toLower
  have hl1 : noUnd ((b.snapshot.bind Snapshot.language).getD []) = true := by
    cases hsb : b.snapshot.bind Snapshot.language with
    | none => rfl
    | some l =>
      cases hsn : b.snapshot with
      | none => rw [hsn] at hsb; cases hsb
      | some sn =>
        rw [hsn] at hsb
        have hcs := cleanBlockB_snap h sn hsn
        simp only [cleanSnapB, Bool.and_eq_true] at hcs
        have hlg := hcs.1.1.2
        rw [show ((some sn : Option Snapshot).bind Snapshot.language) = sn.language
          from rfl] at hsb
        rw [hsb] at hlg
        simpa using hlg
  have hl0 : noUnd (b.language.getD []) = true := by
    cases hl : b.language with
    | none => rfl
    | some l => simpa using cleanBlockB_lang h l hl
  split
  · exact hl0
  · exact hl1

theorem noUnd_orderedSeqStr {b : Block} (h : cleanBlockB b = true) (parent : Option Block) :
    noUnd (orderedSeqStr (b.snapshot.bind Snapshot.seq) parent b) = true := by
  simp only [orderedSeqStr]
  split
  · exact natChars_noUnd _
  · cases hsv : b.snapshot.bind Snapshot.seq with
    | none => rfl
    | some sq =>
      cases hsn : b.snapshot with
      | none => rw [hsn] at hsv; cases hsv
      | some sn =>
        rw [hsn] at hsv
        have hcs := cleanBlockB_snap h sn hsn
        simp only [cleanSnapB, Bool.and_eq_true] at hcs
        have hsq := hcs.1.1.1.2
        rw [show ((some sn : Option Snapshot).bind Snapshot.seq) = sn.seq from rfl] at hsv
        rw [hsv] at hsq
        simpa using hsq

theorem chunkRows_subset (n : Nat) :
    ∀ (l : List Block) (r : List Block), r ∈ chunkRows n l → ∀ x ∈ r, x ∈ l := by
  suffices H : ∀ (k : Nat) (l : List Block), l.length ≤ k →
      ∀ r ∈ chunkRows n l, ∀ x ∈ r, x ∈ l by
    intro l r hr x hx
    exact H l.length l le_rfl r hr x hx
  intro k
  induction k with
  | zero =>
    intro l hl r hr x hx
    have hln : l = [] := List.length_eq_zero.mp (Nat.le_zero.mp hl)
    subst hln
    simp [chunkRows] at hr
  | succ k ih =>
    intro l hl r hr x hx
    cases l with
    | nil => simp [chunkRows] at hr
    | cons c rest =>
      rw [chunkRows] at hr
      rcases List.mem_cons.mp hr with rfl | hr2
      · exact List.take_subset _ _ hx
      · have hlen2 : (rest.drop (n - 1)).length ≤ k := by
          simp only [List.length_drop]
          simp only [List.length_cons] at hl
          omega
        exact List.mem_cons_of_mem _
          (List.drop_subset _ _ (ih (rest.drop (n - 1)) hlen2 r hr2 x hx))

theorem noUnd_cellText {dec : Str → Option Str}
    (hdec : ∀ s r, dec s = some r → noUnd s = true → noUnd r = true)
    {cell : Block} (h : cleanBlockB cell = true) :
    noUnd (cellText dec cell) = true := by
  simp only [cellText]
  apply noUnd_nlToSpace
  apply noUnd_escPipes
  apply noUnd_joinSep (by decide)
  intro x hx
  rw [List.mem_map] at hx
  obtain ⟨child, hchild, rfl⟩ := hx
  exact noUnd_blockText hdec (cleanBlockB_children h child hchild)

theorem noUnd_tableRowLine {cells : List Str} (h : ∀ x ∈ cells, noUnd x = true) :
    noUnd (tableRowLine cells) = true := by
  simp only [tableRowLine]
  rw [noUnd_append, noUnd_append]
  have hj : noUnd (joinSep [' ', '|', ' '] cells) = true := noUnd_joinSep (by decide) h
  simp +decide [hj]

theorem noUnd_tableSepLine (cells : List Str) : noUnd (tableSepLine cells) = true := by
  simp only [tableSepLine]
  rw [noUnd_append, noUnd_append]
  have hj : noUnd (joinSep [' ', '|', ' ']
      (List.replicate cells.length ['-', '-', '-'])) = true := by
    apply noUnd_joinSep (by decide)
    intro x hx
    have hxe := List.eq_of_mem_replicate hx
    subst hxe
    decide
  simp +decide [hj]

theorem noUnd_tableToMd {dec : Str → Option Str}
    (hdec : ∀ s r, dec s = some r → noUnd s = true → noUnd r = true)
    {b : Block} (h : cleanBlockB b = true) :
    noUnd (tableToMd dec b) = true := by
  simp only [tableToMd]
  apply noUnd_joinSep (by decide)
  intro x hx
  simp only [tableLines] at hx
  split at hx
  · simp at hx
  · split at hx
    · simp at hx
    · rename_i r0 rest heq
      have hcells : ∀ r ∈ chunkRows ((b.snapshot.bind Snapshot.columnsId).getD []).length
          b.children, ∀ y ∈ r.map (cellText dec), noUnd y = true := by
        intro r hr y hy
        rw [List.mem_map] at hy
        obtain ⟨cell, hcell, rfl⟩ := hy
        have hmem := chunkRows_subset _ b.children r hr cell hcell
        exact noUnd_cellText hdec (cleanBlockB_children h cell hmem)
      rcases List.mem_cons.mp hx with rfl | hx2
      · exact noUnd_tableRowLine (hcells r0 (heq ▸ List.mem_cons_self _ _))
      · rcases List.mem_cons.mp hx2 with rfl | hx3
        · exact noUnd_tableSepLine _
        · rw [List.mem_map] at hx3
          obtain ⟨r, hr, rfl⟩ := hx3
          exact noUnd_tableRowLine (hcells r (heq ▸ List.mem_cons_of_mem _ hr))

/-! ### Underscore-freeness of the sheet renderers -/

/-- Cleanliness of a resolved spreadsheet handle. -/
structure CleanSheet (sh : SheetHandle) : Prop where
  val : ∀ r c v, sh.getValue r c = some v → noUnd v = true
  txt : ∀ r c v, sh.getText r c = some v → noUnd v = true
  style : ∀ r c st, sh.getStyle r c = some st →
    noUnd st.foreColor = true ∧ noUnd st.backColor = true
  segs : ∀ r c ss, sh.segments r c = some ss → ∀ sg ∈ ss,
    noUnd sg.text = true ∧ noUnd sg.fontColor = true ∧ noUnd sg.backgroundColor = true

/-- Cleanliness of a materialised DOM cell. -/
structure CleanDomCellP (cell : DomCell) : Prop where
  txt : noUnd cell.text = true
  col : ∀ cv, cell.color = some cv → noUnd cv = true
  bg : ∀ bgv, cell.background = some bgv → noUnd bgv = true

/-- Cleanliness of the collaborator state: every string any sheet lookup
can return is underscore-free. -/
structure CleanEnv (env : SheetEnv) : Prop where
  sheet : ∀ sid sh, env.sheetMap sid = some sh → CleanSheet sh
  state : ∀ rid v, env.sheetBlocksState rid = some v → noUnd v = true
  dom : ∀ bid tbl, env.dom bid = some tbl → ∀ row ∈ tbl, ∀ cell ∈ row, CleanDomCellP cell

theorem noUnd_fontSpan {fc inner : Str} (h1 : noUnd fc = true) (h2 : noUnd inner = true) :
    noUnd (fontSpan fc inner) = true := by
  simp only [fontSpan]
  rw [noUnd_append, noUnd_append, noUnd_append]
  simp +decide [noUnd_cons_eq, h1, h2]

theorem noUnd_markSpan {bg inner : Str} (h1 : noUnd bg = true) (h2 : noUnd inner = true) :
    noUnd (markSpan bg inner) = true := by
  simp only [markSpan]
  rw [noUnd_append, noUnd_append, noUnd_append]
  simp +decide [noUnd_cons_eq, h1, h2]

theorem noUnd_wrap {w : Str} (hw : noUnd w = true) {t : Str} (ht : noUnd t = true) :
    noUnd (w ++ t ++ w) = true := by
  rw [noUnd_append, noUnd_append, hw, ht]
  rfl

theorem noUnd_step_wrap (cond : Prop) [Decidable cond] {w : Str} (hw : noUnd w = true)
    {v : Str} (h : noUnd v = true) : noUnd (if cond then w ++ v ++ w else v) = true := by
  split
  · exact noUnd_wrap hw h
  · exact h

theorem noUnd_step_mark (cond : Prop) [Decidable cond] {bg : Str} (hb : noUnd bg = true)
    {v : Str} (h : noUnd v = true) :
    noUnd (if cond then markSpan bg (escHtml v) else v) = true := by
  split
  · exact noUnd_markSpan hb (noUnd_escHtml h)
  · exact h

theorem noUnd_step_font (cond : Prop) [Decidable cond] {fc : Str} (hf : noUnd fc = true)
    {v : Str} (h : noUnd v = true) :
    noUnd (if cond then fontSpan fc (escHtml v) else v) = true := by
  split
  · exact noUnd_fontSpan hf (noUnd_escHtml h)
  · exact h

theorem noUnd_segToMd {sg : Seg} (h1 : noUnd sg.text = true) (h2 : noUnd sg.fontColor = true)
    (h3 : noUnd sg.backgroundColor = true) : noUnd (segToMd sg) = true := by
  simp only [segToMd]
  apply noUnd_step_mark _ h3
  apply noUnd_step_font _ h2
  apply noUnd_step_wrap _ (by decide)
  apply noUnd_step_wrap _ (by decide)
  apply noUnd_step_wrap _ (by decide)
  exact h1

theorem noUnd_sheetCellVal {sh : SheetHandle} (hsh : CleanSheet sh) (r c : Nat) :
    noUnd (sheetCellVal sh r c) = true := by
  simp only [sheetCellVal]
  apply noUnd_nlToSpace
  apply noUnd_escPipes
  have hval0 : noUnd (match sh.getValue r c with
      | some v => v
      | none => (sh.getText r c).getD []) = true := by
    cases hv : sh.getValue r c with
    | some v => exact hsh.val r c v hv
    | none =>
      cases htx : sh.getText r c with
      | none => rfl
      | some v => simpa using hsh.txt r c v htx
  split
  · rename_i segs hsg
    have hjoin : noUnd (joinAll (segs.map segToMd)) = true := by
      apply noUnd_joinAll
      intro x hx
      rw [List.mem_map] at hx
      obtain ⟨sg, hsgm, rfl⟩ := hx
      obtain ⟨a1, a2, a3⟩ := hsh.segs r c segs hsg sg hsgm
      exact noUnd_segToMd a1 a2 a3
    by_cases hn : segs.length > 0
    · rw [if_pos hn]
      by_cases hp : (segs.map segToMd).length > 0
      · rw [if_pos hp]
        exact hjoin
      · rw [if_neg hp]
        split
        · exact hval0
        · rename_i st hst
          obtain ⟨hf, hb⟩ := hsh.style r c st hst
          apply noUnd_step_font _ hf
          apply noUnd_step_mark _ hb
          apply noUnd_step_wrap _ (by decide)
          apply noUnd_step_wrap _ (by decide)
          apply noUnd_step_wrap _ (by decide)
          exact hval0
    · rw [if_neg hn]
      split
      · exact hval0
      · rename_i st hst
        obtain ⟨hf, hb⟩ := hsh.style r c st hst
        apply noUnd_step_font _ hf
        apply noUnd_step_mark _ hb
        apply noUnd_step_wrap _ (by decide)
        apply noUnd_step_wrap _ (by decide)
        apply noUnd_step_wrap _ (by decide)
        exact hval0
  · rename_i hsg
    split
    · exact hval0
    · rename_i st hst
      obtain ⟨hf, hb⟩ := hsh.style r c st hst
      apply noUnd_step_font _ hf
      apply noUnd_step_mark _ hb
      apply noUnd_step_wrap _ (by decide)
      apply noUnd_step_wrap _ (by decide)
      apply noUnd_step_wrap _ (by decide)
      exact hval0

theorem noUnd_ite (cond : Prop) [Decidable cond] {a b : Str} (ha : noUnd a = true)
    (hb : noUnd b = true) : noUnd (if cond then a else b) = true := by
  split
  · exact ha
  · exact hb

theorem noUnd_domCellText {cell : DomCell} (hc : CleanDomCellP cell) :
    noUnd (domCellText cell) = true := by
  simp only [domCellText]
  have h0 : noUnd (nlToSpace (escPipes (trimWs cell.text))) = true :=
    noUnd_nlToSpace (noUnd_escPipes (noUnd_trimWs hc.txt))
  have hT0 : noUnd (if cell.hasLineThrough then
      "~~".toList ++ nlToSpace (escPipes (trimWs cell.text)) ++ "~~".toList
      else nlToSpace (escPipes (trimWs cell.text))) = true :=
    noUnd_ite _ (noUnd_wrap (by decide) h0) h0
  cases hcv : cell.color with
  | none =>
    cases hbg : cell.background with
    | none => exact hT0
    | some bgv =>
      have hbgv := hc.bg bgv hbg
      rw [noUnd_append, noUnd_append, noUnd_append, noUnd_append, hbgv, hT0]
      decide
  | some cv =>
    have hcvv := hc.col cv hcv
    have hT1 : noUnd (if cv ≠ "inherit".toList ∧ cv ≠ "rgb(0, 0, 0)".toList then
        "<font color=\"".toList ++ cv ++ "\">".toList ++ (if cell.hasLineThrough then
          "~~".toList ++ nlToSpace (escPipes (trimWs cell.text)) ++ "~~".toList
          else nlToSpace (escPipes (trimWs cell.text))) ++ "</font>".toList
        else (if cell.hasLineThrough then
          "~~".toList ++ nlToSpace (escPipes (trimWs cell.text)) ++ "~~".toList
          else nlToSpace (escPipes (trimWs cell.text)))) = true := by
      apply noUnd_ite
      · rw [noUnd_append, noUnd_append, noUnd_append, noUnd_append, hcvv, hT0]
        decide
      · exact hT0
    cases hbg : cell.background with
    | none => exact hT1
    | some bgv =>
      have hbgv := hc.bg bgv hbg
      rw [noUnd_append, noUnd_append, noUnd_append, noUnd_append, hbgv, hT1]
      decide

theorem noUnd_sheetGridLines {rows : List (List Str)}
    (h : ∀ row ∈ rows, ∀ v ∈ row, noUnd v = true) :
    ∀ x ∈ sheetGridLines rows, noUnd x = true := by
  cases rows with
  | nil => intro x hx; simp [sheetGridLines] at hx
  | cons r0 rest =>
    intro x hx
    simp only [sheetGridLines] at hx
    rcases List.mem_cons.mp hx with rfl | hx2
    · exact noUnd_tableRowLine (h r0 (List.mem_cons_self _ _))
    · rcases List.mem_cons.mp hx2 with rfl | hx3
      · exact noUnd_tableSepLine _
      · rw [List.mem_map] at hx3
        obtain ⟨rr, hr, rfl⟩ := hx3
        exact noUnd_tableRowLine (h rr (List.mem_cons_of_mem _ hr))

theorem noUnd_domTableToMd {tbl : List (List DomCell)}
    (h : ∀ row ∈ tbl, ∀ cell ∈ row, CleanDomCellP cell) :
    noUnd (domTableToMd tbl) = true := by
  simp only [domTableToMd]
  split
  · rfl
  · apply noUnd_joinSep (by decide)
    apply noUnd_sheetGridLines
    intro row hrow v hv
    simp only [List.mem_map] at hrow
    obtain ⟨row0, ⟨rowc, hrowc, rfl⟩, rfl⟩ := hrow
    rcases List.mem_append.mp hv with hv1 | hv2
    · rw [List.mem_map] at hv1
      obtain ⟨cell, hcell, rfl⟩ := hv1
      exact noUnd_domCellText (h rowc hrowc cell hcell)
    · have hv3 := List.eq_of_mem_replicate hv2
      subst hv3
      rfl

theorem mem_of_getLastQ {α : Type} : ∀ {l : List α} {x : α}, l.getLast? = some x → x ∈ l := by
  intro l
  induction l with
  | nil => intro x h; cases h
  | cons b t ih =>
    intro x h
    cases ht : t with
    | nil =>
      rw [ht] at h
      simp only [List.getLast?_singleton, Option.some_inj] at h
      rw [← h]
      exact List.mem_cons_self _ _
    | cons y ys =>
      rw [ht] at h
      rw [List.getLast?_cons_cons] at h
      exact List.mem_cons_of_mem _ (ht ▸ ih (by rw [ht]; exact h))

theorem noUnd_sheetToMd_aux {env : SheetEnv} (henv : CleanEnv env) (bid : String)
    (sid : Str) (hs : noUnd sid = true) :
    noUnd (match env.sheetMap sid with
      | none =>
        match env.dom bid with
        | some tbl => domTableToMd tbl
        | none =>
          "> ⚠️ Sheet block (数据未加载, sheetId=".toList ++ sid ++ ")\n".toList
      | some sh =>
        if sh.rowCount = 0 ∨ sh.colCount = 0 then []
        else
          if ((List.range sh.rowCount).map fun r =>
              (List.range sh.colCount).map fun c => sheetCellVal sh r c).length = 0 then []
          else joinSep "\n".toList (sheetGridLines ((List.range sh.rowCount).map fun r =>
            (List.range sh.colCount).map fun c => sheetCellVal sh r c))) = true := by
  split
  · split
    · rename_i hmap tbl hdom
      exact noUnd_domTableToMd (henv.dom bid tbl hdom)
    · rw [noUnd_append, noUnd_append, hs]
      decide
  · rename_i sh hmap
    have hcsh := henv.sheet sid sh hmap
    split_ifs
    · rfl
    · rfl
    · apply noUnd_joinSep (by decide)
      apply noUnd_sheetGridLines
      intro row hrow v hv
      rw [List.mem_map] at hrow
      obtain ⟨rr, hrr, rfl⟩ := hrow
      rw [List.mem_map] at hv
      obtain ⟨cc, hcc, rfl⟩ := hv
      exact noUnd_sheetCellVal hcsh rr cc

theorem noUnd_sheetToMd {env : SheetEnv} (henv : CleanEnv env) (b : Block) :
    noUnd (sheetToMd env b) = true := by
  simp only [sheetToMd]
  apply noUnd_sheetToMd_aux henv
  have hlastp : noUnd (((splitOnChar '_'
      ((b.snapshot.map Snapshot.token).getD [])).getLast?).getD []) = true := by
    cases hgl : (splitOnChar '_' ((b.snapshot.map Snapshot.token).getD [])).getLast? with
    | none => rfl
    | some x => simpa using noUnd_splitOnChar_mem (mem_of_getLastQ hgl)
  split_ifs <;>
    first
      | rfl
      | exact hlastp
      | (split
         · rename_i rc hrec
           by_cases hid : rc.id ≠ ""
           · rw [if_pos hid]
             cases hreg : env.sheetBlocksState rc.id with
             | none => rfl
             | some v => simpa using henv.state rc.id v hreg
           · rw [if_neg hid]
             rfl
         · rfl)

/-! ### The quote transform and joined decompositions -/

/-- The effect of the quote prefixing on the body: each newline becomes a
newline followed by the quote marker. -/
def nlExpand (s : Str) : Str :=
  s.flatMap fun c => if c = '\n' then "\n> ".toList else [c]

theorem nlExpand_append (a b : Str) : nlExpand (a ++ b) = nlExpand a ++ nlExpand b := by
  simp [nlExpand]

theorem nlExpand_of_no_nl {a : Str} (h : ∀ c ∈ a, c ≠ '\n') : nlExpand a = a := by
  induction a with
  | nil => rfl
  | cons c t ih =>
    simp only [nlExpand, List.flatMap_cons]
    rw [if_neg (h c (List.mem_cons_self _ _))]
    have ih' := ih (fun x hx => h x (List.mem_cons_of_mem _ hx))
    simp only [nlExpand] at ih'
    rw [ih']
    simp

theorem noUnd_nlExpand {a : Str} (h : noUnd a = true) : noUnd (nlExpand a) = true := by
  rw [noUnd_iff] at h ⊢
  intro c hc
  simp only [nlExpand, List.mem_flatMap] at hc
  obtain ⟨x, hx, hc2⟩ := hc
  split_ifs at hc2
  · rw [show "\n> ".toList = ['\n', '>', ' '] from rfl] at hc2
    simp only [List.mem_cons, List.not_mem_nil, or_false] at hc2
    rcases hc2 with rfl | rfl | rfl <;> decide
  · simp only [List.mem_singleton] at hc2
    rw [hc2]
    exact h x hx

theorem piecesOkU_nlExpand :
    ∀ {s : Str} {toks : List Str}, PiecesOkU s toks → PiecesOkU (nlExpand s) toks := by
  intro s toks h
  induction h with
  | nil => exact .nil
  | @plain cs s' toks' hcs hsub ih =>
    rw [nlExpand_append]
    exact .plain _ (noUnd_nlExpand hcs) ih
  | @ph tok s' toks' htok hsub ih =>
    have hpr : nlExpand (')' :: s') = ')' :: nlExpand s' := rfl
    rw [nlExpand_append, show nlExpand markerStr = markerStr from rfl, nlExpand_append,
      nlExpand_of_no_nl (fun c hc => alnum_ne_nl (tokOkB_mem_alnum htok c hc)), hpr]
    rw [hpr] at ih
    exact .ph tok htok ih

theorem splitOnCharGo_ne_nil (ch : Char) : ∀ (s acc : Str), splitOnCharGo ch s acc ≠ [] := by
  intro s
  induction s with
  | nil => intro acc; simp [splitOnCharGo]
  | cons b t ih =>
    intro acc
    simp only [splitOnCharGo]
    split
    · simp
    · exact ih _

/-- The quote join as a homomorphic prefix-and-expand transform. -/
theorem quote_join_go (s : Str) : ∀ acc : Str,
    joinSep "\n".toList ((splitOnCharGo '\n' s acc).map (fun l => "> ".toList ++ l)) =
      "> ".toList ++ acc.reverse ++ nlExpand s := by
  induction s with
  | nil =>
    intro acc
    simp [splitOnCharGo, joinSep, nlExpand]
  | cons c t ih =>
    intro acc
    simp only [splitOnCharGo]
    split
    · rename_i hc
      have hne := splitOnCharGo_ne_nil '\n' t []
      cases hsp : splitOnCharGo '\n' t [] with
      | nil => exact absurd hsp hne
      | cons y ys =>
        have iht := ih []
        rw [hsp] at iht
        simp only [List.map_cons, joinSep] at iht ⊢
        rw [iht]
        simp [nlExpand, hc, List.append_assoc]
    · rename_i hc
      rw [ih (c :: acc)]
      simp [nlExpand, hc, List.append_assoc]

/-- The quote transform preserves the placeholder decomposition. -/
theorem piecesOkU_quote {s : Str} {toks : List Str} (h : PiecesOkU s toks) :
    PiecesOkU (joinSep "\n".toList
      ((splitOnChar '\n' s).map (fun l => "> ".toList ++ l))) toks := by
  rw [splitOnChar, quote_join_go s []]
  simp only [List.reverse_nil, List.append_nil]
  exact .plain _ (by decide) (piecesOkU_nlExpand h)

theorem flatMap_snd_nil {ps : List (Str × List ImgRec)} (h : ∀ q ∈ ps, q.2 = []) :
    ps.flatMap Prod.snd = [] := by
  induction ps with
  | nil => rfl
  | cons p t ih =>
    rw [List.flatMap_cons, h p (List.mem_cons_self _ _),
      ih (fun q hq => h q (List.mem_cons_of_mem _ hq))]
    rfl

/-- Joining decomposed parts with an underscore-free separator. -/
theorem piecesOkU_joinSep_parts (sep : Str) (hsep : noUnd sep = true) :
    ∀ (ps : List (Str × List ImgRec)),
      (∀ p ∈ ps, PiecesOkU p.1 (p.2.map ImgRec.token)) →
      PiecesOkU (joinSep sep (ps.map Prod.fst)) ((ps.flatMap Prod.snd).map ImgRec.token) := by
  intro ps
  induction ps with
  | nil => intro _; exact .nil
  | cons p t ih =>
    intro h
    have hp := h p (List.mem_cons_self _ _)
    have hrest := ih (fun q hq => h q (List.mem_cons_of_mem _ hq))
    cases t with
    | nil =>
      simp only [List.map_cons, List.map_nil, List.flatMap_cons, List.flatMap_nil,
        List.append_nil, joinSep]
      exact hp
    | cons q qs =>
      simp only [List.map_cons, List.flatMap_cons, List.map_append, joinSep]
      rw [List.append_assoc]
      refine PiecesOkU.append hp (.plain sep hsep ?_)
      simpa only [List.map_cons, List.flatMap_cons, List.map_append] using hrest

theorem filter_nil_flatMap {ps : List (Str × List ImgRec)}
    (h : ∀ p ∈ ps, PiecesOkU p.1 (p.2.map ImgRec.token))
    (hf : (ps.map Prod.fst).filter (fun x => x ≠ []) = []) :
    ps.flatMap Prod.snd = [] := by
  apply flatMap_snd_nil
  intro q hq
  have hq1 : q.1 = [] := by
    by_contra hne
    have hmem : q.1 ∈ (ps.map Prod.fst).filter (fun x => x ≠ []) := by
      rw [List.mem_filter]
      exact ⟨List.mem_map_of_mem _ hq, by simpa using hne⟩
    rw [hf] at hmem
    simp at hmem
  have htoks := piecesOkU_nil_toks (h q hq) hq1
  exact List.map_eq_nil.mp htoks

/-- Joining decomposed parts after dropping the empty ones: the dropped
parts carry no tokens. -/
theorem piecesOkU_joinSep_filter (sep : Str) (hsep : noUnd sep = true) :
    ∀ (ps : List (Str × List ImgRec)),
      (∀ p ∈ ps, PiecesOkU p.1 (p.2.map ImgRec.token)) →
      PiecesOkU (joinSep sep ((ps.map Prod.fst).filter (fun x => x ≠ [])))
        ((ps.flatMap Prod.snd).map ImgRec.token) := by
  intro ps
  induction ps with
  | nil => intro _; exact .nil
  | cons p t ih =>
    intro h
    have hp := h p (List.mem_cons_self _ _)
    have hrest := ih (fun q hq => h q (List.mem_cons_of_mem _ hq))
    simp only [List.map_cons, List.flatMap_cons, List.map_append, List.filter_cons]
    by_cases hp1 : p.1 = []
    · have htoks : p.2.map ImgRec.token = [] := piecesOkU_nil_toks hp hp1
      have hp2 : p.2 = [] := List.map_eq_nil.mp htoks
      rw [hp2]
      simp only [List.map_nil, List.nil_append]
      simpa [hp1] using hrest
    · rw [if_pos (by simpa using hp1)]
      cases hft : (t.map Prod.fst).filter (fun x => x ≠ []) with
      | nil =>
        have hzero := filter_nil_flatMap (fun q hq => h q (List.mem_cons_of_mem _ hq)) hft
        rw [hzero]
        simp only [joinSep, List.map_nil, List.append_nil]
        exact hp
      | cons y ys =>
        simp only [joinSep]
        rw [List.append_assoc]
        refine PiecesOkU.append hp (.plain sep hsep ?_)
        rw [hft] at hrest
        exact hrest

/-! ### The rendered markdown of a clean tree is a placeholder decomposition -/

theorem noUnd_snap_iframe {b : Block} (h : cleanBlockB b = true) :
    ∀ u, b.snapshot.bind Snapshot.iframeUrl = some u → noUnd u = true := by
  intro u hu
  cases hsn : b.snapshot with
  | none => rw [hsn] at hu; cases hu
  | some sn =>
    rw [hsn] at hu
    have hcs := cleanBlockB_snap h sn hsn
    simp only [cleanSnapB, Bool.and_eq_true] at hcs
    have hif := hcs.1.2
    rw [show ((some sn : Option Snapshot).bind Snapshot.iframeUrl) = sn.iframeUrl
      from rfl] at hu
    rw [hu] at hif
    exact hif

theorem noUnd_snap_isv {b : Block} (h : cleanBlockB b = true) :
    ∀ d, b.snapshot.bind Snapshot.isvData = some d → noUnd d = true := by
  intro d hd
  cases hsn : b.snapshot with
  | none => rw [hsn] at hd; cases hd
  | some sn =>
    rw [hsn] at hd
    have hcs := cleanBlockB_snap h sn hsn
    simp only [cleanSnapB, Bool.and_eq_true] at hcs
    have hisv := hcs.2
    rw [show ((some sn : Option Snapshot).bind Snapshot.isvData) = sn.isvData
      from rfl] at hd
    rw [hd] at hisv
    exact hisv

theorem piecesOkU_imageToMd {b : Block} (h : cleanBlockB b = true) :
    PiecesOkU (imageToMd b).1 ((imageToMd b).2.map ImgRec.token) := by
  simp only [imageToMd]
  split
  · exact .nil
  · rename_i img himg
    have himgc : noUnd img.name = true ∧ tokOkB img.token = true := by
      cases hsn : b.snapshot with
      | none => rw [hsn] at himg; cases himg
      | some sn =>
        rw [hsn] at himg
        have hcs := cleanBlockB_snap h sn hsn
        simp only [cleanSnapB, Bool.and_eq_true] at hcs
        have himg2 := hcs.1.1.1.1
        rw [show ((some sn : Option Snapshot).bind Snapshot.image) = sn.image
          from rfl] at himg
        rw [himg] at himg2
        simpa [Bool.and_eq_true] using himg2
    have hname : noUnd (if img.name = [] then "image".toList else img.name) = true :=
      noUnd_ite _ (by decide) himgc.1
    split
    · show PiecesOkU ("![".toList ++ (if img.name = [] then "image".toList else img.name)
        ++ "](".toList ++ markerStr ++ img.token ++ ")".toList) [img.token]
      have hassoc : ("![".toList ++ (if img.name = [] then "image".toList else img.name)
          ++ "](".toList ++ markerStr ++ img.token ++ ")".toList : Str) =
          ("![".toList ++ (if img.name = [] then "image".toList else img.name)
            ++ "](".toList) ++ (markerStr ++ (img.token ++ ')' :: [])) := by
        simp [List.append_assoc]
      rw [hassoc]
      refine PiecesOkU.plain _ ?_ (PiecesOkU.ph img.token himgc.2 ?_)
      · rw [noUnd_append, noUnd_append, hname]
        decide
      · exact PiecesOkU.plain [')'] (by decide) PiecesOkU.nil
    · show PiecesOkU ("![".toList ++ (if img.name = [] then "image".toList else img.name)
        ++ "]()".toList) []
      exact .plainOnly (by rw [noUnd_append, noUnd_append, hname]; decide)

/-- Main invariant: on a clean tree, the rendered markdown decomposes into
underscore-free plain pieces and the placeholder pieces of exactly the
emitted image tokens, in order. -/
theorem piecesOkU_blockToMd {dec : Str → Option Str} {env : SheetEnv}
    (hdec : ∀ s r, dec s = some r → noUnd s = true → noUnd r = true)
    (henv : CleanEnv env) :
    ∀ (n : Nat) (b : Block), sizeOf b ≤ n → ∀ (parent : Option Block) (depth : Nat),
      cleanBlockB b = true →
      PiecesOkU (blockToMd dec env b parent depth).1
        ((blockToMd dec env b parent depth).2.map ImgRec.token) := by
  intro n
  induction n with
  | zero =>
    intro b hb parent depth _
    obtain ⟨i, ty, sn, zs, rc, im, lg, cs⟩ := b
    simp only [Block.mk.sizeOf_spec] at hb
    omega
  | succ n ih =>
    intro b hb parent depth hclean
    have htext : noUnd (blockText dec b) = true := noUnd_blockText hdec hclean
    have hparts : ∀ (d2 : Nat), ∀ p ∈ (flatChildrenP b.children b).map
        (fun cq => blockToMd dec env cq.1 (some cq.2) d2),
        PiecesOkU p.1 (p.2.map ImgRec.token) := by
      intro d2 p hp
      rw [List.mem_map] at hp
      obtain ⟨cq, hcq, rfl⟩ := hp
      have hcqclean := clean_flatChildrenP b.children b (cleanBlockB_children hclean) cq hcq
      have hsize : sizeOf cq.1 ≤ n := by
        have hs1 := sizeOf_fst_of_mem_flatChildrenP b.children b cq hcq
        have hs2 := sizeOf_children_lt b
        omega
      exact ih cq.1 hsize (some cq.2) d2 hcqclean
    rw [blockToMd]
    by_cases h1 : b.type = "page"
    · rw [if_pos h1]
      simp only [List.map_subtype, List.unattach_attach]
      exact piecesOkU_joinSep_parts _ (by decide) _ (hparts 0)
    rw [if_neg h1]
    by_cases h2 : b.type = "heading1"
    · rw [if_pos h2]
      exact .plainOnly (by rw [noUnd_append, htext]; decide)
    rw [if_neg h2]
    by_cases h3 : b.type = "heading2"
    · rw [if_pos h3]
      exact .plainOnly (by rw [noUnd_append, htext]; decide)
    rw [if_neg h3]
    by_cases h4 : b.type = "heading3"
    · rw [if_pos h4]
      exact .plainOnly (by rw [noUnd_append, htext]; decide)
    rw [if_neg h4]
    by_cases h5 : b.type = "heading4"
    · rw [if_pos h5]
      exact .plainOnly (by rw [noUnd_append, htext]; decide)
    rw [if_neg h5]
    by_cases h6 : b.type = "heading5"
    · rw [if_pos h6]
      exact .plainOnly (by rw [noUnd_append, htext]; decide)
    rw [if_neg h6]
    by_cases h7 : b.type = "heading6"
    · rw [if_pos h7]
      exact .plainOnly (by rw [noUnd_append, htext]; decide)
    rw [if_neg h7]
    by_cases h8 : b.type = "heading7" ∨ b.type = "heading8" ∨ b.type = "heading9"
    · rw [if_pos h8]
      exact .plainOnly htext
    rw [if_neg h8]
    by_cases h9 : b.type = "text"
    · rw [if_pos h9]
      exact .plainOnly htext
    rw [if_neg h9]
    by_cases h10 : b.type = "divider"
    · rw [if_pos h10]
      exact .plainOnly (by decide)
    rw [if_neg h10]
    by_cases h11 : b.type = "code"
    · rw [if_pos h11]
      exact .plainOnly (by
        rw [noUnd_append, noUnd_append, noUnd_append, noUnd_append,
          noUnd_codeLang hclean, noUnd_codeRaw hclean]
        decide)
    rw [if_neg h11]
    by_cases h12 : b.type = "quote_container" ∨ b.type = "callout"
    · rw [if_pos h12]
      simp only [List.map_subtype, List.unattach_attach]
      exact piecesOkU_quote (piecesOkU_joinSep_parts _ (by decide) _ (hparts depth))
    rw [if_neg h12]
    by_cases h13 : b.type = "bullet"
    · rw [if_pos h13]
      simp only [List.map_subtype, List.unattach_attach]
      have hbase : noUnd (indentSp depth ++ "- ".toList ++ blockText dec b) = true := by
        rw [noUnd_append, noUnd_append, noUnd_indentSp, htext]
        decide
      split
      · dsimp only
        split
        · refine PiecesOkU.plain _ ?_
            (piecesOkU_joinSep_filter _ (by decide) _ (hparts (depth + 1)))
          rw [noUnd_append, hbase]
          decide
        · rename_i hsubn
          have hft := List.length_eq_zero.mp (not_ne_iff.mp hsubn)
          have hzero := filter_nil_flatMap (hparts (depth + 1)) hft
          rw [hzero]
          simp only [List.map_nil]
          exact .plainOnly hbase
      · dsimp only
        exact .plainOnly hbase
    rw [if_neg h13]
    by_cases h14 : b.type = "ordered"
    · rw [if_pos h14]
      simp only [List.map_subtype, List.unattach_attach]
      have hbase : noUnd (indentSp depth
          ++ orderedSeqStr (b.snapshot.bind Snapshot.seq) parent b
          ++ ". ".toList ++ blockText dec b) = true := by
        rw [noUnd_append, noUnd_append, noUnd_append, noUnd_indentSp,
          noUnd_orderedSeqStr hclean parent, htext]
        decide
      split
      · dsimp only
        split
        · refine PiecesOkU.plain _ ?_
            (piecesOkU_joinSep_filter _ (by decide) _ (hparts (depth + 1)))
          rw [noUnd_append, hbase]
          decide
        · rename_i hsubn
          have hft := List.length_eq_zero.mp (not_ne_iff.mp hsubn)
          have hzero := filter_nil_flatMap (hparts (depth + 1)) hft
          rw [hzero]
          simp only [List.map_nil]
          exact .plainOnly hbase
      · dsimp only
        exact .plainOnly hbase
    rw [if_neg h14]
    by_cases h15 : b.type = "todo"
    · rw [if_pos h15]
      exact .plainOnly (by
        rw [noUnd_append, noUnd_append, noUnd_append, htext,
          noUnd_ite _ (by decide : noUnd "x".toList = true)
            (by decide : noUnd " ".toList = true)]
        decide)
    rw [if_neg h15]
    by_cases h16 : b.type = "table"
    · rw [if_pos h16]
      exact .plainOnly (noUnd_tableToMd hdec hclean)
    rw [if_neg h16]
    by_cases h17 : b.type = "sheet"
    · rw [if_pos h17]
      exact .plainOnly (noUnd_sheetToMd henv b)
    rw [if_neg h17]
    by_cases h18 : b.type = "image"
    · rw [if_pos h18]
      exact piecesOkU_imageToMd hclean
    rw [if_neg h18]
    by_cases h19 : b.type = "grid"
    · rw [if_pos h19]
      simp only [List.map_subtype, List.unattach_attach]
      apply piecesOkU_joinSep_parts _ (by decide)
      intro p hp
      rw [List.mem_map] at hp
      obtain ⟨col, hcol, rfl⟩ := hp
      dsimp only
      apply piecesOkU_joinSep_parts _ (by decide)
      intro q hq
      rw [List.mem_map] at hq
      obtain ⟨ch, hch, rfl⟩ := hq
      have hclean2 := cleanBlockB_children (cleanBlockB_children hclean col hcol) ch hch
      have hsize : sizeOf ch ≤ n := by
        have a1 := List.sizeOf_lt_of_mem hcol
        have a2 := List.sizeOf_lt_of_mem hch
        have a3 := sizeOf_children_lt col
        have a4 := sizeOf_children_lt b
        omega
      exact ih ch hsize none depth hclean2
    rw [if_neg h19]
    by_cases h20 : b.type = "iframe"
    · rw [if_pos h20]
      split
      · rename_i u hiu
        split
        · have hu := noUnd_snap_iframe hclean u hiu
          exact .plainOnly (by rw [noUnd_append, noUnd_append, hu]; decide)
        · exact .nil
      · exact .nil
    rw [if_neg h20]
    by_cases h21 : b.type = "isv"
    · rw [if_pos h21]
      split
      · rename_i d hd
        split
        · have hdn := noUnd_snap_isv hclean d hd
          exact .plainOnly (by rw [noUnd_append, noUnd_append, hdn]; decide)
        · exact .nil
      · exact .nil
    rw [if_neg h21]
    exact .plainOnly htext

/-! ## Claim C7: assembling the round-trip theorem, with the concrete
counterexample to the unconditional claim -/

/-- Introduction rule for `cleanBlockB`, matching its four conjuncts. -/
theorem cleanBlockB_intro (i ty : String) (sn : Option Snapshot)
    (zs : Option ZoneState) (rc : Option RecordId) (im : Bool)
    (lg : Option Str) (cs : List Block)
    (hz : (match zs with | some z => cleanZoneB z | none => true) = true)
    (hs : (match sn with | some s => cleanSnapB s | none => true) = true)
    (hl : (match lg with | some l => noUnd l | none => true) = true)
    (hc : ∀ c ∈ cs, cleanBlockB c = true) :
    cleanBlockB (.mk i ty sn zs rc im lg cs) = true := by
  rw [cleanBlockB.eq_def]
  simp only [Bool.and_eq_true, List.all_eq_true]
  refine ⟨⟨⟨hz, hs⟩, hl⟩, ?_⟩
  intro x _
  obtain ⟨c, hcm⟩ := x
  exact hc c hcm

/-- An image block carrying token `a` and name `pic`, fetch-capable. -/
def c7Img (i : String) : Block :=
  .mk i "image"
    (some { Snapshot.empty with image := some ⟨"a".toList, "pic".toList⟩ })
    none none true none []

/-- A page whose two image children carry the same token `a`. -/
def c7Root : Block := blk "r" "page" [c7Img "i1", c7Img "i2"]

/-- A page with a single image child carrying token `a`. -/
def c7WRoot : Block := blk "r" "page" [c7Img "w1"]

theorem c7Img_clean (i : String) : cleanBlockB (c7Img i) = true := by
  simp only [c7Img]
  apply cleanBlockB_intro
  · decide
  · decide
  · decide
  · intro c hcm
    exact absurd hcm (List.not_mem_nil c)

theorem c7WRoot_clean : cleanBlockB c7WRoot = true := by
  simp only [c7WRoot, blk]
  apply cleanBlockB_intro
  · decide
  · decide
  · decide
  · intro c hcm
    rw [List.mem_singleton] at hcm
    rw [hcm]
    exact c7Img_clean "w1"

theorem c7img_eval (i : String) (p : Option Block) (d : Nat) :
    blockToMd decId emptyEnv (c7Img i) p d =
      ("![pic](__IMAGE_TOKEN__a)".toList, [⟨"a".toList, "pic".toList, i⟩]) := by
  rw [blockToMd]
  rfl

set_option maxRecDepth 8192 in
theorem c7_eval : blockToMd decId emptyEnv c7Root none 0 =
    ("![pic](__IMAGE_TOKEN__a)\n\n![pic](__IMAGE_TOKEN__a)".toList,
     [⟨"a".toList, "pic".toList, "i1"⟩, ⟨"a".toList, "pic".toList, "i2"⟩]) := by
  have hstep : blockToMd decId emptyEnv c7Root none 0 =
      (joinSep "\n\n".toList
         ([blockToMd decId emptyEnv (c7Img "i1") (some c7Root) 0,
           blockToMd decId emptyEnv (c7Img "i2") (some c7Root) 0].map Prod.fst),
       [blockToMd decId emptyEnv (c7Img "i1") (some c7Root) 0,
        blockToMd decId emptyEnv (c7Img "i2") (some c7Root) 0].flatMap Prod.snd) := by
    rw [blockToMd]
    rfl
  rw [hstep]
  simp only [c7img_eval]
  rfl

set_option maxRecDepth 8192 in
theorem c7w_eval : blockToMd decId emptyEnv c7WRoot none 0 =
    ("![pic](__IMAGE_TOKEN__a)".toList, [⟨"a".toList, "pic".toList, "w1"⟩]) := by
  have hstep : blockToMd decId emptyEnv c7WRoot none 0 =
      (joinSep "\n\n".toList
         ([blockToMd decId emptyEnv (c7Img "w1") (some c7WRoot) 0].map Prod.fst),
       [blockToMd decId emptyEnv (c7Img "w1") (some c7WRoot) 0].flatMap Prod.snd) := by
    rw [blockToMd]
    rfl
  rw [hstep]
  simp only [c7img_eval]
  rfl

/-- Claim C7 counterexample: the claim's universal "for every document
tree, every placeholder token emitted by rendering appears exactly once in
the pre-resolution text" fails when two image blocks carry the same token:
a page with two such children emits the token (it is in the image list)
but its placeholder appears twice, not once, in the rendered markdown. -/
theorem placeholder_roundtrip_counterexample :
    ∃ res, extract decId emptyEnv (some c7Root) = .ok res ∧
      "a".toList ∈ res.images.map ImgRec.token ∧
      countOcc (markerStr ++ "a".toList) res.markdown = 2 := by
  refine ⟨⟨(blockToMd decId emptyEnv c7Root none 0).1,
    (blockToMd decId emptyEnv c7Root none 0).2, [], 2⟩, rfl, ?_, ?_⟩
  · rw [c7_eval]
    decide
  · rw [c7_eval]
    decide

/-- Claim C7 as amended: for every document tree whose blocks are clean
(no raw underscores in any rendered text source), rendered in a clean
sheet environment with an underscore-preserving decoder, such that the
emitted token list has no duplicates and no emitted token is a proper
prefix of another, every emitted placeholder token appears exactly once
as a placeholder substring `__IMAGE_TOKEN__<token>` of the pre-resolution
markdown, and for every emitted token whose resolve and fetch both
succeed with a non-empty payload, the placeholder is fully absent from
the post-resolution text. -/
theorem placeholder_roundtrip (dec : Str → Option Str) (env : SheetEnv)
    (resolve fetch : Str → Option Str) (folder : Str) (root : Block)
    (res : ExtractResult)
    (hdec : ∀ s r, dec s = some r → noUnd s = true → noUnd r = true)
    (henv : CleanEnv env)
    (hclean : cleanBlockB root = true)
    (hfolder : noUnd folder = true)
    (hres : extract dec env (some root) = .ok res)
    (hnd : (res.images.map ImgRec.token).Nodup)
    (hpf : ∀ t1 ∈ res.images.map ImgRec.token, ∀ t2 ∈ res.images.map ImgRec.token,
        t1.isPrefixOf t2 = true → t1 = t2) :
    ∀ t ∈ res.images.map ImgRec.token,
      countOcc (markerStr ++ t) res.markdown = 1 ∧
      ∀ url b64, resolve t = some url → fetch url = some b64 → b64 ≠ [] →
        countOcc (markerStr ++ t)
          ((resolve_and_download_images resolve fetch folder res.markdown).text) = 0 := by
  have hro : res.markdown = (blockToMd dec env root none 0).1 ∧
      res.images = (blockToMd dec env root none 0).2 := by
    simp only [extract] at hres
    injection hres with h
    rw [← h]
    exact ⟨rfl, rfl⟩
  obtain ⟨hmd, himg⟩ := hro
  have hU := piecesOkU_blockToMd hdec henv (sizeOf root) root le_rfl none 0 hclean
  have hW : PiecesOkW res.markdown (res.images.map ImgRec.token) := by
    rw [hmd, himg]
    exact piecesOkW_of_piecesOkU hU
  have hallok := piecesOkW_toks_ok hW
  intro t htmem
  have htok := hallok t htmem
  refine ⟨?_, ?_⟩
  · rw [countOcc_piecesOkW htok hW]
    refine countP_eq_one_of hnd t htmem ?_
    intro tk htk
    constructor
    · intro hptk
      exact (hpf t htmem tk htk hptk).symm
    · intro he
      rw [he]
      exact isPrefixOf_refl t
  · intro url b64 hresu hfet hb
    exact resolution_removes resolve fetch folder hfolder hW hpf t htmem url b64
      hresu hfet hb

/-- Witness for the amended C7 theorem: a one-image page, identity
decoder, empty environment, and a resolve/fetch pair that succeeds; the
token's placeholder occurs once before resolution and zero times after. -/
theorem placeholder_roundtrip_witness :
    countOcc (markerStr ++ "a".toList)
        (blockToMd decId emptyEnv c7WRoot none 0).1 = 1 ∧
    countOcc (markerStr ++ "a".toList)
        ((resolve_and_download_images (fun _ => some "u.png".toList)
          (fun _ => some "D".toList) "assets".toList
          (blockToMd decId emptyEnv c7WRoot none 0).1).text) = 0 := by
  have hdec : ∀ s r, decId s = some r → noUnd s = true → noUnd r = true := by
    intro s r h hs
    injection h with h2
    rw [← h2]
    exact hs
  have henv : CleanEnv emptyEnv :=
    ⟨fun _ _ h => Option.noConfusion h, fun _ _ h => Option.noConfusion h,
     fun _ _ h => Option.noConfusion h⟩
  have h := placeholder_roundtrip decId emptyEnv (fun _ => some "u.png".toList)
      (fun _ => some "D".toList) "assets".toList c7WRoot
      ⟨(blockToMd decId emptyEnv c7WRoot none 0).1,
       (blockToMd decId emptyEnv c7WRoot none 0).2, [], 1⟩
      hdec henv c7WRoot_clean (by decide) rfl
      (by rw [c7w_eval]; decide)
      (by rw [c7w_eval]; decide)
  have h2 := h "a".toList (by rw [c7w_eval]; decide)
  exact ⟨h2.1, h2.2 "u.png".toList "D".toList rfl rfl (by decide)⟩

end Feishu


